import Mathlib

/-!
Branch-and-bound scheduler (`ext/branchy/branchy.c`, `ext/Scheduler/Scheduler.c`)

A shallow embedding of the C search engine and of the part of the Ruby binding
that builds the schedule.

Modelling conventions.

* A `float` value is the rational (`ℚ`) it stands for, and `int` values are
  `Int`.  The conversion of a `double` to `float` is `float_of`, the rounding to
  the nearest single-precision value; `method_schedule_set_weight` stores the
  weights through it.  The functions of the search are embedded twice where
  they add weights: over exact rationals (`fill_step`, `copy_step`,
  `branch_child` and what is built from them), and with every sum rounded by
  `float_of` as the C code computes it (the same names with the suffix `_f32`).
  The two agree whenever every sum is a single-precision value.
* `int` arithmetic wraps around at 32 bits (`wrap32`); a division by zero stops
  the program with `Err.divByZero`.
* Every `solution_t` lives in a heap cell.  An address is a natural number,
  `calloc`/`malloc` of a `solution_t[people]` array is a bump allocation of
  `people` consecutive cells, and a null pointer is `none`.
* The arrays `used_person_id_map` and `node_list` are owned by exactly one
  `solution_t` and are never aliased, so they are stored by value as lists; a
  null array is the empty list.
* An access outside an array, or through a null pointer, is undefined behaviour
  in C; the embedding stops with `Err.outOfBounds` or `Err.nullDeref`.
* The recursion of `expand_branch` and its `while` loop are driven by two fuel
  counters; running out of either is `Err.outOfFuel`.
* The `debug` flag is the constant `0`, so the diagnostic `printf` calls are
  left out.  The value `total_possible_solutions`, which only they read, is
  computed whatever `debug` is, and so it is in the embedding.
-/

/-- Ways in which a run of the embedded C code can stop without a result. -/
inductive Err where
  | outOfBounds
  | nullDeref
  | outOfFuel
  | divByZero
deriving DecidableEq, Repr

instance instDecidableEqExcept {ε α : Type} [DecidableEq ε] [DecidableEq α] :
    DecidableEq (Except ε α)
  | .ok a, .ok b =>
    if h : a = b then isTrue (by rw [h]) else isFalse (fun e => h (by cases e; rfl))
  | .error a, .error b =>
    if h : a = b then isTrue (by rw [h]) else isFalse (fun e => h (by cases e; rfl))
  | .ok _, .error _ => isFalse (fun e => by cases e)
  | .error _, .ok _ => isFalse (fun e => by cases e)

/-- The C macro `SLOT_WEIGHT_INITIAL_VAL`. -/
def SLOT_WEIGHT_INITIAL_VAL : ℚ := -1

/-- The C struct `node_t`: one slot of a solution. -/
structure node_t where
  person_id : Int
  weight : ℚ
deriving DecidableEq

/-- The C struct `solution_t`.  `children` is the base address of the array of
child structs, `parent` the address of the parent struct. -/
structure solution_t where
  active : Int
  total_weight : ℚ
  total_depth : Int
  total_children : Int
  used_person_id_map : List Int
  node_list : List node_t
  parent : Option Nat
  children : Option Nat

/-- A zero-filled `solution_t`, as `calloc` returns it. -/
def solution_t.zero : solution_t :=
  { active := 0, total_weight := 0, total_depth := 0, total_children := 0,
    used_person_id_map := [], node_list := [], parent := none, children := none }

/-- The heap of `solution_t` cells together with the module-level variables
`num_expanded_solutions`, `incumbent_solution` and `incumbent_value`. -/
structure State where
  heap : Nat → solution_t
  brk : Nat
  num_expanded_solutions : Int
  incumbent_solution : Option Nat
  incumbent_value : ℚ

/-- Store `v` at address `a`. -/
def State.write (σ : State) (a : Nat) (v : solution_t) : State :=
  { σ with heap := fun x => if x = a then v else σ.heap x }

/-- Allocate `n` zero-filled cells; returns the base address. -/
def State.calloc (σ : State) (n : Nat) : Nat × State :=
  (σ.brk, { σ with heap := fun x => if σ.brk ≤ x ∧ x < σ.brk + n then solution_t.zero else σ.heap x,
                   brk := σ.brk + n })

/-- Read `a[i]` of an `int` array. -/
def readInt (a : List Int) (i : Int) : Except Err Int :=
  if i < 0 then .error .outOfBounds
  else match a[i.toNat]? with
    | some v => .ok v
    | none => .error .outOfBounds

/-- Write `a[i] = v` of an `int` array. -/
def writeInt (a : List Int) (i : Int) (v : Int) : Except Err (List Int) :=
  if i < 0 then .error .outOfBounds
  else if i.toNat < a.length then .ok (a.set i.toNat v)
  else .error .outOfBounds

/-- Read `a[i]` of a `node_t` array. -/
def readNode (a : List node_t) (i : Nat) : Except Err node_t :=
  match a[i]? with
  | some v => .ok v
  | none => .error .outOfBounds

/-- Write `a[i] = v` of a `node_t` array. -/
def writeNode (a : List node_t) (i : Nat) (v : node_t) : Except Err (List node_t) :=
  if i < a.length then .ok (a.set i v) else .error .outOfBounds

/-- Read `weights[i][j]` of the weight grid. -/
def readWeight (w : List (List ℚ)) (i j : Nat) : Except Err ℚ :=
  match w[i]? with
  | none => .error .outOfBounds
  | some row =>
    match row[j]? with
    | some v => .ok v
    | none => .error .outOfBounds

/-- The address `&(s->children[i])` in an array of `people` structs. -/
def childAddr (people : Int) (s : solution_t) (i : Nat) : Except Err Nat :=
  match s.children with
  | none => .error .nullDeref
  | some b => if (i : Int) < people then .ok (b + i) else .error .outOfBounds

/-- The value of an `int` expression after wrap-around to 32 bits (two's
complement).  C leaves the result of a signed overflow open; the embedding
takes the wrap-around of the machine arithmetic. -/
def wrap32 (x : Int) : Int := (x + 2147483648) % 4294967296 - 2147483648

/-- The C function `fact` (of both files): the product `1 * 1 * 2 * ... * n` in
`int` arithmetic, and `1` when `n < 1`. -/
def fact (n : Int) : Int :=
  (List.range n.toNat).foldl (fun (result : Int) (i : Nat) => wrap32 (result * ((i : Int) + 1))) 1

/-- The quotient `a / b` of two `int` values; a zero divisor, and the quotient
`INT_MIN / -1`, stop the program. -/
def int_div (a b : Int) : Except Err Int :=
  if b = 0 then .error .divByZero
  else if a = -2147483648 ∧ b = -1 then .error .divByZero
  else .ok (a.tdiv b)

/-- The nearest natural number to `n / d`, the even one when two are equally
near (`d` is positive). -/
def round_half_even (n d : Nat) : Nat :=
  if 2 * (n % d) < d then n / d
  else if d < 2 * (n % d) then n / d + 1
  else if (n / d) % 2 = 0 then n / d else n / d + 1

/-- The number of halvings that bring `n` below `2`, at most `fuel` of them. -/
def halvings : Nat → Nat → Nat
  | 0, _ => 0
  | fuel + 1, n => if n < 2 then 0 else halvings fuel (n / 2) + 1

/-- The integer `e` with `2 ^ e ≤ n / d < 2 ^ (e + 1)`, for positive `n` and `d`. -/
def floor_log2 (n d : Nat) : Int :=
  let e0 : Int := (halvings n n : Int) - (halvings d d : Int)
  if 0 ≤ e0 then (if d * 2 ^ e0.toNat ≤ n then e0 else e0 - 1)
  else (if d ≤ n * 2 ^ (-e0).toNat then e0 else e0 - 1)

/-- The conversion of a `double` to `float`, as an assignment to a `float`
object performs it: the nearest value with a significand of 24 bits and an
exponent of at least `-149` for the last bit, the one with an even significand
when two are equally near.  A result of magnitude `2 ^ 128` or more stands for
the infinity that the conversion gives; the statements about sums below are
restricted to values inside the range (`IsFloat`). -/
def float_of (q : ℚ) : ℚ :=
  if q = 0 then 0
  else
    let n := q.num.natAbs
    let d := q.den
    let k : Int := max (floor_log2 n d - 23) (-149)
    let a : ℚ :=
      if 0 ≤ k then ((round_half_even n (d * 2 ^ k.toNat) * 2 ^ k.toNat : Nat) : ℚ)
      else ((round_half_even (n * 2 ^ (-k).toNat) d : Nat) : ℚ) / ((2 ^ (-k).toNat : Nat) : ℚ)
    if q < 0 then -a else a

/-- The rational `q` is a single-precision value: the conversion to `float`
leaves it as it is, and it lies inside the `float` range, below `2 ^ 128` in
magnitude. -/
@[reducible] def IsFloat (q : ℚ) : Prop :=
  float_of q = q ∧ -340282366920938463463374607431768211456 < q ∧
    q < 340282366920938463463374607431768211456

namespace Branchy

/-- The C struct `context_t` of `branchy.c`. -/
structure context_t where
  num_values : Nat
  values : List Int
deriving DecidableEq

/-- The C struct `schedule_t` of `branchy.c`. -/
structure schedule_t where
  num_people : Int
  num_slots : Int
  num_constraints : Int
  weights : List (List ℚ)
  attribs : List context_t
  constraints : List context_t
deriving DecidableEq

/-- One pass of the loop body of `solution_is_feasible`. -/
def feasible_step (s : solution_t) (acc : List Int × Int) (i : Nat) :
    Except Err (List Int × Int) := do
  let n ← readNode s.node_list i
  let p := n.person_id
  let v ← readInt acc.1 p
  if v = 0 then
    let m ← writeInt acc.1 p 1
    pure (m, acc.2 + 1)
  else
    pure acc

/-- The C function `solution_is_feasible`. -/
def solution_is_feasible (sched : schedule_t) (s : solution_t) : Except Err Int := do
  let r ← (List.range sched.num_slots.toNat).foldlM (feasible_step s)
    (List.replicate sched.num_people.toNat (0 : Int), (0 : Int))
  if r.2 = sched.num_slots then pure 1 else pure 0

/-- The `while` loop of `solution_is_active`, started at index `i` with
`ret_val == 0`; `n` bounds the remaining indices. -/
def solution_is_active_loop (sched : schedule_t) (σ : State) (s : solution_t) :
    Nat → Nat → Except Err Int
  | 0, _ => pure 0
  | n + 1, i => do
    let c ← childAddr sched.num_people s i
    let r := (σ.heap c).active
    if r = 0 then solution_is_active_loop sched σ s n (i + 1) else pure r

/-- The C function `solution_is_active`. -/
def solution_is_active (sched : schedule_t) (σ : State) (s : Nat) : Except Err Int :=
  solution_is_active_loop sched σ (σ.heap s) (σ.heap s).total_children.toNat 0

/-- One pass of the loop body of `max_cost_for_slot`. -/
def max_cost_step (sched : schedule_t) (slot_id : Nat) (constraint_map : List Int)
    (acc : ℚ × Int) (i : Nat) : Except Err (ℚ × Int) := do
  let w ← readWeight sched.weights i slot_id
  if w > acc.1 then
    let c ← readInt constraint_map i
    if c = 0 then pure (w, (i : Int)) else pure acc
  else
    pure acc

/-- The C function `max_cost_for_slot`; returns `(max, *person_id)`. -/
def max_cost_for_slot (sched : schedule_t) (slot_id : Nat) (constraint_map : List Int) :
    Except Err (ℚ × Int) :=
  (List.range sched.num_people.toNat).foldlM (max_cost_step sched slot_id constraint_map)
    (SLOT_WEIGHT_INITIAL_VAL, (-1 : Int))

/-- One pass of the loop body of `prune_branch`. -/
def prune_step (sched : schedule_t) (branch : Nat) (σ : State) (i : Nat) : Except Err State := do
  let c ← childAddr sched.num_people (σ.heap branch) i
  pure (σ.write c { σ.heap c with active := 0 })

/-- The C function `prune_branch`. -/
def prune_branch (sched : schedule_t) (σ : State) (branch : Option Nat) : Except Err State :=
  match branch with
  | none => pure σ
  | some b => do
    let σ1 ← (List.range (σ.heap b).total_children.toNat).foldlM (prune_step sched b) σ
    pure (σ1.write b { σ1.heap b with active := 0 })

/-- The C function `update_incumbent_and_branch`. -/
def update_incumbent_and_branch (sched : schedule_t) (σ : State) (s : Nat) : Except Err State :=
  let σ1 : State :=
    if (σ.heap s).total_weight > σ.incumbent_value then
      { σ with incumbent_solution := some s, incumbent_value := (σ.heap s).total_weight }
    else σ
  prune_branch sched σ1 (some s)

/-- One pass of the slot-filling loop shared by `create_root` and `create_branch`:
the best unused entity for slot `j` is stored and its weight added.  The sum
is the exact one; `fill_step_f32` rounds it as the `float` addition of the C
code does. -/
def fill_step (sched : schedule_t) (s : solution_t) (j : Nat) : Except Err solution_t := do
  let r ← max_cost_for_slot sched j s.used_person_id_map
  let nl ← writeNode s.node_list j { person_id := r.2, weight := r.1 }
  pure { s with node_list := nl, total_weight := s.total_weight + r.1 }

/-- The C function `create_root`; the root struct is placed at the first free
address and its `children` array right behind it.  The array comes from
`malloc`; it is modelled as zero-filled, and `create_branch` writes every
struct of it before any is read, because the used-map of the root is empty. -/
def create_root (sched : schedule_t) (σ : State) : Except Err (Nat × State) := do
  let people := sched.num_people.toNat
  let slots := sched.num_slots.toNat
  let root := σ.brk
  let σ1 : State := { σ with brk := σ.brk + 1 }
  let a := σ1.calloc people
  let s0 : solution_t :=
    { active := 1, total_weight := 0, total_depth := 0, total_children := 0,
      used_person_id_map := List.replicate people 0,
      node_list := List.replicate slots { person_id := 0, weight := 0 },
      parent := none, children := some a.1 }
  let s ← (List.range slots).foldlM (fill_step sched) s0
  pure (root, a.2.write root s)

/-- One pass of the loop of `create_branch` that copies the locked slots.  The
sum is the exact one; `copy_step_f32` rounds it as the `float` addition of the C
code does. -/
def copy_step (r : solution_t) (s : solution_t) (j : Nat) : Except Err solution_t := do
  let n ← readNode r.node_list j
  let nl ← writeNode s.node_list j { person_id := n.person_id, weight := n.weight }
  let m ← writeInt s.used_person_id_map n.person_id 1
  pure { s with node_list := nl, total_weight := s.total_weight + n.weight,
                used_person_id_map := m }

/-- The part of the loop body of `create_branch` that fills in the child struct
`s` for the entity `i`: `r` is the parent struct, `root` its address, `cb` the
address of the freshly allocated `children` array of the child and `iv` the
current `incumbent_value`.  The sums are the exact ones; `branch_child_f32`
rounds them as the `float` additions of the C code do. -/
def branch_child (sched : schedule_t) (r : solution_t) (root : Nat) (depth : Nat) (i : Nat)
    (cb : Nat) (iv : ℚ) : Except Err solution_t := do
  let s0 : solution_t :=
    { active := 1, total_weight := 0, total_depth := (depth : Int) + 1, total_children := 0,
      used_person_id_map := List.replicate sched.num_people.toNat 0,
      node_list := List.replicate sched.num_slots.toNat { person_id := 0, weight := 0 },
      parent := some root, children := some cb }
  let s1 ← (List.range depth).foldlM (copy_step r) s0
  let w ← readWeight sched.weights i 0
  let nl ← writeNode s1.node_list depth { person_id := (i : Int), weight := w }
  let m ← writeInt s1.used_person_id_map i 1
  let s2 : solution_t :=
    { s1 with node_list := nl, total_weight := s1.total_weight + w, used_person_id_map := m }
  let s3 ← (List.range' (depth + 1) (sched.num_slots.toNat - (depth + 1))).foldlM
    (fill_step sched) s2
  pure (if s3.total_weight < iv then { s3 with active := 0 } else s3)

/-- The body of the `for` loop of `create_branch` for the entity `i`. -/
def create_branch_step (sched : schedule_t) (root : Nat) (depth : Nat) (σ : State) (i : Nat) :
    Except Err State := do
  let u ← readInt (σ.heap root).used_person_id_map i
  if u = 1 then pure σ
  else
    let σ1 := σ.write root { σ.heap root with total_children := (σ.heap root).total_children + 1 }
    let c ← childAddr sched.num_people (σ1.heap root) i
    let a := σ1.calloc sched.num_people.toNat
    let s ← branch_child sched (a.2.heap root) root depth i a.1 a.2.incumbent_value
    pure (a.2.write c s)

/-- The C function `create_branch`. -/
def create_branch (sched : schedule_t) (σ : State) (root : Nat) (depth : Nat) : Except Err State :=
  (List.range sched.num_people.toNat).foldlM (create_branch_step sched root depth) σ

/-- The first loop of `select_branch`: walk up to the nearest active root.
`n` bounds the number of steps by the length of the parent chain. -/
def nearest_active (σ : State) : Nat → Option Nat → Except Err (Option Nat)
  | _, none => .error .nullDeref
  | 0, some _ => .error .outOfFuel
  | n + 1, some p =>
    if (σ.heap p).active = 0 ∧ (σ.heap p).total_depth > 0 then
      nearest_active σ n (σ.heap p).parent
    else pure (some p)

/-- One pass of the child scan of `select_branch`; the accumulator is
`(weight, *new_root)`. -/
def select_step (sched : schedule_t) (σ : State) (p : Nat) (acc : ℚ × Option Nat) (i : Nat) :
    Except Err (ℚ × Option Nat) := do
  let c ← childAddr sched.num_people (σ.heap p) i
  if (σ.heap c).active = 1 ∧ (σ.heap c).total_weight > acc.1 ∧
      (σ.heap c).total_weight > σ.incumbent_value then
    pure ((σ.heap c).total_weight, some c)
  else pure acc

/-- The C function `select_branch`; returns `*new_root` (the return value of the
C function is `1` exactly when `*new_root` is not null). -/
def select_branch (sched : schedule_t) (σ : State) (branch : Nat) : Except Err (Option Nat) := do
  let p ← nearest_active σ ((σ.heap branch).total_depth.toNat + 1) (some branch)
  match p with
  | none => pure none
  | some p =>
    let r ← (List.range (σ.heap p).total_children.toNat).foldlM (select_step sched σ p)
      (SLOT_WEIGHT_INITIAL_VAL, none)
    pure r.2

/-- The `while (root->active)` loop of `expand_branch`; `rec` is the recursive
call `expand_branch(new_root, depth + 1)` and the first argument bounds the
number of times the loop condition is evaluated. -/
def expand_loop (sched : schedule_t) (rec : State → Nat → Nat → Except Err State)
    (root : Nat) (depth : Nat) : Nat → State → Except Err State
  | 0, _ => .error .outOfFuel
  | n + 1, σ =>
    if (σ.heap root).active = 0 then pure σ
    else do
      let nr ← select_branch sched σ root
      match nr with
      | none => pure (σ.write root { σ.heap root with active := 0 })
      | some new_root =>
        let f ← solution_is_feasible sched (σ.heap new_root)
        let σ1 ← if f ≠ 0 then update_incumbent_and_branch sched σ new_root else pure σ
        let σ2 ← if (σ1.heap new_root).active ≠ 0 then rec σ1 new_root (depth + 1) else pure σ1
        let a ← solution_is_active sched σ2 root
        let σ3 := if a = 0 then σ2.write root { σ2.heap root with active := 0 } else σ2
        expand_loop sched rec root depth n σ3

/-- The C function `expand_branch`.  The first argument bounds the nesting of
the recursive calls, the second the evaluations of each loop condition. -/
def expand_branch (sched : schedule_t) : Nat → Nat → State → Nat → Nat → Except Err State
  | 0, _, _, _, _ => .error .outOfFuel
  | d + 1, l, σ, root, depth =>
    let σ0 : State := { σ with num_expanded_solutions := σ.num_expanded_solutions + 1 }
    if (depth : Int) = sched.num_slots then pure σ0
    else if (σ0.heap root).active = 0 then pure σ0
    else do
      let σ1 ← create_branch sched σ0 root depth
      expand_loop sched (expand_branch sched d l) root depth l σ1

/-- The state in which `method_schedule_compute_solution` starts the search. -/
def initial_state : State :=
  { heap := fun _ => solution_t.zero, brk := 0, num_expanded_solutions := 0,
    incumbent_solution := none, incumbent_value := SLOT_WEIGHT_INITIAL_VAL }

/-- The search of `method_schedule_compute_solution`: `create_root` followed by
`expand_branch(root, 0)`. -/
def run_search (sched : schedule_t) (d l : Nat) : Except Err State := do
  let r ← create_root sched initial_state
  expand_branch sched d l r.2 r.1 0

/-- The result loop of `method_schedule_compute_solution`: the person ids of the
incumbent, in slot order. -/
def result_array (sched : schedule_t) (σ : State) : Except Err (List Int) :=
  (List.range sched.num_slots.toNat).foldlM
    (fun (arr : List Int) (i : Nat) =>
      match σ.incumbent_solution with
      | none => .error .nullDeref
      | some inc => do
        let n ← readNode (σ.heap inc).node_list i
        pure (arr ++ [n.person_id]))
    []

/-- The C function `method_schedule_compute_solution`; `sched` is the global
pointer, which the function dereferences without a check.  The first line is
`total_possible_solutions = fact(people) / fact(people - slots)`. -/
def method_schedule_compute_solution (sched : Option schedule_t) (d l : Nat) :
    Except Err (List Int) :=
  match sched with
  | none => .error .nullDeref
  | some s => do
    let _ ← int_div (fact s.num_people) (fact (s.num_people - s.num_slots))
    let σ ← run_search s d l
    result_array s σ

/-- The loop body of `fill_step` with the `float` addition of the C code:
`total_weight += weight` rounds the sum. -/
def fill_step_f32 (sched : schedule_t) (s : solution_t) (j : Nat) : Except Err solution_t := do
  let r ← max_cost_for_slot sched j s.used_person_id_map
  let nl ← writeNode s.node_list j { person_id := r.2, weight := r.1 }
  pure { s with node_list := nl, total_weight := float_of (s.total_weight + r.1) }

/-- The C function `create_root` with the `float` additions of the C code. -/
def create_root_f32 (sched : schedule_t) (σ : State) : Except Err (Nat × State) := do
  let people := sched.num_people.toNat
  let slots := sched.num_slots.toNat
  let root := σ.brk
  let σ1 : State := { σ with brk := σ.brk + 1 }
  let a := σ1.calloc people
  let s0 : solution_t :=
    { active := 1, total_weight := 0, total_depth := 0, total_children := 0,
      used_person_id_map := List.replicate people 0,
      node_list := List.replicate slots { person_id := 0, weight := 0 },
      parent := none, children := some a.1 }
  let s ← (List.range slots).foldlM (fill_step_f32 sched) s0
  pure (root, a.2.write root s)

/-- The loop body of `copy_step` with the `float` addition of the C code. -/
def copy_step_f32 (r : solution_t) (s : solution_t) (j : Nat) : Except Err solution_t := do
  let n ← readNode r.node_list j
  let nl ← writeNode s.node_list j { person_id := n.person_id, weight := n.weight }
  let m ← writeInt s.used_person_id_map n.person_id 1
  pure { s with node_list := nl, total_weight := float_of (s.total_weight + n.weight),
                used_person_id_map := m }

/-- The body of `branch_child` with the `float` additions of the C code. -/
def branch_child_f32 (sched : schedule_t) (r : solution_t) (root : Nat) (depth : Nat) (i : Nat)
    (cb : Nat) (iv : ℚ) : Except Err solution_t := do
  let s0 : solution_t :=
    { active := 1, total_weight := 0, total_depth := (depth : Int) + 1, total_children := 0,
      used_person_id_map := List.replicate sched.num_people.toNat 0,
      node_list := List.replicate sched.num_slots.toNat { person_id := 0, weight := 0 },
      parent := some root, children := some cb }
  let s1 ← (List.range depth).foldlM (copy_step_f32 r) s0
  let w ← readWeight sched.weights i 0
  let nl ← writeNode s1.node_list depth { person_id := (i : Int), weight := w }
  let m ← writeInt s1.used_person_id_map i 1
  let s2 : solution_t :=
    { s1 with node_list := nl, total_weight := float_of (s1.total_weight + w),
              used_person_id_map := m }
  let s3 ← (List.range' (depth + 1) (sched.num_slots.toNat - (depth + 1))).foldlM
    (fill_step_f32 sched) s2
  pure (if s3.total_weight < iv then { s3 with active := 0 } else s3)

/-- The body of the `for` loop of `create_branch` with the `float` additions of
the C code. -/
def create_branch_step_f32 (sched : schedule_t) (root : Nat) (depth : Nat) (σ : State) (i : Nat) :
    Except Err State := do
  let u ← readInt (σ.heap root).used_person_id_map i
  if u = 1 then pure σ
  else
    let σ1 := σ.write root { σ.heap root with total_children := (σ.heap root).total_children + 1 }
    let c ← childAddr sched.num_people (σ1.heap root) i
    let a := σ1.calloc sched.num_people.toNat
    let s ← branch_child_f32 sched (a.2.heap root) root depth i a.1 a.2.incumbent_value
    pure (a.2.write c s)

/-- The C function `create_branch` with the `float` additions of the C code. -/
def create_branch_f32 (sched : schedule_t) (σ : State) (root : Nat) (depth : Nat) :
    Except Err State :=
  (List.range sched.num_people.toNat).foldlM (create_branch_step_f32 sched root depth) σ

/-- The C function `expand_branch` with the `float` additions of the C code
(in `create_branch`; the loop itself adds nothing). -/
def expand_branch_f32 (sched : schedule_t) : Nat → Nat → State → Nat → Nat → Except Err State
  | 0, _, _, _, _ => .error .outOfFuel
  | d + 1, l, σ, root, depth =>
    let σ0 : State := { σ with num_expanded_solutions := σ.num_expanded_solutions + 1 }
    if (depth : Int) = sched.num_slots then pure σ0
    else if (σ0.heap root).active = 0 then pure σ0
    else do
      let σ1 ← create_branch_f32 sched σ0 root depth
      expand_loop sched (expand_branch_f32 sched d l) root depth l σ1

/-- The search of `method_schedule_compute_solution` with the `float`
additions of the C code. -/
def run_search_f32 (sched : schedule_t) (d l : Nat) : Except Err State := do
  let r ← create_root_f32 sched initial_state
  expand_branch_f32 sched d l r.2 r.1 0

/-- The C function `method_schedule_compute_solution` with the `float`
additions of the C code. -/
def method_schedule_compute_solution_f32 (sched : Option schedule_t) (d l : Nat) :
    Except Err (List Int) :=
  match sched with
  | none => .error .nullDeref
  | some s => do
    let _ ← int_div (fact s.num_people) (fact (s.num_people - s.num_slots))
    let σ ← run_search_f32 s d l
    result_array s σ

/-- The C function `method_schedule_create`. -/
def method_schedule_create (number_of_slots : Int) : Option schedule_t :=
  some { num_people := 0, num_slots := number_of_slots, num_constraints := 0,
         weights := [], attribs := [], constraints := [] }

/-- The C function `method_schedule_set_weight`; returns the new value of the
global `sched` and the Ruby truth value handed back.  `weights` holds the
values that `NUM2DBL` returns for the entries of the Ruby array; each is stored
in a `float`. -/
def method_schedule_set_weight (sched : Option schedule_t) (weights : List ℚ)
    (attribute_ids : List Int) : Option schedule_t × Bool :=
  match sched with
  | none => (none, false)
  | some s =>
    if (weights.length : Int) ≠ s.num_slots then (some s, false)
    else
      (some { s with num_people := s.num_people + 1,
                     weights := s.weights ++ [weights.map float_of],
                     attribs := s.attribs ++
                       [{ num_values := attribute_ids.length, values := attribute_ids }] },
       true)

/-- Read `a[i]` of an array of `context_t` pointers; the array is the null
pointer as long as no entity has been added. -/
def readContext (a : List context_t) (i : Int) : Except Err context_t :=
  match a with
  | [] => .error .nullDeref
  | _ =>
    if i < 0 then .error .outOfBounds
    else match a[i.toNat]? with
      | some v => .ok v
      | none => .error .outOfBounds

/-- The C function `method_schedule_set_constraints`; returns the new value of
the global `sched` and the Ruby truth value handed back.  The parameter
`number_of_entities` is never read and is left out.  The new constraint set
gets a zero-filled `values` array, and the loop stores the caller's tags
through `sched->attribs[index]->values`, where `index` is the old
`num_constraints`. -/
def method_schedule_set_constraints (sched : Option schedule_t) (attribute_ids : List Int) :
    Except Err (Option schedule_t × Bool) :=
  match sched with
  | none => pure (none, false)
  | some s => do
    let index := s.num_constraints
    let c : context_t :=
      { num_values := attribute_ids.length, values := List.replicate attribute_ids.length 0 }
    let a ← readContext s.attribs index
    let vals ← (List.range c.num_values).foldlM
      (fun (v : List Int) (i : Nat) => writeInt v i (attribute_ids.getD i 0)) a.values
    pure (some { s with num_constraints := s.num_constraints + 1,
                        constraints := s.constraints ++ [c],
                        attribs := s.attribs.set index.toNat { a with values := vals } },
          true)

/-- The loop of `compare_contexts` over the remaining indices of `x->values`;
the second argument is `ret_val`. -/
def compare_contexts_loop (lfind : Int → context_t → Bool) (x y : context_t) :
    List Nat → Int → Except Err Int
  | [], ret_val => pure ret_val
  | i :: rest, _ => do
    let key ← readInt x.values i
    if lfind key y then compare_contexts_loop lfind x y rest 1 else pure 0

/-- The C function `compare_contexts`.  It hands the library function `lfind`
the address of the field `y->values` as the base of the array and the address
of `y->num_values` as its length, so what `lfind` finds depends on the memory
layout; its verdict for a key and the context `y` is the parameter `lfind`. -/
def compare_contexts (lfind : Int → context_t → Bool) (x y : context_t) : Except Err Int :=
  compare_contexts_loop lfind x y (List.range x.num_values) 0

/-- The `while (slot_id < sched->num_slots && !found)` loop of
`solution_validates_constraints`; `slot_id` is the variable of that name, which
the loop never changes, and the last two arguments are the fuel and `found`.
Returns `found`. -/
def validates_scan (sched : schedule_t) (lfind : Int → context_t → Bool)
    (constraint_set : context_t) (node_list : List Int) (slot_id : Nat) :
    Nat → Int → Except Err Int
  | 0, _ => .error .outOfFuel
  | n + 1, found =>
    if (slot_id : Int) < sched.num_slots ∧ found = 0 then do
      let entity_id ← readInt node_list slot_id
      if entity_id = -1 then
        validates_scan sched lfind constraint_set node_list slot_id n found
      else do
        let attributes_set ← readContext sched.attribs entity_id
        let f ← compare_contexts lfind constraint_set attributes_set
        validates_scan sched lfind constraint_set node_list slot_id n f
    else pure found

/-- The `for` loop of `solution_validates_constraints` over the remaining
constraint sets; the arguments are the fuel of each scan, the indices left, the
local copy `node_list` of the ids and `ret_val`. -/
def validates_loop (sched : schedule_t) (lfind : Int → context_t → Bool) (fuel : Nat) :
    List Nat → List Int → Int → Except Err Int
  | [], _, ret_val => pure ret_val
  | i :: rest, node_list, _ => do
    let constraint_set ← readContext sched.constraints i
    let slot_id := 0
    let found ← validates_scan sched lfind constraint_set node_list slot_id fuel 0
    if found ≠ 0 then do
      let nl ← writeInt node_list slot_id (-1)
      validates_loop sched lfind fuel rest nl 1
    else pure 0

/-- The C function `solution_validates_constraints`; `fuel` bounds the passes
of each `while` loop. -/
def solution_validates_constraints (sched : schedule_t) (lfind : Int → context_t → Bool)
    (s : solution_t) (fuel : Nat) : Except Err Int := do
  let node_list ← (List.range sched.num_slots.toNat).foldlM
    (fun (acc : List Int) (i : Nat) => do
      let n ← readNode s.node_list i
      pure (acc ++ [n.person_id]))
    []
  validates_loop sched lfind fuel (List.range sched.num_constraints.toNat) node_list 0

end Branchy

namespace Scheduler

/-- The C struct `schedule_t` of `Scheduler.c`. -/
structure schedule_t where
  num_people : Int
  num_slots : Int
  weights : List (List ℚ)
deriving DecidableEq

/-- One pass of the loop body of `solution_is_feasible`. -/
def feasible_step (s : solution_t) (acc : List Int × Int) (i : Nat) :
    Except Err (List Int × Int) := do
  let n ← readNode s.node_list i
  let p := n.person_id
  let v ← readInt acc.1 p
  if v = 0 then
    let m ← writeInt acc.1 p 1
    pure (m, acc.2 + 1)
  else
    pure acc

/-- The C function of `Scheduler.c` named `solution_is_feasible`. -/
def solution_is_feasible (sched : schedule_t) (s : solution_t) : Except Err Int := do
  let r ← (List.range sched.num_slots.toNat).foldlM (feasible_step s)
    (List.replicate sched.num_people.toNat (0 : Int), (0 : Int))
  if r.2 = sched.num_slots then pure 1 else pure 0

/-- The `while` loop of `solution_is_active`, started at index `i` with
`ret_val == 0`; `n` bounds the remaining indices. -/
def solution_is_active_loop (sched : schedule_t) (σ : State) (s : solution_t) :
    Nat → Nat → Except Err Int
  | 0, _ => pure 0
  | n + 1, i => do
    let c ← childAddr sched.num_people s i
    let r := (σ.heap c).active
    if r = 0 then solution_is_active_loop sched σ s n (i + 1) else pure r

/-- The C function of `Scheduler.c` named `solution_is_active`. -/
def solution_is_active (sched : schedule_t) (σ : State) (s : Nat) : Except Err Int :=
  solution_is_active_loop sched σ (σ.heap s) (σ.heap s).total_children.toNat 0

/-- One pass of the loop body of `max_cost_for_slot`. -/
def max_cost_step (sched : schedule_t) (slot_id : Nat) (constraint_map : List Int)
    (acc : ℚ × Int) (i : Nat) : Except Err (ℚ × Int) := do
  let w ← readWeight sched.weights i slot_id
  if w > acc.1 then
    let c ← readInt constraint_map i
    if c = 0 then pure (w, (i : Int)) else pure acc
  else
    pure acc

/-- The C function of `Scheduler.c` named `max_cost_for_slot`; returns `(max, *person_id)`. -/
def max_cost_for_slot (sched : schedule_t) (slot_id : Nat) (constraint_map : List Int) :
    Except Err (ℚ × Int) :=
  (List.range sched.num_people.toNat).foldlM (max_cost_step sched slot_id constraint_map)
    (SLOT_WEIGHT_INITIAL_VAL, (-1 : Int))

/-- One pass of the loop body of `prune_branch`. -/
def prune_step (sched : schedule_t) (branch : Nat) (σ : State) (i : Nat) : Except Err State := do
  let c ← childAddr sched.num_people (σ.heap branch) i
  pure (σ.write c { σ.heap c with active := 0 })

/-- The C function of `Scheduler.c` named `prune_branch`. -/
def prune_branch (sched : schedule_t) (σ : State) (branch : Option Nat) : Except Err State :=
  match branch with
  | none => pure σ
  | some b => do
    let σ1 ← (List.range (σ.heap b).total_children.toNat).foldlM (prune_step sched b) σ
    pure (σ1.write b { σ1.heap b with active := 0 })

/-- The C function of `Scheduler.c` named `update_incumbent_and_branch`. -/
def update_incumbent_and_branch (sched : schedule_t) (σ : State) (s : Nat) : Except Err State :=
  let σ1 : State :=
    if (σ.heap s).total_weight > σ.incumbent_value then
      { σ with incumbent_solution := some s, incumbent_value := (σ.heap s).total_weight }
    else σ
  prune_branch sched σ1 (some s)

/-- One pass of the slot-filling loop shared by `create_root` and `create_branch`:
the best unused entity for slot `j` is stored and its weight added.  The sum
is the exact one; the C code rounds it to `float` (see `Branchy.fill_step_f32`). -/
def fill_step (sched : schedule_t) (s : solution_t) (j : Nat) : Except Err solution_t := do
  let r ← max_cost_for_slot sched j s.used_person_id_map
  let nl ← writeNode s.node_list j { person_id := r.2, weight := r.1 }
  pure { s with node_list := nl, total_weight := s.total_weight + r.1 }

/-- The C function of `Scheduler.c` named `create_root`; the root struct is
placed at the first free address and its `children` array right behind it.
The array comes from `malloc`; it is modelled as zero-filled, and
`create_branch` writes every struct of it before any is read, because the
used-map of the root is empty. -/
def create_root (sched : schedule_t) (σ : State) : Except Err (Nat × State) := do
  let people := sched.num_people.toNat
  let slots := sched.num_slots.toNat
  let root := σ.brk
  let σ1 : State := { σ with brk := σ.brk + 1 }
  let a := σ1.calloc people
  let s0 : solution_t :=
    { active := 1, total_weight := 0, total_depth := 0, total_children := 0,
      used_person_id_map := List.replicate people 0,
      node_list := List.replicate slots { person_id := 0, weight := 0 },
      parent := none, children := some a.1 }
  let s ← (List.range slots).foldlM (fill_step sched) s0
  pure (root, a.2.write root s)

/-- One pass of the loop of `create_branch` that copies the locked slots.  The
sum is the exact one; the C code rounds it to `float` (see
`Branchy.copy_step_f32`). -/
def copy_step (r : solution_t) (s : solution_t) (j : Nat) : Except Err solution_t := do
  let n ← readNode r.node_list j
  let nl ← writeNode s.node_list j { person_id := n.person_id, weight := n.weight }
  let m ← writeInt s.used_person_id_map n.person_id 1
  pure { s with node_list := nl, total_weight := s.total_weight + n.weight,
                used_person_id_map := m }

/-- The part of the loop body of `create_branch` that fills in the child struct
`s` for the entity `i`: `r` is the parent struct, `root` its address, `cb` the
address of the freshly allocated `children` array of the child and `iv` the
current `incumbent_value`.  The sums are the exact ones; the C code rounds them
to `float` (see `Branchy.branch_child_f32`). -/
def branch_child (sched : schedule_t) (r : solution_t) (root : Nat) (depth : Nat) (i : Nat)
    (cb : Nat) (iv : ℚ) : Except Err solution_t := do
  let s0 : solution_t :=
    { active := 1, total_weight := 0, total_depth := (depth : Int) + 1, total_children := 0,
      used_person_id_map := List.replicate sched.num_people.toNat 0,
      node_list := List.replicate sched.num_slots.toNat { person_id := 0, weight := 0 },
      parent := some root, children := some cb }
  let s1 ← (List.range depth).foldlM (copy_step r) s0
  let w ← readWeight sched.weights i 0
  let nl ← writeNode s1.node_list depth { person_id := (i : Int), weight := w }
  let m ← writeInt s1.used_person_id_map i 1
  let s2 : solution_t :=
    { s1 with node_list := nl, total_weight := s1.total_weight + w, used_person_id_map := m }
  let s3 ← (List.range' (depth + 1) (sched.num_slots.toNat - (depth + 1))).foldlM
    (fill_step sched) s2
  pure (if s3.total_weight < iv then { s3 with active := 0 } else s3)

/-- The body of the `for` loop of `create_branch` for the entity `i`. -/
def create_branch_step (sched : schedule_t) (root : Nat) (depth : Nat) (σ : State) (i : Nat) :
    Except Err State := do
  let u ← readInt (σ.heap root).used_person_id_map i
  if u = 1 then pure σ
  else
    let σ1 := σ.write root { σ.heap root with total_children := (σ.heap root).total_children + 1 }
    let c ← childAddr sched.num_people (σ1.heap root) i
    let a := σ1.calloc sched.num_people.toNat
    let s ← branch_child sched (a.2.heap root) root depth i a.1 a.2.incumbent_value
    pure (a.2.write c s)

/-- The C function of `Scheduler.c` named `create_branch`. -/
def create_branch (sched : schedule_t) (σ : State) (root : Nat) (depth : Nat) : Except Err State :=
  (List.range sched.num_people.toNat).foldlM (create_branch_step sched root depth) σ

/-- The first loop of `select_branch`: walk up to the nearest active root.
`n` bounds the number of steps by the length of the parent chain. -/
def nearest_active (σ : State) : Nat → Option Nat → Except Err (Option Nat)
  | _, none => .error .nullDeref
  | 0, some _ => .error .outOfFuel
  | n + 1, some p =>
    if (σ.heap p).active = 0 ∧ (σ.heap p).total_depth > 0 then
      nearest_active σ n (σ.heap p).parent
    else pure (some p)

/-- One pass of the child scan of `select_branch`; the accumulator is
`(weight, *new_root)`. -/
def select_step (sched : schedule_t) (σ : State) (p : Nat) (acc : ℚ × Option Nat) (i : Nat) :
    Except Err (ℚ × Option Nat) := do
  let c ← childAddr sched.num_people (σ.heap p) i
  if (σ.heap c).active = 1 ∧ (σ.heap c).total_weight > acc.1 ∧
      (σ.heap c).total_weight > σ.incumbent_value then
    pure ((σ.heap c).total_weight, some c)
  else pure acc

/-- The C function of `Scheduler.c` named `select_branch`; returns `*new_root` (the return value of the
C function is `1` exactly when `*new_root` is not null). -/
def select_branch (sched : schedule_t) (σ : State) (branch : Nat) : Except Err (Option Nat) := do
  let p ← nearest_active σ ((σ.heap branch).total_depth.toNat + 1) (some branch)
  match p with
  | none => pure none
  | some p =>
    let r ← (List.range (σ.heap p).total_children.toNat).foldlM (select_step sched σ p)
      (SLOT_WEIGHT_INITIAL_VAL, none)
    pure r.2

/-- The `while (root->active)` loop of `expand_branch`; `rec` is the recursive
call `expand_branch(new_root, depth + 1)` and the first argument bounds the
number of times the loop condition is evaluated. -/
def expand_loop (sched : schedule_t) (rec : State → Nat → Nat → Except Err State)
    (root : Nat) (depth : Nat) : Nat → State → Except Err State
  | 0, _ => .error .outOfFuel
  | n + 1, σ =>
    if (σ.heap root).active = 0 then pure σ
    else do
      let nr ← select_branch sched σ root
      match nr with
      | none => pure (σ.write root { σ.heap root with active := 0 })
      | some new_root =>
        let f ← solution_is_feasible sched (σ.heap new_root)
        let σ1 ← if f ≠ 0 then update_incumbent_and_branch sched σ new_root else pure σ
        let σ2 ← if (σ1.heap new_root).active ≠ 0 then rec σ1 new_root (depth + 1) else pure σ1
        let a ← solution_is_active sched σ2 root
        let σ3 := if a = 0 then σ2.write root { σ2.heap root with active := 0 } else σ2
        expand_loop sched rec root depth n σ3

/-- The C function of `Scheduler.c` named `expand_branch`.  The first argument bounds the nesting of
the recursive calls, the second the evaluations of each loop condition. -/
def expand_branch (sched : schedule_t) : Nat → Nat → State → Nat → Nat → Except Err State
  | 0, _, _, _, _ => .error .outOfFuel
  | d + 1, l, σ, root, depth =>
    let σ0 : State := { σ with num_expanded_solutions := σ.num_expanded_solutions + 1 }
    if (depth : Int) = sched.num_slots then pure σ0
    else if (σ0.heap root).active = 0 then pure σ0
    else do
      let σ1 ← create_branch sched σ0 root depth
      expand_loop sched (expand_branch sched d l) root depth l σ1

/-- The state in which `method_schedule_compute_solution` starts the search. -/
def initial_state : State :=
  { heap := fun _ => solution_t.zero, brk := 0, num_expanded_solutions := 0,
    incumbent_solution := none, incumbent_value := SLOT_WEIGHT_INITIAL_VAL }

/-- The search of `method_schedule_compute_solution`: `create_root` followed by
`expand_branch(root, 0)`. -/
def run_search (sched : schedule_t) (d l : Nat) : Except Err State := do
  let r ← create_root sched initial_state
  expand_branch sched d l r.2 r.1 0

/-- The result loop of `method_schedule_compute_solution`: the person ids of the
incumbent, in slot order. -/
def result_array (sched : schedule_t) (σ : State) : Except Err (List Int) :=
  (List.range sched.num_slots.toNat).foldlM
    (fun (arr : List Int) (i : Nat) =>
      match σ.incumbent_solution with
      | none => .error .nullDeref
      | some inc => do
        let n ← readNode (σ.heap inc).node_list i
        pure (arr ++ [n.person_id]))
    []

/-- The C function of `Scheduler.c` named `method_schedule_compute_solution`;
`sched` is the global pointer, which the function dereferences without a check.
The first line is `total_possible_solutions = fact(people) / fact(people - slots)`. -/
def method_schedule_compute_solution (sched : Option schedule_t) (d l : Nat) :
    Except Err (List Int) :=
  match sched with
  | none => .error .nullDeref
  | some s => do
    let _ ← int_div (fact s.num_people) (fact (s.num_people - s.num_slots))
    let σ ← run_search s d l
    result_array s σ

/-- The C function of `Scheduler.c` named `method_schedule_create`. -/
def method_schedule_create (number_of_slots : Int) : Option schedule_t :=
  some { num_people := 0, num_slots := number_of_slots, weights := [] }

/-- The C function of `Scheduler.c` named `method_schedule_set_weight`; returns the new value of the
global `sched` and the Ruby truth value handed back.  `weights` holds the
values that `NUM2DBL` returns for the entries of the Ruby array; each is stored
in a `float`. -/
def method_schedule_set_weight (sched : Option schedule_t) (weights : List ℚ) :
    Option schedule_t × Bool :=
  match sched with
  | none => (none, false)
  | some s =>
    if (weights.length : Int) ≠ s.num_slots then (some s, false)
    else
      (some { s with num_people := s.num_people + 1,
                     weights := s.weights ++ [weights.map float_of] }, true)

end Scheduler

/-- The person ids stored in the first `n` slots of a `node_list`. -/
def slot_ids (l : List node_t) (n : Nat) : List Int :=
  (l.take n).map node_t.person_id

namespace Branchy

/-- The weight `weights[i][j]` of entity `i` at slot `j` (zero outside the grid). -/
def wt (sched : schedule_t) (i j : Nat) : ℚ :=
  match sched.weights[i]? with
  | some row => row.getD j 0
  | none => 0

/-- The shape every schedule built by `method_schedule_create` and
`method_schedule_set_weight` has: `num_people` rows of `num_slots` weights. -/
def WellFormed (sched : schedule_t) : Prop :=
  sched.num_people = (sched.weights.length : Int) ∧
    ∀ row ∈ sched.weights, (row.length : Int) = sched.num_slots

/-- What `max_cost_for_slot` has found after scanning the entities below `n`:
either nothing (the initial pair), or the first unused entity of greatest
weight, which exceeds the initial value. -/
def MaxCostResult (sched : schedule_t) (j : Nat) (cmap : List Int) (n : Nat) (r : ℚ × Int) : Prop :=
  (r.2 = -1 ∧ r.1 = SLOT_WEIGHT_INITIAL_VAL ∧
      ∀ i, i < n → cmap[i]? = some 0 → wt sched i j ≤ SLOT_WEIGHT_INITIAL_VAL) ∨
  (∃ k : Nat, k < n ∧ r.2 = (k : Int) ∧ cmap[k]? = some 0 ∧ r.1 = wt sched k j ∧
      SLOT_WEIGHT_INITIAL_VAL < r.1 ∧
      (∀ i, i < n → cmap[i]? = some 0 → wt sched i j ≤ r.1) ∧
      (∀ i, i < k → cmap[i]? = some 0 → wt sched i j < r.1))

end Branchy

/-- The weight stored in slot `j` of a `node_list` (zero outside the array). -/
def weight_at (l : List node_t) (j : Nat) : ℚ :=
  match l[j]? with
  | some n => n.weight
  | none => 0

/-- The sum of the weights stored in the first `n` slots of a `node_list`. -/
def weight_sum (l : List node_t) (n : Nat) : ℚ :=
  ∑ j in Finset.range n, weight_at l j

/-- The fields of a node that the slot loops leave alone. -/
def SameFrame (s t : solution_t) : Prop :=
  t.active = s.active ∧ t.total_depth = s.total_depth ∧ t.total_children = s.total_children ∧
    t.parent = s.parent ∧ t.children = s.children

namespace Branchy

/-- The bookkeeping of a node whose first `d` slots are locked: the locked ids
are pairwise distinct ids of existing entities and the used-map marks exactly
them. -/
structure Locked (sched : schedule_t) (s : solution_t) (d : Nat) : Prop where
  depth : s.total_depth = (d : Int)
  map_len : s.used_person_id_map.length = sched.weights.length
  list_len : s.node_list.length = sched.num_slots.toNat
  ids_range : ∀ p ∈ slot_ids s.node_list d, 0 ≤ p ∧ p < (sched.weights.length : Int)
  ids_nodup : (slot_ids s.node_list d).Nodup
  map_get : ∀ i : Nat, i < sched.weights.length →
    s.used_person_id_map[i]? = some (if (i : Int) ∈ slot_ids s.node_list d then 1 else 0)

/-- The struct that `create_branch(root, d)` builds for the entity `i`, where
`rl` is the `node_list` of the parent, `root` the address of the parent, `cb`
the address of the child's own `children` array and `iv` the incumbent value at
that time. -/
structure IsChild (sched : schedule_t) (rl : List node_t) (root d i cb : Nat) (iv : ℚ)
    (ch : solution_t) : Prop where
  depth : ch.total_depth = (d : Int) + 1
  no_children : ch.total_children = 0
  parent : ch.parent = some root
  children : ch.children = some cb
  map_len : ch.used_person_id_map.length = sched.weights.length
  map_get : ∀ k : Nat, k < sched.weights.length →
    ch.used_person_id_map[k]? =
      some (if (k : Int) ∈ slot_ids rl d ++ [(i : Int)] then 1 else 0)
  list_len : ch.node_list.length = sched.num_slots.toNat
  copied : ∀ j, j < d → ch.node_list[j]? = rl[j]?
  locked : ch.node_list[d]? = some { person_id := (i : Int), weight := wt sched i 0 }
  filled : ∀ j, d < j → j < sched.num_slots.toNat →
    ∃ res, MaxCostResult sched j ch.used_person_id_map sched.weights.length res ∧
      ch.node_list[j]? = some { person_id := res.2, weight := res.1 }
  weight : ch.total_weight = weight_sum ch.node_list sched.num_slots.toNat
  active : ch.active = if ch.total_weight < iv then 0 else 1

end Branchy

namespace Branchy

/-- The number of entities below `n` that the used-map `m` does not mark. -/
def unused_below (m : List Int) (n : Nat) : Nat :=
  ((List.range n).filter (fun i => decide (m[i]? ≠ some 1))).length

/-- The state of `create_branch(root, d)` after the entities below `n` have
been handled, where `σ0` is the state at the call, `a` the address of `root` and
`cb` the address of its `children` array. -/
structure BranchInv (sched : schedule_t) (σ0 : State) (a cb d n : Nat) (σ : State) : Prop where
  incumbent : σ.incumbent_solution = σ0.incumbent_solution
  value : σ.incumbent_value = σ0.incumbent_value
  expanded : σ.num_expanded_solutions = σ0.num_expanded_solutions
  brk_le : σ0.brk ≤ σ.brk
  root_cell : σ.heap a = { σ0.heap a with
    total_children := (σ0.heap a).total_children +
      (unused_below (σ0.heap a).used_person_id_map n : Int) }
  made : ∀ i, i < n → (σ0.heap a).used_person_id_map[i]? ≠ some 1 →
    ∃ cbi, IsChild sched (σ0.heap a).node_list a d i cbi σ0.incumbent_value (σ.heap (cb + i)) ∧
      σ0.brk ≤ cbi ∧ cbi + sched.weights.length ≤ σ.brk ∧
      ∀ j, j < sched.weights.length → σ.heap (cbi + j) = solution_t.zero
  skipped : ∀ i, i < sched.weights.length → (i < n → (σ0.heap a).used_person_id_map[i]? = some 1) →
    σ.heap (cb + i) = σ0.heap (cb + i)
  apart : ∀ i i' b b', i < n → i' < n → i ≠ i' →
    (σ0.heap a).used_person_id_map[i]? ≠ some 1 →
    (σ0.heap a).used_person_id_map[i']? ≠ some 1 →
    (σ.heap (cb + i)).children = some b → (σ.heap (cb + i')).children = some b' →
    b + sched.weights.length ≤ b' ∨ b' + sched.weights.length ≤ b
  frame : ∀ x, x < σ0.brk → x ≠ a → (x < cb ∨ cb + sched.weights.length ≤ x) →
    σ.heap x = σ0.heap x
  fresh : ∀ x, σ0.brk ≤ x → x < σ.brk → σ.heap x = solution_t.zero

end Branchy

namespace Branchy

/-- What the child scan of `select_branch` holds after the first `n` children of
the array at `cb`: either nothing, or the first active child of greatest weight
among those that beat the incumbent. -/
def SelectResult (σ : State) (cb n : Nat) (r : ℚ × Option Nat) : Prop :=
  (r.2 = none ∧ r.1 = SLOT_WEIGHT_INITIAL_VAL ∧
      ∀ i, i < n → ¬ ((σ.heap (cb + i)).active = 1 ∧
        (σ.heap (cb + i)).total_weight > SLOT_WEIGHT_INITIAL_VAL ∧
        (σ.heap (cb + i)).total_weight > σ.incumbent_value)) ∨
  (∃ k, k < n ∧ r.2 = some (cb + k) ∧ r.1 = (σ.heap (cb + k)).total_weight ∧
      (σ.heap (cb + k)).active = 1 ∧
      (σ.heap (cb + k)).total_weight > SLOT_WEIGHT_INITIAL_VAL ∧
      (σ.heap (cb + k)).total_weight > σ.incumbent_value ∧
      (∀ i, i < n → (σ.heap (cb + i)).active = 1 →
        (σ.heap (cb + i)).total_weight > σ.incumbent_value →
        (σ.heap (cb + i)).total_weight ≤ (σ.heap (cb + k)).total_weight) ∧
      (∀ i, i < k → (σ.heap (cb + i)).active = 1 →
        (σ.heap (cb + i)).total_weight > σ.incumbent_value →
        (σ.heap (cb + i)).total_weight < (σ.heap (cb + k)).total_weight))

end Branchy

/-- Two structs that agree in every field except `active` and `total_children`. -/
def EqExceptFlags (s t : solution_t) : Prop :=
  t.total_weight = s.total_weight ∧ t.total_depth = s.total_depth ∧
    t.used_person_id_map = s.used_person_id_map ∧ t.node_list = s.node_list ∧
    t.parent = s.parent ∧ t.children = s.children

/-- Every struct that has been set up in `σ` (its `children` array exists) keeps
its slots, weight and links in `τ`. -/
def Stable (σ τ : State) : Prop :=
  ∀ x, x < σ.brk → (σ.heap x).children ≠ none → EqExceptFlags (σ.heap x) (τ.heap x)

/-- The state `τ` differs from `σ` in flags only, and no `active` flag that is
`0` in `σ` is set in `τ`; the child counts are those of `σ`. -/
def FlagsDown (σ τ : State) : Prop :=
  τ.brk = σ.brk ∧ (∀ x, EqExceptFlags (σ.heap x) (τ.heap x)) ∧
    (∀ x, (τ.heap x).total_children = (σ.heap x).total_children) ∧
    (∀ x, (σ.heap x).active = 0 → (τ.heap x).active = 0)

namespace Branchy

/-- All weights of the grid are non-negative. -/
def NonNeg (sched : schedule_t) : Prop := ∀ row ∈ sched.weights, ∀ w ∈ row, (0 : ℚ) ≤ w

/-- The schedules the search is written for: non-negative weights and at least
as many entities as slots. -/
def Nice (sched : schedule_t) : Prop :=
  NonNeg sched ∧ sched.num_slots ≤ sched.num_people

/-- Every weight of a schedule of at most two slots, and every sum that the
search forms on it, is a single-precision value: each weight of slot `0`, each
weight of slot `1`, and each sum of a weight of slot `0` and a weight of slot
`1`. -/
def ExactSums (sched : schedule_t) : Prop :=
  ∀ i, i < sched.weights.length → ∀ j, j < sched.weights.length →
    IsFloat (wt sched i 0) ∧ IsFloat (wt sched j 1) ∧
    IsFloat (wt sched i 0 + wt sched j 1)

/-- A node at depth `d` that has been set up by `create_root` or `create_branch`
and has not been branched on yet. -/
structure Pristine (sched : schedule_t) (σ : State) (a d : Nat) : Prop where
  locked : Locked sched (σ.heap a) d
  no_children : (σ.heap a).total_children = 0
  active01 : (σ.heap a).active = 0 ∨ (σ.heap a).active = 1
  addr : a < σ.brk
  block : ∃ cb, (σ.heap a).children = some cb ∧ cb + sched.weights.length ≤ σ.brk ∧
    ∀ j, j < sched.weights.length → σ.heap (cb + j) = solution_t.zero
  all_in : Nice sched → ∀ p ∈ slot_ids (σ.heap a).node_list sched.num_slots.toNat,
    0 ≤ p ∧ p < (sched.weights.length : Int)
  entries_nonneg : Nice sched → ∀ j, 0 ≤ weight_at (σ.heap a).node_list j
  weight : (σ.heap a).total_weight = weight_sum (σ.heap a).node_list sched.num_slots.toNat

/-- The incumbent, when there is one, is a set-up node whose slots hold
pairwise distinct existing entities and whose weight is `incumbent_value`. -/
structure GInv (sched : schedule_t) (σ : State) : Prop where
  none_value : σ.incumbent_solution = none → σ.incumbent_value = SLOT_WEIGHT_INITIAL_VAL
  some_spec : ∀ p, σ.incumbent_solution = some p →
    p < σ.brk ∧ (σ.heap p).children ≠ none ∧
    (σ.heap p).node_list.length = sched.num_slots.toNat ∧
    (∀ q ∈ slot_ids (σ.heap p).node_list sched.num_slots.toNat,
      0 ≤ q ∧ q < (sched.weights.length : Int)) ∧
    (slot_ids (σ.heap p).node_list sched.num_slots.toNat).Nodup ∧
    (σ.heap p).total_weight = σ.incumbent_value
  value_ge : SLOT_WEIGHT_INITIAL_VAL ≤ σ.incumbent_value

/-- The locked entities of a node at depth `d` are the `d` highest ids. -/
def TopLocked (sched : schedule_t) (s : solution_t) (d : Nat) : Prop :=
  ∀ i, i < sched.weights.length →
    ((i : Int) ∈ slot_ids s.node_list d ↔ sched.weights.length ≤ i + d)

/-- The number of active structs among the first `tc` children at `cb`. -/
def activeCount (σ : State) (cb tc : Nat) : Nat :=
  ((Finset.range tc).filter (fun i => (σ.heap (cb + i)).active ≠ 0)).card

/-- Every struct of the heap that has been set up (by `create_root` or by
`create_branch`) holds pairwise distinct entities in its locked slots, the
slots below its `total_depth`, and its used-map marks exactly them. -/
def AllLocked (sched : schedule_t) (σ : State) : Prop :=
  ∀ x, x < σ.brk → (σ.heap x).children ≠ none →
    Locked sched (σ.heap x) (σ.heap x).total_depth.toNat

/-- The slots of a node hold pairwise distinct existing entities. -/
def FeasibleNode (sched : schedule_t) (s : solution_t) : Prop :=
  (∀ p ∈ slot_ids s.node_list sched.num_slots.toNat, 0 ≤ p ∧ p < (sched.weights.length : Int)) ∧
    (slot_ids s.node_list sched.num_slots.toNat).Nodup

/-- Every struct of the heap that has been set up carries the sum of the
weights stored in its slots as `total_weight`. -/
def AllSummed (sched : schedule_t) (σ : State) : Prop :=
  ∀ x, x < σ.brk → (σ.heap x).children ≠ none →
    (σ.heap x).total_weight = weight_sum (σ.heap x).node_list sched.num_slots.toNat

/-- The shape of the tree and what a deactivated node leaves behind: the
`children` arrays of the set-up structs lie in the allocated part of the heap
and apart from each other, and below an inactive struct every child among the
first `total_children` entries of its array is inactive or does not beat the
incumbent. -/
structure TreeSettled (sched : schedule_t) (σ : State) : Prop where
  inb : ∀ x bx, x < σ.brk → (σ.heap x).children = some bx →
    bx + sched.weights.length ≤ σ.brk
  sep : ∀ x y bx yb, x < σ.brk → y < σ.brk → x ≠ y → (σ.heap x).children = some bx →
    (σ.heap y).children = some yb →
    bx + sched.weights.length ≤ yb ∨ yb + sched.weights.length ≤ bx
  settled : ∀ x bx, x < σ.brk → (σ.heap x).children = some bx → (σ.heap x).active = 0 →
    ∀ i : Nat, (i : Int) < (σ.heap x).total_children → i < sched.weights.length →
      (σ.heap (bx + i)).active = 0 ∨ (σ.heap (bx + i)).total_weight ≤ σ.incumbent_value

/-- Every slot of the node that holds an entity holds the weight of that entity
at that slot. -/
def Honest (sched : schedule_t) (s : solution_t) : Prop :=
  ∀ j nd, j < sched.num_slots.toNat → s.node_list[j]? = some nd → 0 ≤ nd.person_id →
    nd.weight = wt sched nd.person_id.toNat j

/-- The heap holds the root and children of the root only; their slots carry
the true weights, and the children of the root are feasible. -/
def Shallow (sched : schedule_t) (σ : State) : Prop :=
  ∀ x, x < σ.brk → (σ.heap x).children ≠ none →
    (σ.heap x).total_depth ≤ 1 ∧ Honest sched (σ.heap x) ∧
      ((σ.heap x).total_depth = 1 → FeasibleNode sched (σ.heap x))

/-- What the treatment of a node `a` (pruning it, or expanding it) started in
`σ` guarantees about the state `τ` it leads to; `cb` is the address of the
`children` array of `a`. -/
structure FramePost (sched : schedule_t) (σ τ : State) (a cb : Nat) : Prop where
  brk_le : σ.brk ≤ τ.brk
  frame : ∀ x, x < σ.brk → x ≠ a → (x < cb ∨ cb + sched.weights.length ≤ x) →
    τ.heap x = σ.heap x
  stable : Stable σ τ
  ginv : GInv sched τ
  mono : σ.incumbent_value ≤ τ.incumbent_value
  kept : σ.incumbent_solution ≠ none → τ.incumbent_solution ≠ none
  locked_all : AllLocked sched σ → AllLocked sched τ
  summed_all : AllSummed sched σ → AllSummed sched τ
  calm : ∀ x, x < σ.brk → (σ.heap x).children ≠ none → (σ.heap x).active = 0 →
    (τ.heap x).active = 0
  settled_all : TreeSettled sched σ → TreeSettled sched τ

/-- What a call `expand_branch(a, d)` started in `σ` guarantees about the state
`τ` it returns; `cb` is the address of the `children` array of `a`. -/
structure ExpandPost (sched : schedule_t) (σ τ : State) (a cb d : Nat)
    extends FramePost sched σ τ a cb : Prop where
  inactive : (d : Int) ≠ sched.num_slots → (τ.heap a).active = 0
  found : Nice sched → TopLocked sched (σ.heap a) d → (σ.heap a).active ≠ 0 →
    (d : Int) < sched.num_slots → τ.incumbent_solution ≠ none
  kids : (σ.heap a).active ≠ 0 → (d : Int) < sched.num_slots →
    ∀ i, i < sched.weights.length → (σ.heap a).used_person_id_map[i]? ≠ some 1 →
      ∃ ch cbi, IsChild sched (σ.heap a).node_list a d i cbi σ.incumbent_value ch ∧
        EqExceptFlags ch (τ.heap (cb + i)) ∧
        (i < unused_below (σ.heap a).used_person_id_map sched.weights.length →
          ch.active = 1 → FeasibleNode sched ch → ch.total_weight ≤ τ.incumbent_value)
  shallow_all : d = 0 → Nice sched → sched.num_slots ≤ 2 → Shallow sched σ → Shallow sched τ

/-- The outcome of a call `expand_branch(a, d)` started in `σ`: either the
state it returns, or, on a schedule that is not `Nice`, an access outside an
array. -/
def ExpandSpec (sched : schedule_t) (σ : State) (a cb d : Nat) (r : Except Err State) : Prop :=
  (r = .error .outOfBounds ∧ ¬ Nice sched) ∨ ∃ τ, r = .ok τ ∧ ExpandPost sched σ τ a cb d

/-- The state of the `while` loop of `expand_branch(a, d)`: `σ0` is the state at
the call, `σ1` the state after `create_branch`, `σ` the current state and `cb`
the address of the `children` array of `a`. -/
structure LoopInv (sched : schedule_t) (σ0 σ1 σ : State) (a cb d : Nat) : Prop where
  brk_le : σ1.brk ≤ σ.brk
  frame : ∀ x, x < σ0.brk → x ≠ a → (x < cb ∨ cb + sched.weights.length ≤ x) →
    σ.heap x = σ0.heap x
  root_cell : EqExceptFlags (σ1.heap a) (σ.heap a) ∧
    (σ.heap a).total_children = (σ1.heap a).total_children
  kids : ∀ i, i < sched.weights.length →
    (σ.heap (cb + i)).active = 0 ∨
      (Pristine sched σ (cb + i) (d + 1) ∧ σ.heap (cb + i) = σ1.heap (cb + i))
  stable : Stable σ0 σ
  stable1 : Stable σ1 σ
  ginv : GInv sched σ
  mono : σ0.incumbent_value ≤ σ.incumbent_value
  kept : σ0.incumbent_solution ≠ none → σ.incumbent_solution ≠ none
  best : ∀ e, e < (σ1.heap a).total_children.toNat → (σ1.heap (cb + e)).active = 1 →
    FeasibleNode sched (σ1.heap (cb + e)) →
    (σ1.heap (cb + e)).total_weight ≤ σ.incumbent_value ∨
      ((σ.heap a).active ≠ 0 ∧ (σ.heap (cb + e)).active = 1 ∧
        Pristine sched σ (cb + e) (d + 1) ∧ σ.heap (cb + e) = σ1.heap (cb + e))
  top : Nice sched → TopLocked sched (σ0.heap a) d → σ.incumbent_solution = none →
    (σ.heap a).active ≠ 0 ∧
      (σ.heap (cb + (sched.weights.length - d - 1))).active = 1 ∧
      Pristine sched σ (cb + (sched.weights.length - d - 1)) (d + 1) ∧
      σ.heap (cb + (sched.weights.length - d - 1)) =
        σ1.heap (cb + (sched.weights.length - d - 1))
  locked_all : AllLocked sched σ0 → AllLocked sched σ
  summed_all : AllSummed sched σ0 → AllSummed sched σ
  calm : ∀ x, x < σ0.brk → (σ0.heap x).children ≠ none → (σ0.heap x).active = 0 →
    (σ.heap x).active = 0
  settled_all : TreeSettled sched σ0 → TreeSettled sched σ
  shallow_all : d = 0 → Nice sched → sched.num_slots ≤ 2 → Shallow sched σ0 → Shallow sched σ

end Branchy

namespace Branchy

/-- The struct that `create_root` builds. -/
structure IsRoot (sched : schedule_t) (s : solution_t) : Prop where
  active : s.active = 1
  depth : s.total_depth = 0
  no_children : s.total_children = 0
  parent : s.parent = none
  children : s.children = some 1
  map : s.used_person_id_map = List.replicate sched.weights.length 0
  list_len : s.node_list.length = sched.num_slots.toNat
  filled : ∀ j, j < sched.num_slots.toNat →
    ∃ res, MaxCostResult sched j (List.replicate sched.weights.length 0)
        sched.weights.length res ∧
      s.node_list[j]? = some { person_id := res.2, weight := res.1 }
  weight : s.total_weight = weight_sum s.node_list sched.num_slots.toNat

/-- The state in which `expand_branch(root, 0)` is called by
`method_schedule_compute_solution`: the root struct at address `0`, its
`children` array behind it, and no incumbent. -/
structure IsRootState (sched : schedule_t) (σ : State) : Prop where
  root : IsRoot sched (σ.heap 0)
  brk : σ.brk = 1 + sched.weights.length
  rest : ∀ x, x ≠ 0 → σ.heap x = solution_t.zero
  incumbent : σ.incumbent_solution = none
  value : σ.incumbent_value = SLOT_WEIGHT_INITIAL_VAL
  expanded : σ.num_expanded_solutions = 0

end Branchy

/-- The schedule of `Scheduler.c` seen as a schedule of `branchy.c` without
attributes and constraints. -/
def Scheduler.toBranchy (s : Scheduler.schedule_t) : Branchy.schedule_t :=
  { num_people := s.num_people, num_slots := s.num_slots, num_constraints := 0,
    weights := s.weights, attribs := [], constraints := [] }

/-- The part of a schedule of `branchy.c` that `Scheduler.c` has as well. -/
def Scheduler.ofBranchy (s : Branchy.schedule_t) : Scheduler.schedule_t :=
  { num_people := s.num_people, num_slots := s.num_slots, weights := s.weights }

/-- Two states with the same module-level variables. -/
def SameGlob (σ τ : State) : Prop :=
  τ.incumbent_solution = σ.incumbent_solution ∧ τ.incumbent_value = σ.incumbent_value ∧
    τ.num_expanded_solutions = σ.num_expanded_solutions

/-- The state an `Except` value holds, or `σ` when it is an error. -/
def okOr (x : Except Err State) (σ : State) : State :=
  match x with
  | .ok τ => τ
  | .error _ => σ

namespace Branchy

/-- The schedule that `method_schedule_create(number_of_slots)` followed by one
call of `method_schedule_set_weight` per row builds. -/
def schedule_of (number_of_slots : Int) (rows : List (List ℚ × List Int)) : Option schedule_t :=
  rows.foldl (fun s r => (method_schedule_set_weight s r.1 r.2).1)
    (method_schedule_create number_of_slots)

/-- The true weight of a slot-ordered assignment: the sum over the slots `s` of
`weights[ids[s]][s]`. -/
def assignment_weight (sched : schedule_t) (ids : List Int) : ℚ :=
  ((List.range ids.length).map (fun s => wt sched (ids.getD s 0).toNat s)).sum

/-- The state in which `method_schedule_compute_solution` calls
`expand_branch(root, 0)`. -/
def root_state (sched : schedule_t) : State :=
  match create_root sched initial_state with
  | .ok r => r.2
  | .error _ => initial_state

/-- One step of the search: a call that returns of one of the functions
`expand_branch` is made of, or of `expand_branch` itself. -/
inductive Step (sched : schedule_t) : State → State → Prop
  | update (σ τ : State) (s : Nat) :
      update_incumbent_and_branch sched σ s = .ok τ → Step sched σ τ
  | create (σ τ : State) (root depth : Nat) :
      create_branch sched σ root depth = .ok τ → Step sched σ τ
  | select (σ : State) (branch : Nat) (new_root : Option Nat) :
      select_branch sched σ branch = .ok new_root → Step sched σ σ
  | prune (σ τ : State) (branch : Option Nat) :
      prune_branch sched σ branch = .ok τ → Step sched σ τ
  | expand (σ τ : State) (d l root depth : Nat) :
      expand_branch sched d l σ root depth = .ok τ → Step sched σ τ

/-- One step of the search as `expand_branch` makes it: a returning call of
`update_incumbent_and_branch`, `prune_branch` or `select_branch`, or a returning
call of `create_branch` or `expand_branch` on a node that has been set up and
not branched on yet. -/
inductive SearchStep (sched : schedule_t) : State → State → Prop
  | update (σ τ : State) (s : Nat) :
      update_incumbent_and_branch sched σ s = .ok τ → SearchStep sched σ τ
  | prune (σ τ : State) (branch : Option Nat) :
      prune_branch sched σ branch = .ok τ → SearchStep sched σ τ
  | select (σ : State) (branch : Nat) (new_root : Option Nat) :
      select_branch sched σ branch = .ok new_root → SearchStep sched σ σ
  | create (σ τ : State) (a cb d : Nat) :
      Pristine sched σ a d → (σ.heap a).children = some cb → (d : Int) < sched.num_slots →
      create_branch sched σ a d = .ok τ → SearchStep sched σ τ
  | expand (σ τ : State) (a cb d f l : Nat) :
      Pristine sched σ a d → GInv sched σ → (σ.heap a).children = some cb →
      (d : Int) ≤ sched.num_slots →
      expand_branch sched f l σ a d = .ok τ → SearchStep sched σ τ

/-- Three entities with the weight rows `[7,6,5]`, `[8,2,4]`, `[9,3,1]` over
three slots. -/
def nine : schedule_t :=
  { num_people := 3, num_slots := 3, num_constraints := 0,
    weights := [[7, 6, 5], [8, 2, 4], [9, 3, 1]],
    attribs := [⟨0, []⟩, ⟨0, []⟩, ⟨0, []⟩], constraints := [] }

/-- Two entities with the weight rows `[-1/2,-2]`, `[-2,-3/4]` over two slots. -/
def fractions : schedule_t :=
  { num_people := 2, num_slots := 2, num_constraints := 0,
    weights := [[-1/2, -2], [-2, -3/4]],
    attribs := [⟨0, []⟩, ⟨0, []⟩], constraints := [] }

/-- Three entities with the weight rows `[5,1]`, `[1,5]`, `[3,3]` over two
slots. -/
def specialists : schedule_t :=
  { num_people := 3, num_slots := 2, num_constraints := 0,
    weights := [[5, 1], [1, 5], [3, 3]],
    attribs := [⟨0, []⟩, ⟨0, []⟩, ⟨0, []⟩], constraints := [] }

/-- One entity with the weight row `[1,2]` and the attribute `7` over two
slots. -/
def tagged : schedule_t :=
  { num_people := 1, num_slots := 2, num_constraints := 0,
    weights := [[1, 2]], attribs := [⟨1, [7]⟩], constraints := [] }

/-- Two entities with the weight rows `[5,5]`, `[1,1]` over two slots. -/
def twins : schedule_t :=
  { num_people := 2, num_slots := 2, num_constraints := 0,
    weights := [[5, 5], [1, 1]], attribs := [⟨0, []⟩, ⟨0, []⟩], constraints := [] }

/-- Three entities with the weight rows `[0,0,0]`, `[0,0,0]`, `[1,1,1]` over
three slots. -/
def tie : schedule_t :=
  { num_people := 3, num_slots := 3, num_constraints := 0,
    weights := [[0, 0, 0], [0, 0, 0], [1, 1, 1]],
    attribs := [⟨0, []⟩, ⟨0, []⟩, ⟨0, []⟩], constraints := [] }

/-- Three entities with the weight rows `[0,0,0]`, `[0,0,0]`, `[2,2,1]` over
three slots. -/
def hidden : schedule_t :=
  { num_people := 3, num_slots := 3, num_constraints := 0,
    weights := [[0, 0, 0], [0, 0, 0], [2, 2, 1]],
    attribs := [⟨0, []⟩, ⟨0, []⟩, ⟨0, []⟩], constraints := [] }

/-- One entity with the weight row `[1,2]` and the attribute `7` over two
slots, and one constraint set without tags. -/
def constrained : schedule_t :=
  { num_people := 1, num_slots := 2, num_constraints := 1,
    weights := [[1, 2]], attribs := [⟨1, [7]⟩], constraints := [⟨0, []⟩] }

/-- Two entities with the weight rows `[16777216,1]`, `[16777216,0]` over two
slots (`16777216` is `2 ^ 24`). -/
def large : schedule_t :=
  { num_people := 2, num_slots := 2, num_constraints := 0,
    weights := [[16777216, 1], [16777216, 0]],
    attribs := [⟨0, []⟩, ⟨0, []⟩], constraints := [] }

/-- Three entities with the weight rows `[10,0,0]`, `[0,0,0]`, `[9,0,0]` over
three slots. -/
def sparse : schedule_t :=
  { num_people := 3, num_slots := 3, num_constraints := 0,
    weights := [[10, 0, 0], [0, 0, 0], [9, 0, 0]],
    attribs := [⟨0, []⟩, ⟨0, []⟩, ⟨0, []⟩], constraints := [] }

/-- The state after `create_root` and `create_branch(root, 0)`: the root is at
address `0`, the child for the entity `i` at address `1 + i`, and its own
`children` array at `1 + num_people * (1 + i)`. -/
def root_branched (sched : schedule_t) : Except Err State := do
  let r ← create_root sched initial_state
  create_branch sched r.2 r.1 0

/-- The state of the search on `hidden` when `select_branch` is called on the
child of entity `0` (address `1`): after `create_root`, `create_branch(root, 0)`
and `create_branch(1, 1)`. -/
def hidden_branched : Except Err State := do
  let σ ← root_branched hidden
  create_branch hidden σ 1 1

/-- A later state of the search on `hidden`: the child `[0,1,2]` (address `5`)
has been accepted as the incumbent and `create_branch(2, 1)` has built the
children of the child of entity `1` (address `2`). -/
def hidden_second : Except Err State := do
  let σ ← hidden_branched
  let σ1 ← update_incumbent_and_branch hidden σ 5
  create_branch hidden σ1 2 1

end Branchy

namespace Scheduler

/-- The schedule that `method_schedule_create(number_of_slots)` followed by one
call of `method_schedule_set_weight` per row builds. -/
def schedule_of (number_of_slots : Int) (rows : List (List ℚ)) : Option schedule_t :=
  rows.foldl (fun s r => (method_schedule_set_weight s r).1)
    (method_schedule_create number_of_slots)

/-- Three entities with the weight rows `[5,1]`, `[1,5]`, `[3,3]` over two
slots. -/
def specialists : schedule_t :=
  { num_people := 3, num_slots := 2, weights := [[5, 1], [1, 5], [3, 3]] }

/-- Two slots and no entity. -/
def empty : schedule_t :=
  { num_people := 0, num_slots := 2, weights := [] }

/-- Three entities with the weight rows `[7,6,5]`, `[8,2,4]`, `[9,3,1]` over
three slots. -/
def nine : schedule_t :=
  { num_people := 3, num_slots := 3, weights := [[7, 6, 5], [8, 2, 4], [9, 3, 1]] }

/-- Three entities with the weight rows `[0,0,0]`, `[0,0,0]`, `[1,1,1]` over
three slots. -/
def tie : schedule_t :=
  { num_people := 3, num_slots := 3, weights := [[0, 0, 0], [0, 0, 0], [1, 1, 1]] }

/-- The state after `create_root` and `create_branch(root, 0)`. -/
def root_branched (sched : schedule_t) : Except Err State := do
  let r ← create_root sched initial_state
  create_branch sched r.2 r.1 0

end Scheduler

section Basics
variable {ε α β : Type}

@[simp] theorem except_ok_bind (a : α) (f : α → Except ε β) :
    (Except.ok a >>= f) = f a := rfl

@[simp] theorem except_error_bind (e : ε) (f : α → Except ε β) :
    ((Except.error e : Except ε α) >>= f) = Except.error e := rfl

@[simp] theorem except_pure (a : α) : (pure a : Except ε α) = Except.ok a := rfl

theorem except_bind_eq_ok {x : Except ε α} {f : α → Except ε β} {b : β}
    (h : (x >>= f) = Except.ok b) : ∃ a, x = Except.ok a ∧ f a = Except.ok b := by
  cases x with
  | error e => simp at h
  | ok a => exact ⟨a, rfl, by simpa using h⟩

end Basics

theorem readInt_ok_of_get {a : List Int} {i : Nat} {v : Int} (h : a[i]? = some v) :
    readInt a (i : Int) = .ok v := by
  have h0 : ¬ ((i : Int) < 0) := by omega
  simp [readInt, h0, h]

theorem writeInt_natCast (a : List Int) (i : Nat) (v : Int) (h : i < a.length) :
    writeInt a (i : Int) v = .ok (a.set i v) := by
  have h0 : ¬ ((i : Int) < 0) := by omega
  simp [writeInt, h, h0]

theorem readInt_eq_ok {a : List Int} {p v : Int} (h : readInt a p = .ok v) :
    0 ≤ p ∧ p.toNat < a.length ∧ a[p.toNat]? = some v := by
  unfold readInt at h
  split at h
  · cases h
  · rename_i hp
    split at h
    · rename_i w hw
      cases h
      refine ⟨by omega, ?_, hw⟩
      exact (List.getElem?_eq_some.mp hw).1
    · cases h

theorem readNode_ok_of_get {a : List node_t} {i : Nat} {v : node_t} (h : a[i]? = some v) :
    readNode a i = .ok v := by
  simp [readNode, h]

theorem writeNode_ok (a : List node_t) (i : Nat) (v : node_t) (h : i < a.length) :
    writeNode a i v = .ok (a.set i v) := by
  simp [writeNode, h]

theorem slot_ids_succ (l : List node_t) (n : Nat) (h : n < l.length) :
    slot_ids l (n + 1) = slot_ids l n ++ [(l[n]).person_id] := by
  unfold slot_ids
  rw [List.take_succ, List.map_append, List.getElem?_eq_getElem h]
  rfl

theorem toFinset_concat_card_mem {l : List Int} {k : Int} (h : k ∈ l) :
    (l ++ [k]).toFinset.card = l.toFinset.card := by
  have : (l ++ [k]).toFinset = l.toFinset := by
    ext x
    simp only [List.toFinset_append, List.toFinset_cons, List.toFinset_nil, Finset.mem_union,
      List.mem_toFinset, Finset.mem_insert, Finset.not_mem_empty, or_false]
    constructor
    · rintro (hx | hx)
      · exact hx
      · exact hx ▸ h
    · exact Or.inl
  rw [this]

theorem toFinset_concat_card_not_mem {l : List Int} {k : Int} (h : k ∉ l) :
    (l ++ [k]).toFinset.card = l.toFinset.card + 1 := by
  have : (l ++ [k]).toFinset = insert k l.toFinset := by
    ext x
    simp only [List.toFinset_append, List.toFinset_cons, List.toFinset_nil, Finset.mem_union,
      List.mem_toFinset, Finset.mem_insert, Finset.not_mem_empty, or_false]
    exact or_comm
  rw [this, Finset.card_insert_of_not_mem (by simpa using h)]

theorem slot_ids_length (l : List node_t) (n : Nat) (h : n ≤ l.length) :
    (slot_ids l n).length = n := by
  simp [slot_ids, h]

namespace Branchy

/-- The scan of `solution_is_feasible` over the first `n` slots leaves a map
that marks exactly the ids seen and a count of the distinct ids seen. -/
theorem feasible_fold (s : solution_t) (P : Nat) :
    ∀ n, n ≤ s.node_list.length →
      (∀ p ∈ slot_ids s.node_list n, 0 ≤ p ∧ p < (P : Int)) →
      ∃ m : List Int,
        (List.range n).foldlM (feasible_step s) (List.replicate P (0 : Int), (0 : Int))
          = .ok (m, ((slot_ids s.node_list n).toFinset.card : Int)) ∧
        m.length = P ∧
        ∀ i : Nat, i < P → m[i]? = some (if (i : Int) ∈ slot_ids s.node_list n then 1 else 0) := by
  intro n
  induction n with
  | zero =>
    intro _ _
    refine ⟨List.replicate P 0, ?_, by simp, ?_⟩
    · simp [slot_ids]
    · intro i hi
      simp [slot_ids, List.getElem?_replicate, hi]
  | succ n ih =>
    intro hlen hrange
    have hn : n < s.node_list.length := by omega
    have hsucc := slot_ids_succ s.node_list n hn
    have hrange' : ∀ p ∈ slot_ids s.node_list n, 0 ≤ p ∧ p < (P : Int) := by
      intro p hp
      exact hrange p (by rw [hsucc]; simp [hp])
    obtain ⟨m, hm, hmlen, hmget⟩ := ih (by omega) hrange'
    have hp := hrange (s.node_list[n]).person_id (by rw [hsucc]; simp)
    obtain ⟨k, hk⟩ : ∃ k : Nat, (s.node_list[n]).person_id = (k : Int) :=
      ⟨(s.node_list[n]).person_id.toNat, by omega⟩
    have hkP : k < P := by omega
    rw [hk] at hsucc
    rw [List.range_succ, List.foldlM_append, hm]
    simp only [except_ok_bind, List.foldlM_cons, List.foldlM_nil]
    unfold feasible_step
    rw [readNode_ok_of_get (List.getElem?_eq_getElem hn)]
    simp only [except_ok_bind, hk]
    rw [readInt_ok_of_get (hmget k hkP)]
    simp only [except_ok_bind]
    by_cases hmem : (k : Int) ∈ slot_ids s.node_list n
    · refine ⟨m, ?_, hmlen, ?_⟩
      · rw [hsucc, toFinset_concat_card_mem hmem]
        simp [hmem]
      · intro i hi
        rw [hmget i hi, hsucc]
        by_cases hi' : (i : Int) ∈ slot_ids s.node_list n
        · simp [hi']
        · have : (i : Int) ≠ (k : Int) := fun e => hi' (e ▸ hmem)
          simp [hi', this]
    · refine ⟨m.set k 1, ?_, by simp [hmlen], ?_⟩
      · rw [writeInt_natCast m k 1 (by omega)]
        rw [hsucc, toFinset_concat_card_not_mem hmem]
        simp [hmem]
      · intro i hi
        rw [hsucc]
        by_cases hik : i = k
        · subst hik
          simp [List.getElem?_set, hmlen, hi]
        · rw [List.getElem?_set_ne (Ne.symm hik), hmget i hi]
          have : (i : Int) ≠ (k : Int) := by omega
          simp [this]

end Branchy

theorem toFinset_card_eq_length_iff (l : List Int) : l.toFinset.card = l.length ↔ l.Nodup := by
  constructor
  · intro h
    rw [List.card_toFinset] at h
    have := (List.dedup_sublist l).eq_of_length h
    exact List.dedup_eq_self.mp this
  · intro h
    exact List.toFinset_card_of_nodup h

theorem readNode_eq_ok {a : List node_t} {i : Nat} {v : node_t} (h : readNode a i = .ok v) :
    ∃ hi : i < a.length, a[i] = v := by
  unfold readNode at h
  split at h
  · rename_i w hw
    cases h
    obtain ⟨h1, h2⟩ := List.getElem?_eq_some.mp hw
    exact ⟨h1, h2⟩
  · cases h

namespace Branchy

/-- A scan of `solution_is_feasible` that does not stop with an error has read
only ids inside the map. -/
theorem feasible_fold_ok (s : solution_t) (P : Nat) :
    ∀ n r, (List.range n).foldlM (feasible_step s) (List.replicate P (0 : Int), (0 : Int)) = .ok r →
      n ≤ s.node_list.length ∧ ∀ p ∈ slot_ids s.node_list n, 0 ≤ p ∧ p < (P : Int) := by
  intro n
  induction n with
  | zero => intro r _; simp [slot_ids]
  | succ n ih =>
    intro r hr
    rw [List.range_succ, List.foldlM_append] at hr
    obtain ⟨r1, hr1, hstep⟩ := except_bind_eq_ok hr
    obtain ⟨hlen, hrange⟩ := ih r1 hr1
    obtain ⟨m, hm, hmlen, _⟩ := feasible_fold s P n hlen hrange
    rw [hm] at hr1
    cases hr1
    simp only [List.foldlM_cons, List.foldlM_nil] at hstep
    obtain ⟨r2, hr2, _⟩ := except_bind_eq_ok hstep
    unfold feasible_step at hr2
    obtain ⟨nd, hnd, hrest⟩ := except_bind_eq_ok hr2
    obtain ⟨hn, hget⟩ := readNode_eq_ok hnd
    obtain ⟨v, hv, _⟩ := except_bind_eq_ok hrest
    obtain ⟨h0, h1, _⟩ := readInt_eq_ok hv
    refine ⟨hn, ?_⟩
    intro p hp
    rw [slot_ids_succ s.node_list n hn] at hp
    rcases List.mem_append.mp hp with hp | hp
    · exact hrange p hp
    · simp only [List.mem_singleton] at hp
      subst hp
      rw [hget]
      simp only at h1
      omega

/-- On a node whose slots hold ids of existing entities `solution_is_feasible`
returns `1` when the ids are pairwise distinct and `0` otherwise. -/
theorem solution_is_feasible_eq (sched : schedule_t) (s : solution_t) (P S : Nat)
    (hP : sched.num_people = P) (hS : sched.num_slots = S) (hlen : S ≤ s.node_list.length)
    (hrange : ∀ p ∈ slot_ids s.node_list S, 0 ≤ p ∧ p < (P : Int)) :
    solution_is_feasible sched s = .ok (if (slot_ids s.node_list S).Nodup then 1 else 0) := by
  obtain ⟨m, hm, _, _⟩ := feasible_fold s P S hlen hrange
  unfold solution_is_feasible
  rw [hP, hS]
  simp only [Int.toNat_ofNat, hm, except_ok_bind]
  have hl := slot_ids_length s.node_list S hlen
  by_cases hnd : (slot_ids s.node_list S).Nodup
  · have := (toFinset_card_eq_length_iff _).mpr hnd
    simp [hnd, this, hl]
  · have : (slot_ids s.node_list S).toFinset.card ≠ S := by
      intro h
      exact hnd ((toFinset_card_eq_length_iff _).mp (by omega))
    simp [hnd, this]

/-- When `solution_is_feasible` returns at all, the slots hold ids of existing
entities and the result tells whether they are pairwise distinct. -/
theorem solution_is_feasible_ok (sched : schedule_t) (s : solution_t) (P S : Nat)
    (hP : sched.num_people = P) (hS : sched.num_slots = S) (v : Int)
    (h : solution_is_feasible sched s = .ok v) :
    S ≤ s.node_list.length ∧ (∀ p ∈ slot_ids s.node_list S, 0 ≤ p ∧ p < (P : Int)) ∧
      v = if (slot_ids s.node_list S).Nodup then 1 else 0 := by
  have h' := h
  unfold solution_is_feasible at h'
  rw [hP, hS] at h'
  simp only [Int.toNat_ofNat] at h'
  obtain ⟨r, hr, _⟩ := except_bind_eq_ok h'
  obtain ⟨hlen, hrange⟩ := feasible_fold_ok s P S r hr
  refine ⟨hlen, hrange, ?_⟩
  rw [solution_is_feasible_eq sched s P S hP hS hlen hrange] at h
  cases h
  rfl

end Branchy

namespace Branchy

theorem readWeight_wt (sched : schedule_t) (hwf : WellFormed sched) (S : Nat)
    (hS : sched.num_slots = S) (i j : Nat) (hi : i < sched.weights.length) (hj : j < S) :
    readWeight sched.weights i j = .ok (wt sched i j) := by
  have hrow := hwf.2 (sched.weights[i]) (List.getElem_mem hi)
  have hjl : j < (sched.weights[i]).length := by omega
  unfold readWeight wt
  rw [List.getElem?_eq_getElem hi]
  simp only
  rw [List.getElem?_eq_getElem hjl]
  simp [List.getElem?_eq_getElem hjl]

theorem wt_nonneg (sched : schedule_t) (h : NonNeg sched) (i j : Nat) : 0 ≤ wt sched i j := by
  unfold wt
  cases hrow : sched.weights[i]? with
  | none => exact le_refl _
  | some row =>
    simp only
    have hmem : row ∈ sched.weights := List.mem_iff_getElem?.mpr ⟨i, hrow⟩
    cases hw : row[j]? with
    | none => simp [hw]
    | some w =>
      simp only [List.getD_eq_getElem?_getD, hw, Option.getD_some]
      exact h row hmem w (List.mem_iff_getElem?.mpr ⟨j, hw⟩)

/-- The scan of `max_cost_for_slot` over the entities below `n`. -/
theorem max_cost_fold (sched : schedule_t) (hwf : WellFormed sched) (S : Nat)
    (hS : sched.num_slots = S) (j : Nat) (hj : j < S) (cmap : List Int)
    (hmap : cmap.length = sched.weights.length) :
    ∀ n, n ≤ sched.weights.length →
      ∃ r, (List.range n).foldlM (max_cost_step sched j cmap) (SLOT_WEIGHT_INITIAL_VAL, (-1 : Int))
          = .ok r ∧ MaxCostResult sched j cmap n r := by
  intro n
  induction n with
  | zero =>
    intro _
    exact ⟨_, rfl, Or.inl ⟨rfl, rfl, by intro i hi; omega⟩⟩
  | succ n ih =>
    intro hn
    obtain ⟨r, hr, hres⟩ := ih (by omega)
    have hnl : n < sched.weights.length := by omega
    have hnm : n < cmap.length := by omega
    rw [List.range_succ, List.foldlM_append, hr]
    simp only [except_ok_bind, List.foldlM_cons, List.foldlM_nil]
    unfold max_cost_step
    rw [readWeight_wt sched hwf S hS n j hnl hj]
    simp only [except_ok_bind]
    by_cases hgt : wt sched n j > r.1
    · rw [if_pos hgt, readInt_ok_of_get (List.getElem?_eq_getElem hnm)]
      simp only [except_ok_bind]
      by_cases hc : cmap[n] = 0
      · rw [if_pos hc]
        refine ⟨_, rfl, Or.inr ⟨n, by omega, rfl, ?_, rfl, ?_, ?_, ?_⟩⟩
        · rw [List.getElem?_eq_getElem hnm, hc]
        · rcases hres with ⟨_, h1, _⟩ | ⟨k, _, _, _, _, h5, _, _⟩
          · simp only at hgt ⊢; rw [h1] at hgt; exact hgt
          · simp only at hgt ⊢; exact lt_trans h5 hgt
        · intro i hi hci
          simp only
          rcases Nat.lt_succ_iff_lt_or_eq.mp hi with hlt | heq
          · rcases hres with ⟨_, h1, h3⟩ | ⟨k, _, _, _, _, _, h6, _⟩
            · have := h3 i hlt hci
              rw [h1] at hgt
              exact le_of_lt (lt_of_le_of_lt this hgt)
            · exact le_of_lt (lt_of_le_of_lt (h6 i hlt hci) hgt)
          · rw [heq]
        · intro i hi hci
          simp only
          rcases hres with ⟨_, h1, h3⟩ | ⟨k, _, _, _, _, _, h6, _⟩
          · have := h3 i hi hci
            rw [h1] at hgt
            exact lt_of_le_of_lt this hgt
          · exact lt_of_le_of_lt (h6 i hi hci) hgt
      · rw [if_neg hc]
        refine ⟨_, rfl, ?_⟩
        have hne : cmap[n]? ≠ some 0 := by
          rw [List.getElem?_eq_getElem hnm]
          intro h
          exact hc (Option.some.inj h)
        rcases hres with ⟨h0, h1, h3⟩ | ⟨k, hk, h2, h3, h4, h5, h6, h7⟩
        · refine Or.inl ⟨h0, h1, ?_⟩
          intro i hi hci
          rcases Nat.lt_succ_iff_lt_or_eq.mp hi with hlt | heq
          · exact h3 i hlt hci
          · subst heq; exact absurd hci hne
        · refine Or.inr ⟨k, by omega, h2, h3, h4, h5, ?_, h7⟩
          intro i hi hci
          rcases Nat.lt_succ_iff_lt_or_eq.mp hi with hlt | heq
          · exact h6 i hlt hci
          · subst heq; exact absurd hci hne
    · rw [if_neg hgt]
      refine ⟨_, rfl, ?_⟩
      have hle : wt sched n j ≤ r.1 := not_lt.mp hgt
      rcases hres with ⟨h0, h1, h3⟩ | ⟨k, hk, h2, h3, h4, h5, h6, h7⟩
      · refine Or.inl ⟨h0, h1, ?_⟩
        intro i hi hci
        rcases Nat.lt_succ_iff_lt_or_eq.mp hi with hlt | heq
        · exact h3 i hlt hci
        · subst heq; rw [← h1]; exact hle
      · refine Or.inr ⟨k, by omega, h2, h3, h4, h5, ?_, h7⟩
        intro i hi hci
        rcases Nat.lt_succ_iff_lt_or_eq.mp hi with hlt | heq
        · exact h6 i hlt hci
        · subst heq; exact hle

/-- The C function `max_cost_for_slot` on a well-formed schedule. -/
theorem max_cost_for_slot_spec (sched : schedule_t) (hwf : WellFormed sched) (S : Nat)
    (hS : sched.num_slots = S) (j : Nat) (hj : j < S) (cmap : List Int)
    (hmap : cmap.length = sched.weights.length) :
    ∃ r, max_cost_for_slot sched j cmap = .ok r ∧
      MaxCostResult sched j cmap sched.weights.length r := by
  unfold max_cost_for_slot
  rw [hwf.1]
  simp only [Int.toNat_ofNat]
  exact max_cost_fold sched hwf S hS j hj cmap hmap _ (le_refl _)

end Branchy

theorem take_eq_of_get {α : Type} (l l' : List α) (n : Nat)
    (h : ∀ j, j < n → l'[j]? = l[j]?) : l'.take n = l.take n := by
  apply List.ext_getElem?
  intro j
  rw [List.getElem?_take, List.getElem?_take]
  by_cases hj : j < n
  · simp [hj, h j hj]
  · simp [hj]

theorem slot_ids_congr (l l' : List node_t) (n : Nat)
    (h : ∀ j, j < n → l'[j]? = l[j]?) : slot_ids l' n = slot_ids l n := by
  unfold slot_ids
  rw [take_eq_of_get _ _ n h]

theorem weight_at_congr {l l' : List node_t} {j : Nat} (h : l'[j]? = l[j]?) :
    weight_at l' j = weight_at l j := by
  unfold weight_at
  rw [h]

theorem weight_at_of_get {l : List node_t} {j : Nat} {n : node_t} (h : l[j]? = some n) :
    weight_at l j = n.weight := by
  unfold weight_at
  rw [h]

theorem sameFrame_refl (s : solution_t) : SameFrame s s := ⟨rfl, rfl, rfl, rfl, rfl⟩

theorem sameFrame_trans {s t u : solution_t} (h1 : SameFrame s t) (h2 : SameFrame t u) :
    SameFrame s u :=
  ⟨h2.1.trans h1.1, h2.2.1.trans h1.2.1, h2.2.2.1.trans h1.2.2.1, h2.2.2.2.1.trans h1.2.2.2.1,
    h2.2.2.2.2.trans h1.2.2.2.2⟩

namespace Branchy

/-- One pass of the slot-filling loop. -/
theorem fill_step_spec (sched : schedule_t) (hwf : WellFormed sched) (S : Nat)
    (hS : sched.num_slots = S) (s : solution_t)
    (hmap : s.used_person_id_map.length = sched.weights.length)
    (hlen : s.node_list.length = S) (j : Nat) (hj : j < S) :
    ∃ res, MaxCostResult sched j s.used_person_id_map sched.weights.length res ∧
      fill_step sched s j = .ok { s with
        node_list := s.node_list.set j { person_id := res.2, weight := res.1 },
        total_weight := s.total_weight + res.1 } := by
  obtain ⟨res, hres, hmax⟩ := max_cost_for_slot_spec sched hwf S hS j hj _ hmap
  refine ⟨res, hmax, ?_⟩
  unfold fill_step
  rw [hres]
  simp only [except_ok_bind]
  rw [writeNode_ok _ _ _ (by omega)]
  rfl

/-- The slot-filling loop over the slots `a, …, a + k - 1`. -/
theorem fill_fold (sched : schedule_t) (hwf : WellFormed sched) (S : Nat)
    (hS : sched.num_slots = S) (s : solution_t)
    (hmap : s.used_person_id_map.length = sched.weights.length)
    (hlen : s.node_list.length = S) (a : Nat) :
    ∀ k, a + k ≤ S →
      ∃ t, (List.range' a k).foldlM (fill_step sched) s = .ok t ∧
        t.used_person_id_map = s.used_person_id_map ∧ SameFrame s t ∧
        t.node_list.length = S ∧
        (∀ j, j < a → t.node_list[j]? = s.node_list[j]?) ∧
        (∀ j, a + k ≤ j → t.node_list[j]? = s.node_list[j]?) ∧
        (∀ j, a ≤ j → j < a + k →
          ∃ res, MaxCostResult sched j s.used_person_id_map sched.weights.length res ∧
            t.node_list[j]? = some { person_id := res.2, weight := res.1 }) ∧
        t.total_weight = s.total_weight + ∑ j in Finset.Ico a (a + k), weight_at t.node_list j := by
  intro k
  induction k with
  | zero =>
    intro _
    exact ⟨s, rfl, rfl, sameFrame_refl s, hlen, fun _ _ => rfl, fun _ _ => rfl,
      fun j h1 h2 => by omega, by simp⟩
  | succ k ih =>
    intro hk
    obtain ⟨t, ht, htmap, htframe, htlen, htlow, hthigh, htmid, htw⟩ := ih (by omega)
    obtain ⟨res, hmax, hstep⟩ := fill_step_spec sched hwf S hS t (by rw [htmap]; exact hmap)
      htlen (a + k) (by omega)
    rw [List.range'_1_concat, List.foldlM_append, ht]
    simp only [except_ok_bind, List.foldlM_cons, List.foldlM_nil]
    rw [hstep]
    refine ⟨_, rfl, htmap, htframe, by simp [htlen], ?_, ?_, ?_, ?_⟩
    · intro j hj
      simp only
      rw [List.getElem?_set_ne (by omega)]
      exact htlow j hj
    · intro j hj
      simp only
      rw [List.getElem?_set_ne (by omega)]
      exact hthigh j (by omega)
    · intro j hj1 hj2
      simp only
      by_cases hjk : j = a + k
      · subst hjk
        refine ⟨res, by rw [← htmap]; exact hmax, ?_⟩
        rw [List.getElem?_set_eq_of_lt _ (by omega)]
      · rw [List.getElem?_set_ne (by omega)]
        exact htmid j hj1 (by omega)
    · simp only
      rw [htw, ← Nat.add_assoc, Finset.sum_Ico_succ_top (by omega)]
      have hnew : weight_at (t.node_list.set (a + k) { person_id := res.2, weight := res.1 })
          (a + k) = res.1 := by
        apply weight_at_of_get (n := { person_id := res.2, weight := res.1 })
        rw [List.getElem?_set_eq_of_lt _ (by omega)]
      rw [hnew]
      have hold : ∑ j in Finset.Ico a (a + k), weight_at t.node_list j =
          ∑ j in Finset.Ico a (a + k),
            weight_at (t.node_list.set (a + k) { person_id := res.2, weight := res.1 }) j := by
        apply Finset.sum_congr rfl
        intro j hj
        rw [Finset.mem_Ico] at hj
        symm
        apply weight_at_congr
        rw [List.getElem?_set_ne (by omega)]
      rw [hold]
      ring

end Branchy

namespace Branchy

/-- The loop of `create_branch` that copies the first `n` locked slots of the
parent `r`. -/
theorem copy_fold (sched : schedule_t) (S : Nat) (r s0 : solution_t) (d : Nat)
    (hd : d ≤ r.node_list.length) (hdS : d ≤ S)
    (hr : ∀ p ∈ slot_ids r.node_list d, 0 ≤ p ∧ p < (sched.weights.length : Int))
    (hlen : s0.node_list.length = S)
    (hmap : s0.used_person_id_map = List.replicate sched.weights.length 0)
    (hw : s0.total_weight = 0) :
    ∀ n, n ≤ d →
      ∃ t, (List.range n).foldlM (copy_step r) s0 = .ok t ∧ SameFrame s0 t ∧
        t.node_list.length = S ∧
        (∀ j, j < n → t.node_list[j]? = r.node_list[j]?) ∧
        t.used_person_id_map.length = sched.weights.length ∧
        (∀ k : Nat, k < sched.weights.length →
          t.used_person_id_map[k]? = some (if (k : Int) ∈ slot_ids r.node_list n then 1 else 0)) ∧
        t.total_weight = weight_sum t.node_list n := by
  intro n
  induction n with
  | zero =>
    intro _
    refine ⟨s0, rfl, sameFrame_refl s0, hlen, fun j hj => by omega, by simp [hmap], ?_, ?_⟩
    · intro k hk
      simp [hmap, slot_ids, hk]
    · simp [hw, weight_sum]
  | succ n ih =>
    intro hn
    obtain ⟨t, ht, hframe, htlen, htcopy, htmlen, htmget, htw⟩ := ih (by omega)
    have hnr : n < r.node_list.length := by omega
    have hsucc := slot_ids_succ r.node_list n hnr
    have hin : (r.node_list[n]).person_id ∈ slot_ids r.node_list d := by
      have hsub : slot_ids r.node_list (n + 1) <+: slot_ids r.node_list d := by
        unfold slot_ids
        exact (List.take_prefix_take_left _ (by omega)).map _
      exact hsub.subset (by rw [hsucc]; simp)
    have hp := hr _ hin
    obtain ⟨k, hk⟩ : ∃ k : Nat, (r.node_list[n]).person_id = (k : Int) :=
      ⟨(r.node_list[n]).person_id.toNat, by omega⟩
    have hkP : k < sched.weights.length := by omega
    rw [hk] at hsucc
    rw [List.range_succ, List.foldlM_append, ht]
    simp only [except_ok_bind, List.foldlM_cons, List.foldlM_nil]
    unfold copy_step
    rw [readNode_ok_of_get (List.getElem?_eq_getElem hnr)]
    simp only [except_ok_bind]
    rw [writeNode_ok _ _ _ (by omega), hk, writeInt_natCast _ _ _ (by omega)]
    simp only [except_ok_bind]
    refine ⟨_, rfl, hframe, by simp [htlen], ?_, by simp [htmlen], ?_, ?_⟩
    · intro j hj
      simp only
      by_cases hjn : j = n
      · subst hjn
        rw [List.getElem?_set_eq_of_lt _ (by omega), List.getElem?_eq_getElem hnr, ← hk]
      · rw [List.getElem?_set_ne (by omega)]
        exact htcopy j (by omega)
    · intro i hi
      simp only
      rw [hsucc]
      by_cases hik : i = k
      · subst hik
        rw [List.getElem?_set_eq_of_lt _ (by omega)]
        simp
      · rw [List.getElem?_set_ne (by omega), htmget i hi]
        have : (i : Int) ≠ (k : Int) := by omega
        simp [this]
    · simp only
      unfold weight_sum
      rw [Finset.sum_range_succ]
      have hnew : weight_at (t.node_list.set n
          { person_id := (k : Int), weight := (r.node_list[n]).weight }) n
            = (r.node_list[n]).weight := by
        apply weight_at_of_get (n := { person_id := (k : Int), weight := (r.node_list[n]).weight })
        rw [List.getElem?_set_eq_of_lt _ (by omega)]
      rw [hnew, htw]
      unfold weight_sum
      congr 1
      apply Finset.sum_congr rfl
      intro j hj
      rw [Finset.mem_range] at hj
      symm
      apply weight_at_congr
      rw [List.getElem?_set_ne (by omega)]

end Branchy

namespace Branchy

theorem toNat_people (sched : schedule_t) (hwf : WellFormed sched) :
    sched.num_people.toNat = sched.weights.length := by
  rw [hwf.1]; simp

theorem toNat_slots (sched : schedule_t) (S : Nat) (hS : sched.num_slots = S) :
    sched.num_slots.toNat = S := by
  rw [hS]; simp

/-- The struct built by the loop body of `create_branch`. -/
theorem branch_child_spec (sched : schedule_t) (hwf : WellFormed sched) (S : Nat)
    (hS : sched.num_slots = S) (r : solution_t) (root d i cb : Nat) (iv : ℚ)
    (hd : d < S) (hrlen : d ≤ r.node_list.length)
    (hr : ∀ p ∈ slot_ids r.node_list d, 0 ≤ p ∧ p < (sched.weights.length : Int))
    (hi : i < sched.weights.length) :
    ∃ ch, branch_child sched r root d i cb iv = .ok ch ∧
      IsChild sched r.node_list root d i cb iv ch := by
  have hP := toNat_people sched hwf
  have hS' := toNat_slots sched S hS
  unfold branch_child
  rw [hP, hS']
  obtain ⟨s1, hs1, hf1, hlen1, hcopy1, hmlen1, hmget1, hw1⟩ :=
    copy_fold sched S r
      { active := 1, total_weight := 0, total_depth := (d : Int) + 1, total_children := 0,
        used_person_id_map := List.replicate sched.weights.length 0,
        node_list := List.replicate S { person_id := 0, weight := 0 },
        parent := some root, children := some cb }
      d hrlen (by omega) hr (by simp) rfl rfl d (le_refl d)
  simp only [hs1, except_ok_bind]
  rw [readWeight_wt sched hwf S hS i 0 hi (by omega)]
  simp only [except_ok_bind]
  rw [writeNode_ok _ _ _ (by omega), writeInt_natCast _ _ _ (by omega)]
  simp only [except_ok_bind]
  obtain ⟨s3, hs3, hmap3, hf3, hlen3, hlow3, _, hmid3, hw3⟩ :=
    fill_fold sched hwf S hS
      { s1 with node_list := s1.node_list.set d { person_id := (i : Int), weight := wt sched i 0 },
                total_weight := s1.total_weight + wt sched i 0,
                used_person_id_map := s1.used_person_id_map.set i 1 }
      (by simp [hmlen1]) (by simp [hlen1]) (d + 1) (S - (d + 1)) (by omega)
  rw [hs3]
  simp only [except_ok_bind]
  have hSd : d + 1 + (S - (d + 1)) = S := by omega
  rw [hSd] at hmid3 hw3
  simp only at hmap3 hlow3 hmid3 hw3
  obtain ⟨hfa, hfd, hfc, hfp, hfch⟩ := hf3
  obtain ⟨hfa1, hfd1, hfc1, hfp1, hfch1⟩ := hf1
  simp only at hfa hfd hfc hfp hfch hfa1 hfd1 hfc1 hfp1 hfch1
  have hmapget : ∀ k : Nat, k < sched.weights.length →
      s3.used_person_id_map[k]? =
        some (if (k : Int) ∈ slot_ids r.node_list d ++ [(i : Int)] then 1 else 0) := by
    intro k hk
    rw [hmap3]
    by_cases hki : k = i
    · subst hki
      rw [List.getElem?_set_eq_of_lt _ (by omega)]
      simp
    · rw [List.getElem?_set_ne (by omega), hmget1 k hk]
      have : (k : Int) ≠ (i : Int) := by omega
      simp [this]
  have hcopied : ∀ j, j < d → s3.node_list[j]? = r.node_list[j]? := by
    intro j hj
    rw [hlow3 j (by omega), List.getElem?_set_ne (by omega)]
    exact hcopy1 j hj
  have hlocked : s3.node_list[d]? = some { person_id := (i : Int), weight := wt sched i 0 } := by
    rw [hlow3 d (by omega), List.getElem?_set_eq_of_lt _ (by omega)]
  have hweight : s3.total_weight = weight_sum s3.node_list S := by
    rw [hw3, hw1]
    unfold weight_sum
    have h1 : ∑ j in Finset.range d, weight_at s1.node_list j =
        ∑ j in Finset.range d, weight_at s3.node_list j := by
      apply Finset.sum_congr rfl
      intro j hj
      rw [Finset.mem_range] at hj
      symm
      apply weight_at_congr
      rw [hlow3 j (by omega), List.getElem?_set_ne (by omega)]
    have h2 : wt sched i 0 = weight_at s3.node_list d := by
      rw [weight_at_of_get hlocked]
    rw [h1, h2, ← Finset.sum_range_succ, Finset.range_eq_Ico,
      Finset.sum_Ico_consecutive _ (Nat.zero_le _) (by omega)]
  have hfilled : ∀ j, d < j → j < S →
      ∃ res, MaxCostResult sched j s3.used_person_id_map sched.weights.length res ∧
        s3.node_list[j]? = some { person_id := res.2, weight := res.1 } := by
    intro j h1 h2
    obtain ⟨res, hres, hget⟩ := hmid3 j (by omega) h2
    exact ⟨res, by rw [hmap3]; exact hres, hget⟩
  by_cases hlt : s3.total_weight < iv
  · rw [if_pos hlt]
    refine ⟨_, rfl, ?_⟩
    constructor
    · exact hfd.trans hfd1
    · exact hfc.trans hfc1
    · exact hfp.trans hfp1
    · exact hfch.trans hfch1
    · simp only; rw [hmap3]; simp [hmlen1]
    · exact hmapget
    · simp only; rw [hS']; exact hlen3
    · exact hcopied
    · exact hlocked
    · rw [hS']; exact hfilled
    · simp only; rw [hS']; exact hweight
    · simp [hlt]
  · rw [if_neg hlt]
    refine ⟨_, rfl, ?_⟩
    constructor
    · exact hfd.trans hfd1
    · exact hfc.trans hfc1
    · exact hfp.trans hfp1
    · exact hfch.trans hfch1
    · rw [hmap3]; simp [hmlen1]
    · exact hmapget
    · rw [hS']; exact hlen3
    · exact hcopied
    · exact hlocked
    · rw [hS']; exact hfilled
    · rw [hS']; exact hweight
    · rw [if_neg hlt]; exact hfa.trans hfa1

end Branchy

@[simp] theorem write_heap_same (σ : State) (a : Nat) (v : solution_t) :
    (σ.write a v).heap a = v := by
  simp [State.write]

theorem write_heap_ne (σ : State) (a x : Nat) (v : solution_t) (h : x ≠ a) :
    (σ.write a v).heap x = σ.heap x := by
  simp [State.write, h]

@[simp] theorem write_brk (σ : State) (a : Nat) (v : solution_t) : (σ.write a v).brk = σ.brk := rfl

@[simp] theorem write_incumbent (σ : State) (a : Nat) (v : solution_t) :
    (σ.write a v).incumbent_solution = σ.incumbent_solution := rfl

@[simp] theorem write_value (σ : State) (a : Nat) (v : solution_t) :
    (σ.write a v).incumbent_value = σ.incumbent_value := rfl

@[simp] theorem write_expanded (σ : State) (a : Nat) (v : solution_t) :
    (σ.write a v).num_expanded_solutions = σ.num_expanded_solutions := rfl

@[simp] theorem calloc_fst (σ : State) (n : Nat) : (σ.calloc n).1 = σ.brk := rfl

@[simp] theorem calloc_brk (σ : State) (n : Nat) : (σ.calloc n).2.brk = σ.brk + n := rfl

@[simp] theorem calloc_incumbent (σ : State) (n : Nat) :
    (σ.calloc n).2.incumbent_solution = σ.incumbent_solution := rfl

@[simp] theorem calloc_value (σ : State) (n : Nat) :
    (σ.calloc n).2.incumbent_value = σ.incumbent_value := rfl

@[simp] theorem calloc_expanded (σ : State) (n : Nat) :
    (σ.calloc n).2.num_expanded_solutions = σ.num_expanded_solutions := rfl

theorem calloc_heap_lt (σ : State) (n x : Nat) (h : x < σ.brk) :
    (σ.calloc n).2.heap x = σ.heap x := by
  have : ¬ (σ.brk ≤ x ∧ x < σ.brk + n) := by omega
  simp [State.calloc, this]

theorem calloc_heap_in (σ : State) (n x : Nat) (h1 : σ.brk ≤ x) (h2 : x < σ.brk + n) :
    (σ.calloc n).2.heap x = solution_t.zero := by
  simp [State.calloc, h1, h2]

namespace Branchy

theorem unused_below_succ (m : List Int) (n : Nat) :
    unused_below m (n + 1) = unused_below m n + (if m[n]? ≠ some 1 then 1 else 0) := by
  unfold unused_below
  rw [List.range_succ, List.filter_append, List.length_append]
  by_cases h : m[n]? ≠ some 1
  · simp [h]
  · simp [h]

theorem childAddr_ok (people : Int) (s : solution_t) (i cb : Nat) (hc : s.children = some cb)
    (hi : (i : Int) < people) : childAddr people s i = .ok (cb + i) := by
  simp [childAddr, hc, hi]

/-- The state that one pass of the loop of `create_branch` builds for an unused
entity. -/
theorem create_branch_step_eq (sched : schedule_t) (hwf : WellFormed sched) (S : Nat)
    (hS : sched.num_slots = S) (σ : State) (a cb d n : Nat)
    (hd : d < S) (hrlen : d ≤ (σ.heap a).node_list.length)
    (hr : ∀ p ∈ slot_ids (σ.heap a).node_list d, 0 ≤ p ∧ p < (sched.weights.length : Int))
    (hcb : (σ.heap a).children = some cb) (ha : a < σ.brk)
    (hn : n < sched.weights.length) (u : Int)
    (hu : (σ.heap a).used_person_id_map[n]? = some u) (hu1 : u ≠ 1) :
    ∃ ch, IsChild sched (σ.heap a).node_list a d n σ.brk σ.incumbent_value ch ∧
      create_branch_step sched a d σ n = .ok
        (((σ.write a { σ.heap a with total_children := (σ.heap a).total_children + 1 }).calloc
          sched.weights.length).2.write (cb + n) ch) := by
  have hP := toNat_people sched hwf
  unfold create_branch_step
  rw [readInt_ok_of_get hu]
  simp only [except_ok_bind, if_neg hu1, write_heap_same]
  have hca : childAddr sched.num_people
      { σ.heap a with total_children := (σ.heap a).total_children + 1 } n = .ok (cb + n) :=
    childAddr_ok _ _ n cb hcb (by rw [hwf.1]; exact_mod_cast hn)
  rw [hca]
  simp only [except_ok_bind, hP]
  rw [calloc_heap_lt _ _ _ (by simp; omega)]
  simp only [write_heap_same, calloc_fst, write_brk, calloc_value, write_value]
  obtain ⟨ch, hch, hchild⟩ := branch_child_spec sched hwf S hS
    { σ.heap a with total_children := (σ.heap a).total_children + 1 }
    a d n σ.brk σ.incumbent_value hd hrlen hr hn
  rw [hch]
  exact ⟨ch, hchild, rfl⟩

theorem create_branch_step_skip (sched : schedule_t) (σ : State) (a d n : Nat)
    (hu : (σ.heap a).used_person_id_map[n]? = some 1) :
    create_branch_step sched a d σ n = .ok σ := by
  unfold create_branch_step
  rw [readInt_ok_of_get hu]
  simp

/-- One pass of the loop of `create_branch`. -/
theorem create_branch_step_inv (sched : schedule_t) (hwf : WellFormed sched) (S : Nat)
    (hS : sched.num_slots = S) (σ0 : State) (a cb d : Nat)
    (hd : d < S) (hrlen : d ≤ (σ0.heap a).node_list.length)
    (hr : ∀ p ∈ slot_ids (σ0.heap a).node_list d, 0 ≤ p ∧ p < (sched.weights.length : Int))
    (hmap : (σ0.heap a).used_person_id_map.length = sched.weights.length)
    (hcb : (σ0.heap a).children = some cb)
    (ha : a < σ0.brk) (hblk : cb + sched.weights.length ≤ σ0.brk)
    (hout : a < cb ∨ cb + sched.weights.length ≤ a)
    (n : Nat) (hn : n < sched.weights.length) (σ : State)
    (hinv : BranchInv sched σ0 a cb d n σ) :
    ∃ σ', create_branch_step sched a d σ n = .ok σ' ∧ BranchInv sched σ0 a cb d (n + 1) σ' := by
  have hroot := hinv.root_cell
  have hbrk := hinv.brk_le
  have hm : (σ.heap a).used_person_id_map = (σ0.heap a).used_person_id_map := by rw [hroot]
  have hnl : (σ.heap a).node_list = (σ0.heap a).node_list := by rw [hroot]
  have hch : (σ.heap a).children = some cb := by rw [hroot]; exact hcb
  have htc : (σ.heap a).total_children = (σ0.heap a).total_children +
      (unused_below (σ0.heap a).used_person_id_map n : Int) := by rw [hroot]
  have hnm : n < (σ0.heap a).used_person_id_map.length := by omega
  have hus := unused_below_succ (σ0.heap a).used_person_id_map n
  by_cases hu : (σ0.heap a).used_person_id_map[n]? = some 1
  · -- the entity is locked in the parent: nothing happens
    refine ⟨σ, create_branch_step_skip sched σ a d n (by rw [hm]; exact hu), ?_⟩
    constructor
    · exact hinv.incumbent
    · exact hinv.value
    · exact hinv.expanded
    · exact hinv.brk_le
    · rw [hroot, hus]; simp [hu]
    · intro i hi hui
      have hin : i < n := by
        rcases Nat.lt_succ_iff_lt_or_eq.mp hi with h | h
        · exact h
        · subst h; exact absurd hu hui
      exact hinv.made i hin hui
    · intro i hi hui
      exact hinv.skipped i hi (fun h => hui (by omega))
    · intro i i' b b' hi hi' hne hui hui' hb hb'
      have hin : i < n := by
        rcases Nat.lt_succ_iff_lt_or_eq.mp hi with h | h
        · exact h
        · subst h; exact absurd hu hui
      have hin' : i' < n := by
        rcases Nat.lt_succ_iff_lt_or_eq.mp hi' with h | h
        · exact h
        · subst h; exact absurd hu hui'
      exact hinv.apart i i' b b' hin hin' hne hui hui' hb hb'
    · exact hinv.frame
    · exact hinv.fresh
  · -- a child is built for the entity
    have hget : (σ.heap a).used_person_id_map[n]? = some ((σ0.heap a).used_person_id_map[n]) := by
      rw [hm, List.getElem?_eq_getElem hnm]
    have hu1 : (σ0.heap a).used_person_id_map[n] ≠ 1 := by
      intro h
      apply hu
      rw [List.getElem?_eq_getElem hnm, h]
    obtain ⟨ch, hchild, hstep⟩ := create_branch_step_eq sched hwf S hS σ a cb d n hd
      (by rw [hnl]; exact hrlen) (by rw [hnl]; exact hr) hch (by omega) hn _ hget hu1
    rw [hnl, hinv.value] at hchild
    have hne : cb + n ≠ a := by omega
    refine ⟨_, hstep, ?_⟩
    constructor
    · simp [hinv.incumbent]
    · simp [hinv.value]
    · simp [hinv.expanded]
    · simp; omega
    · rw [write_heap_ne _ _ _ _ (Ne.symm hne), calloc_heap_lt _ _ _ (by simp; omega),
        write_heap_same, hus, hroot]
      simp [hu]
      ring
    · intro i hi hui
      rcases Nat.lt_succ_iff_lt_or_eq.mp hi with hlt | heq
      · obtain ⟨cbi, hci, h1, h2, h3⟩ := hinv.made i hlt hui
        refine ⟨cbi, ?_, h1, by simp; omega, ?_⟩
        · rw [write_heap_ne _ _ _ _ (by omega), calloc_heap_lt _ _ _ (by simp; omega),
            write_heap_ne _ _ _ _ (by omega)]
          exact hci
        · intro j hj
          rw [write_heap_ne _ _ _ _ (by omega), calloc_heap_lt _ _ _ (by simp; omega),
            write_heap_ne _ _ _ _ (by omega)]
          exact h3 j hj
      · subst heq
        refine ⟨σ.brk, ?_, hbrk, by simp, ?_⟩
        · rw [write_heap_same]
          exact hchild
        · intro j hj
          rw [write_heap_ne _ _ _ _ (by omega)]
          exact calloc_heap_in _ _ _ (by simp) (by simp; omega)
    · intro i hi hui
      have hin : i ≠ n := by
        intro h
        subst h
        exact hu (hui (by omega))
      rw [write_heap_ne _ _ _ _ (by omega), calloc_heap_lt _ _ _ (by simp; omega),
        write_heap_ne _ _ _ _ (by omega)]
      exact hinv.skipped i hi (fun h => hui (by omega))
    · have hnew : ∀ i b, i < n → (σ0.heap a).used_person_id_map[i]? ≠ some 1 →
          (σ.heap (cb + i)).children = some b → b + sched.weights.length ≤ σ.brk := by
        intro i b hi hui hb
        obtain ⟨cbi, hci, _, h2, _⟩ := hinv.made i hi hui
        have := hci.children
        rw [hb] at this
        cases this
        exact h2
      intro i i' b b' hi hi' hii hui hui' hb hb'
      rcases Nat.lt_succ_iff_lt_or_eq.mp hi with hlt | heq
      · rw [write_heap_ne _ _ _ _ (by omega), calloc_heap_lt _ _ _ (by simp; omega),
          write_heap_ne _ _ _ _ (by omega)] at hb
        rcases Nat.lt_succ_iff_lt_or_eq.mp hi' with hlt' | heq'
        · rw [write_heap_ne _ _ _ _ (by omega), calloc_heap_lt _ _ _ (by simp; omega),
            write_heap_ne _ _ _ _ (by omega)] at hb'
          exact hinv.apart i i' b b' hlt hlt' hii hui hui' hb hb'
        · subst heq'
          rw [write_heap_same, hchild.children] at hb'
          cases hb'
          exact Or.inl (hnew i b hlt hui hb)
      · subst heq
        rw [write_heap_same, hchild.children] at hb
        cases hb
        have hlt' : i' < i := by omega
        rw [write_heap_ne _ _ _ _ (by omega), calloc_heap_lt _ _ _ (by simp; omega),
          write_heap_ne _ _ _ _ (by omega)] at hb'
        exact Or.inr (hnew i' b' hlt' hui' hb')
    · intro x hx hxa hxb
      rw [write_heap_ne _ _ _ _ (by omega), calloc_heap_lt _ _ _ (by simp; omega),
        write_heap_ne _ _ _ _ hxa]
      exact hinv.frame x hx hxa hxb
    · intro x hx0 hx1
      rw [write_heap_ne _ _ _ _ (by omega)]
      by_cases hxs : x < σ.brk
      · rw [calloc_heap_lt _ _ _ (by simp; omega), write_heap_ne _ _ _ _ (by omega)]
        exact hinv.fresh x hx0 hxs
      · simp only [write_brk, calloc_brk] at hx1
        exact calloc_heap_in _ _ _ (by simp; omega) (by simp; omega)

end Branchy

namespace Branchy

theorem branchInv_zero (sched : schedule_t) (σ0 : State) (a cb d : Nat) :
    BranchInv sched σ0 a cb d 0 σ0 := by
  constructor
  · rfl
  · rfl
  · rfl
  · exact le_refl _
  · simp [unused_below]
  · intro i hi; omega
  · intro i _ _; rfl
  · intro i i' b b' hi; omega
  · intro x _ _ _; rfl
  · intro x h1 h2; omega

/-- The C function `create_branch` on a node that has room for its children. -/
theorem create_branch_spec (sched : schedule_t) (hwf : WellFormed sched) (S : Nat)
    (hS : sched.num_slots = S) (σ0 : State) (a cb d : Nat)
    (hd : d < S) (hrlen : d ≤ (σ0.heap a).node_list.length)
    (hr : ∀ p ∈ slot_ids (σ0.heap a).node_list d, 0 ≤ p ∧ p < (sched.weights.length : Int))
    (hmap : (σ0.heap a).used_person_id_map.length = sched.weights.length)
    (hcb : (σ0.heap a).children = some cb)
    (ha : a < σ0.brk) (hblk : cb + sched.weights.length ≤ σ0.brk)
    (hout : a < cb ∨ cb + sched.weights.length ≤ a) :
    ∃ σ', create_branch sched σ0 a d = .ok σ' ∧
      BranchInv sched σ0 a cb d sched.weights.length σ' := by
  have key : ∀ n, n ≤ sched.weights.length →
      ∃ σ', (List.range n).foldlM (create_branch_step sched a d) σ0 = .ok σ' ∧
        BranchInv sched σ0 a cb d n σ' := by
    intro n
    induction n with
    | zero => intro _; exact ⟨σ0, rfl, branchInv_zero sched σ0 a cb d⟩
    | succ n ih =>
      intro hn
      obtain ⟨σ, hσ, hinv⟩ := ih (by omega)
      obtain ⟨σ', hσ', hinv'⟩ := create_branch_step_inv sched hwf S hS σ0 a cb d hd hrlen hr hmap
        hcb ha hblk hout n (by omega) σ hinv
      refine ⟨σ', ?_, hinv'⟩
      rw [List.range_succ, List.foldlM_append, hσ]
      simp only [except_ok_bind, List.foldlM_cons, List.foldlM_nil]
      rw [hσ']
      rfl
  unfold create_branch
  rw [toNat_people sched hwf]
  exact key _ (le_refl _)

theorem nearest_active_self (σ : State) (n a : Nat) (h : (σ.heap a).active ≠ 0) :
    nearest_active σ (n + 1) (some a) = .ok (some a) := by
  simp [nearest_active, h]

/-- The child scan of `select_branch`. -/
theorem select_fold (sched : schedule_t) (σ : State) (p cb : Nat)
    (hcb : (σ.heap p).children = some cb) :
    ∀ n : Nat, ((n : Nat) : Int) ≤ sched.num_people →
      ∃ r, (List.range n).foldlM (select_step sched σ p) (SLOT_WEIGHT_INITIAL_VAL, none) = .ok r ∧
        SelectResult σ cb n r := by
  intro n
  induction n with
  | zero =>
    intro _
    exact ⟨_, rfl, Or.inl ⟨rfl, rfl, by intro i hi; omega⟩⟩
  | succ n ih =>
    intro hn
    obtain ⟨r, hr, hres⟩ := ih (by omega)
    rw [List.range_succ, List.foldlM_append, hr]
    simp only [except_ok_bind, List.foldlM_cons, List.foldlM_nil]
    unfold select_step
    rw [childAddr_ok _ _ n cb hcb (by omega)]
    simp only [except_ok_bind]
    by_cases hc : (σ.heap (cb + n)).active = 1 ∧ (σ.heap (cb + n)).total_weight > r.1 ∧
        (σ.heap (cb + n)).total_weight > σ.incumbent_value
    · rw [if_pos hc]
      obtain ⟨hc1, hc2, hc3⟩ := hc
      refine ⟨_, rfl, Or.inr ⟨n, by omega, rfl, rfl, hc1, ?_, hc3, ?_, ?_⟩⟩
      · rcases hres with ⟨_, h1, _⟩ | ⟨k, _, _, h3, _, h5, _, _, _⟩
        · rw [h1] at hc2; exact hc2
        · rw [h3] at hc2; exact lt_trans h5 hc2
      · intro i hi hia hiw
        rcases Nat.lt_succ_iff_lt_or_eq.mp hi with hlt | heq
        · rcases hres with ⟨_, h1, h3⟩ | ⟨k, _, _, h3, _, _, _, h7, _⟩
          · rw [h1] at hc2
            by_contra hcon
            exact h3 i hlt ⟨hia, lt_of_lt_of_le hc2 (le_of_lt (not_le.mp hcon)), hiw⟩
          · rw [h3] at hc2
            exact le_of_lt (lt_of_le_of_lt (h7 i hlt hia hiw) hc2)
        · rw [heq]
      · intro i hi hia hiw
        rcases hres with ⟨_, h1, h3⟩ | ⟨k, _, _, h3, _, _, _, h7, _⟩
        · rw [h1] at hc2
          by_contra hcon
          exact h3 i hi ⟨hia, lt_of_lt_of_le hc2 (not_lt.mp hcon), hiw⟩
        · rw [h3] at hc2
          exact lt_of_le_of_lt (h7 i hi hia hiw) hc2
    · rw [if_neg hc]
      refine ⟨_, rfl, ?_⟩
      rcases hres with ⟨h0, h1, h3⟩ | ⟨k, hk, h2, h3, h4, h5, h6, h7, h8⟩
      · refine Or.inl ⟨h0, h1, ?_⟩
        intro i hi
        rcases Nat.lt_succ_iff_lt_or_eq.mp hi with hlt | heq
        · exact h3 i hlt
        · subst heq
          rw [h1] at hc
          exact hc
      · refine Or.inr ⟨k, by omega, h2, h3, h4, h5, h6, ?_, h8⟩
        intro i hi hia hiw
        rcases Nat.lt_succ_iff_lt_or_eq.mp hi with hlt | heq
        · exact h7 i hlt hia hiw
        · subst heq
          rw [h3] at hc
          by_contra hcon
          exact hc ⟨hia, not_le.mp hcon, hiw⟩

/-- The C function `select_branch` on an active node. -/
theorem select_branch_spec (sched : schedule_t) (σ : State) (a cb : Nat)
    (hact : (σ.heap a).active ≠ 0) (hcb : (σ.heap a).children = some cb)
    (hp : 0 ≤ sched.num_people) (htc : (σ.heap a).total_children ≤ sched.num_people) :
    ∃ r, select_branch sched σ a = .ok r.2 ∧
      SelectResult σ cb (σ.heap a).total_children.toNat r := by
  unfold select_branch
  rw [nearest_active_self σ _ a hact]
  simp only [except_ok_bind]
  obtain ⟨r, hr, hres⟩ := select_fold sched σ a cb hcb (σ.heap a).total_children.toNat (by omega)
  rw [hr]
  exact ⟨r, rfl, hres⟩

/-- The loop of `solution_is_active`. -/
theorem solution_is_active_loop_spec (sched : schedule_t) (σ : State) (s : solution_t) (cb : Nat)
    (hcb : s.children = some cb) :
    ∀ n i, ((i + n : Nat) : Int) ≤ sched.num_people →
      ∃ r, solution_is_active_loop sched σ s n i = .ok r ∧
        (r = 0 ↔ ∀ j, i ≤ j → j < i + n → (σ.heap (cb + j)).active = 0) := by
  intro n
  induction n with
  | zero =>
    intro i _
    exact ⟨0, rfl, by simp; intro j h1 h2; omega⟩
  | succ n ih =>
    intro i hi
    unfold solution_is_active_loop
    rw [childAddr_ok _ _ i cb hcb (by omega)]
    simp only [except_ok_bind]
    by_cases h0 : (σ.heap (cb + i)).active = 0
    · rw [if_pos h0]
      obtain ⟨r, hr, hiff⟩ := ih (i + 1) (by push_cast at hi ⊢; omega)
      refine ⟨r, hr, ?_⟩
      rw [hiff]
      constructor
      · intro h j hj1 hj2
        rcases Nat.eq_or_lt_of_le hj1 with heq | hlt
        · subst heq; exact h0
        · exact h j (by omega) (by omega)
      · intro h j hj1 hj2
        exact h j (by omega) (by omega)
    · rw [if_neg h0]
      refine ⟨_, rfl, ?_⟩
      constructor
      · intro h; exact absurd h h0
      · intro h; exact absurd (h i (le_refl _) (by omega)) h0

/-- The C function `solution_is_active`. -/
theorem solution_is_active_spec (sched : schedule_t) (σ : State) (a cb : Nat)
    (hcb : (σ.heap a).children = some cb)
    (hp : 0 ≤ sched.num_people) (htc : (σ.heap a).total_children ≤ sched.num_people) :
    ∃ r, solution_is_active sched σ a = .ok r ∧
      (r = 0 ↔ ∀ j, j < (σ.heap a).total_children.toNat → (σ.heap (cb + j)).active = 0) := by
  unfold solution_is_active
  obtain ⟨r, hr, hiff⟩ := solution_is_active_loop_spec sched σ (σ.heap a) cb hcb
    (σ.heap a).total_children.toNat 0 (by simp; omega)
  refine ⟨r, hr, ?_⟩
  rw [hiff]
  constructor
  · intro h j hj; exact h j (Nat.zero_le _) (by omega)
  · intro h j _ hj; exact h j (by omega)

/-- The C function `prune_branch` on a node without children. -/
theorem prune_branch_leaf (sched : schedule_t) (σ : State) (b : Nat)
    (htc : (σ.heap b).total_children = 0) :
    prune_branch sched σ (some b) = .ok (σ.write b { σ.heap b with active := 0 }) := by
  simp [prune_branch, htc]

/-- The C function `update_incumbent_and_branch` on a node without children. -/
theorem update_incumbent_leaf (sched : schedule_t) (σ : State) (s : Nat)
    (htc : (σ.heap s).total_children = 0) :
    update_incumbent_and_branch sched σ s = .ok
      ((if (σ.heap s).total_weight > σ.incumbent_value then
          { σ with incumbent_solution := some s, incumbent_value := (σ.heap s).total_weight }
        else σ).write s { σ.heap s with active := 0 }) := by
  unfold update_incumbent_and_branch
  by_cases h : (σ.heap s).total_weight > σ.incumbent_value
  · simp only [if_pos h]
    exact prune_branch_leaf sched
      { σ with incumbent_solution := some s, incumbent_value := (σ.heap s).total_weight } s htc
  · simp only [if_neg h]
    exact prune_branch_leaf sched σ s htc

end Branchy

theorem foldlM_error_of_step {α β : Type} (f : β → α → Except Err β) (e0 : Err)
    (hf : ∀ b a e, f b a = .error e → e = e0) :
    ∀ (l : List α) (b : β) (e : Err), l.foldlM f b = .error e → e = e0 := by
  intro l
  induction l with
  | nil => intro b e h; simp [List.foldlM] at h
  | cons a l ih =>
    intro b e h
    rw [List.foldlM_cons] at h
    cases hfa : f b a with
    | error e1 =>
      rw [hfa] at h
      simp only [except_error_bind] at h
      cases h
      exact hf b a _ hfa
    | ok b1 =>
      rw [hfa] at h
      simp only [except_ok_bind] at h
      exact ih b1 e h

theorem readInt_error {a : List Int} {p : Int} {e : Err} (h : readInt a p = .error e) :
    e = .outOfBounds := by
  unfold readInt at h
  split at h
  · cases h; rfl
  · split at h
    · cases h
    · cases h; rfl

theorem writeInt_error {a : List Int} {p v : Int} {e : Err} (h : writeInt a p v = .error e) :
    e = .outOfBounds := by
  unfold writeInt at h
  split at h
  · cases h; rfl
  · split at h
    · cases h
    · cases h; rfl

theorem readNode_error {a : List node_t} {i : Nat} {e : Err} (h : readNode a i = .error e) :
    e = .outOfBounds := by
  unfold readNode at h
  split at h
  · cases h
  · cases h; rfl

theorem mem_slot_ids {l : List node_t} {n : Nat} {p : Int} :
    p ∈ slot_ids l n ↔ ∃ j, j < n ∧ ∃ nd, l[j]? = some nd ∧ nd.person_id = p := by
  unfold slot_ids
  rw [List.mem_map]
  constructor
  · rintro ⟨nd, hnd, hp⟩
    obtain ⟨j, hj⟩ := List.mem_iff_getElem?.mp hnd
    rw [List.getElem?_take] at hj
    by_cases hjn : j < n
    · rw [if_pos hjn] at hj
      exact ⟨j, hjn, nd, hj, hp⟩
    · rw [if_neg hjn] at hj
      cases hj
  · rintro ⟨j, hjn, nd, hj, hp⟩
    refine ⟨nd, ?_, hp⟩
    apply List.mem_iff_getElem?.mpr
    exact ⟨j, by rw [List.getElem?_take, if_pos hjn]; exact hj⟩

/-- Fewer than `P` ids cannot cover all entities below `P`. -/
theorem exists_not_mem_of_length_lt (L : List Int) (P : Nat) (h : L.length < P) :
    ∃ k, k < P ∧ (k : Int) ∉ L := by
  by_contra hcon
  push_neg at hcon
  have hsub : (Finset.range P).image (fun k : Nat => (k : Int)) ⊆ L.toFinset := by
    intro x hx
    rw [Finset.mem_image] at hx
    obtain ⟨k, hk, rfl⟩ := hx
    rw [List.mem_toFinset]
    exact hcon k (Finset.mem_range.mp hk)
  have hcard := Finset.card_le_card hsub
  rw [Finset.card_image_of_injective _ (fun a b h => by exact_mod_cast h), Finset.card_range]
    at hcard
  have := List.toFinset_card_le L
  omega

namespace Branchy

theorem feasible_step_error (s : solution_t) (acc : List Int × Int) (i : Nat) (e : Err)
    (h : feasible_step s acc i = .error e) : e = .outOfBounds := by
  unfold feasible_step at h
  cases h1 : readNode s.node_list i with
  | error e1 =>
    rw [h1] at h
    simp only [except_error_bind] at h
    cases h
    exact readNode_error h1
  | ok nd =>
    rw [h1] at h
    simp only [except_ok_bind] at h
    cases h2 : readInt acc.1 nd.person_id with
    | error e2 =>
      rw [h2] at h
      simp only [except_error_bind] at h
      cases h
      exact readInt_error h2
    | ok v =>
      rw [h2] at h
      simp only [except_ok_bind] at h
      split at h
      · cases h3 : writeInt acc.1 nd.person_id 1 with
        | error e3 =>
          rw [h3] at h
          simp only [except_error_bind] at h
          cases h
          exact writeInt_error h3
        | ok m =>
          rw [h3] at h
          simp at h
      · simp at h

/-- The only way `solution_is_feasible` stops without a result is an access
outside an array. -/
theorem solution_is_feasible_error (sched : schedule_t) (s : solution_t) (e : Err)
    (h : solution_is_feasible sched s = .error e) : e = .outOfBounds := by
  unfold solution_is_feasible at h
  cases h1 : (List.range sched.num_slots.toNat).foldlM (feasible_step s)
      (List.replicate sched.num_people.toNat (0 : Int), (0 : Int)) with
  | error e1 =>
    rw [h1] at h
    simp only [except_error_bind] at h
    cases h
    exact foldlM_error_of_step _ _ (feasible_step_error s) _ _ _ h1
  | ok r =>
    rw [h1] at h
    simp only [except_ok_bind] at h
    split at h <;> simp at h

/-- The locked slots of a child: those of the parent followed by the new entity. -/
theorem isChild_slot_ids (sched : schedule_t) (S : Nat) (hS : sched.num_slots = S)
    (rl : List node_t) (root d i cb : Nat) (iv : ℚ) (ch : solution_t)
    (hch : IsChild sched rl root d i cb iv ch) (hd : d < S) :
    slot_ids ch.node_list (d + 1) = slot_ids rl d ++ [(i : Int)] := by
  have hlen : ch.node_list.length = S := by rw [hch.list_len, toNat_slots sched S hS]
  have hdl : d < ch.node_list.length := by omega
  rw [slot_ids_succ _ d hdl, slot_ids_congr rl ch.node_list d hch.copied]
  have := hch.locked
  rw [List.getElem?_eq_getElem hdl] at this
  rw [Option.some.inj this]

/-- A child built for an unused entity has consistent bookkeeping. -/
theorem isChild_locked (sched : schedule_t) (S : Nat) (hS : sched.num_slots = S)
    (rl : List node_t) (root d i cb : Nat) (iv : ℚ) (ch : solution_t)
    (hch : IsChild sched rl root d i cb iv ch) (hd : d < S)
    (hrange : ∀ p ∈ slot_ids rl d, 0 ≤ p ∧ p < (sched.weights.length : Int))
    (hnodup : (slot_ids rl d).Nodup) (hi : i < sched.weights.length)
    (hnot : (i : Int) ∉ slot_ids rl d) : Locked sched ch (d + 1) := by
  have hids := isChild_slot_ids sched S hS rl root d i cb iv ch hch hd
  constructor
  · rw [hch.depth]; push_cast; ring
  · exact hch.map_len
  · exact hch.list_len
  · intro p hp
    rw [hids] at hp
    rcases List.mem_append.mp hp with h | h
    · exact hrange p h
    · simp only [List.mem_singleton] at h
      subst h
      omega
  · rw [hids]
    rw [List.nodup_append]
    refine ⟨hnodup, List.nodup_singleton _, ?_⟩
    intro x hx hx'
    simp only [List.mem_singleton] at hx'
    subst hx'
    exact hnot hx
  · intro k hk
    rw [hids]
    exact hch.map_get k hk

/-- On a `Nice` schedule every slot of a child holds an existing entity and a
non-negative weight. -/
theorem isChild_nice (sched : schedule_t) (hwf : WellFormed sched) (S : Nat)
    (hS : sched.num_slots = S)
    (rl : List node_t) (root d i cb : Nat) (iv : ℚ) (ch : solution_t)
    (hch : IsChild sched rl root d i cb iv ch) (hd : d < S)
    (hrange : ∀ p ∈ slot_ids rl d, 0 ≤ p ∧ p < (sched.weights.length : Int))
    (hi : i < sched.weights.length) (hnice : Nice sched)
    (hrl : ∀ j, 0 ≤ weight_at rl j) :
    (∀ p ∈ slot_ids ch.node_list S, 0 ≤ p ∧ p < (sched.weights.length : Int)) ∧
      ∀ j, 0 ≤ weight_at ch.node_list j := by
  have hS' := toNat_slots sched S hS
  have hSP : S ≤ sched.weights.length := by
    have := hnice.2
    rw [hwf.1, hS] at this
    exact_mod_cast this
  have hidlen : (slot_ids rl d ++ [(i : Int)]).length ≤ d + 1 := by
    simp [slot_ids]
  have hfill : ∀ j, d < j → j < S → ∃ (q : Nat) (w : ℚ), q < sched.weights.length ∧ 0 ≤ w ∧
      ch.node_list[j]? = some { person_id := (q : Int), weight := w } := by
    intro j hj1 hj2
    obtain ⟨k, hk, hknot⟩ := exists_not_mem_of_length_lt (slot_ids rl d ++ [(i : Int)])
      sched.weights.length (by omega)
    have hkmap : ch.used_person_id_map[k]? = some 0 := by
      rw [hch.map_get k hk, if_neg hknot]
    obtain ⟨res, hres, hget⟩ := hch.filled j hj1 (by rw [hS']; exact hj2)
    rcases hres with ⟨_, _, h3⟩ | ⟨q, hq, h2, _, h4, _, _, _⟩
    · have h1 := h3 k hk hkmap
      have h2 := wt_nonneg sched hnice.1 k j
      unfold SLOT_WEIGHT_INITIAL_VAL at h1
      linarith
    · refine ⟨q, res.1, hq, ?_, ?_⟩
      · rw [h4]; exact wt_nonneg sched hnice.1 q j
      · rw [hget, h2]
  constructor
  · intro p hp
    obtain ⟨j, hj, nd, hnd, hpid⟩ := mem_slot_ids.mp hp
    rcases Nat.lt_trichotomy j d with hlt | heq | hgt
    · rw [hch.copied j hlt] at hnd
      exact hrange p (mem_slot_ids.mpr ⟨j, hlt, nd, hnd, hpid⟩)
    · subst heq
      rw [hch.locked] at hnd
      cases hnd
      subst hpid
      simp only
      omega
    · obtain ⟨q, w, hq, _, hget⟩ := hfill j hgt hj
      rw [hget] at hnd
      cases hnd
      subst hpid
      simp only
      omega
  · intro j
    rcases Nat.lt_trichotomy j d with hlt | heq | hgt
    · rw [weight_at_congr (hch.copied j hlt)]
      exact hrl j
    · subst heq
      rw [weight_at_of_get hch.locked]
      exact wt_nonneg sched hnice.1 i 0
    · by_cases hjS : j < S
      · obtain ⟨q, w, _, hw, hget⟩ := hfill j hgt hjS
        rw [weight_at_of_get hget]
        exact hw
      · unfold weight_at
        have : ch.node_list[j]? = none := by
          apply List.getElem?_eq_none
          rw [hch.list_len, hS']
          omega
        rw [this]

end Branchy

theorem eqExceptFlags_refl (s : solution_t) : EqExceptFlags s s := ⟨rfl, rfl, rfl, rfl, rfl, rfl⟩

theorem eqExceptFlags_trans {s t u : solution_t} (h1 : EqExceptFlags s t)
    (h2 : EqExceptFlags t u) : EqExceptFlags s u :=
  ⟨h2.1.trans h1.1, h2.2.1.trans h1.2.1, h2.2.2.1.trans h1.2.2.1, h2.2.2.2.1.trans h1.2.2.2.1,
    h2.2.2.2.2.1.trans h1.2.2.2.2.1, h2.2.2.2.2.2.trans h1.2.2.2.2.2⟩

theorem eqExceptFlags_active (s : solution_t) (v : Int) :
    EqExceptFlags s { s with active := v } := ⟨rfl, rfl, rfl, rfl, rfl, rfl⟩

theorem stable_refl (σ : State) : Stable σ σ := fun _ _ _ => eqExceptFlags_refl _

theorem stable_trans {σ τ υ : State} (h1 : Stable σ τ) (h2 : Stable τ υ) (hb : σ.brk ≤ τ.brk) :
    Stable σ υ := by
  intro x hx hc
  have e1 := h1 x hx hc
  have hc' : (τ.heap x).children ≠ none := by rw [e1.2.2.2.2.2]; exact hc
  exact eqExceptFlags_trans e1 (h2 x (by omega) hc')

theorem stable_write_active (σ : State) (a : Nat) (v : Int) :
    Stable σ (σ.write a { σ.heap a with active := v }) := by
  intro x _ _
  by_cases hx : x = a
  · subst hx
    rw [write_heap_same]
    exact eqExceptFlags_active _ v
  · rw [write_heap_ne _ _ _ _ hx]
    exact eqExceptFlags_refl _

namespace Branchy

/-- The bookkeeping of the locked slots does not depend on the flags. -/
theorem locked_of_flags (sched : schedule_t) (s t : solution_t) (d : Nat)
    (h : EqExceptFlags s t) (hl : Locked sched s d) : Locked sched t d := by
  obtain ⟨_, e2, e3, e4, _, _⟩ := h
  exact ⟨by rw [e2]; exact hl.depth, by rw [e3]; exact hl.map_len, by rw [e4]; exact hl.list_len,
    by rw [e4]; exact hl.ids_range, by rw [e4]; exact hl.ids_nodup,
    by rw [e3, e4]; exact hl.map_get⟩

/-- A change of flags keeps every set-up struct locked. -/
theorem allLocked_of_flags (sched : schedule_t) (σ τ : State) (hb : τ.brk = σ.brk)
    (h : ∀ x, EqExceptFlags (σ.heap x) (τ.heap x)) (hl : AllLocked sched σ) :
    AllLocked sched τ := by
  intro x hx hc
  have e := h x
  rw [e.2.1]
  apply locked_of_flags sched _ _ _ e
  apply hl x (by omega)
  rw [← e.2.2.2.2.2]
  exact hc

theorem allLocked_write_active (sched : schedule_t) (σ : State) (a : Nat) (v : Int)
    (hl : AllLocked sched σ) : AllLocked sched (σ.write a { σ.heap a with active := v }) := by
  refine allLocked_of_flags sched σ (σ.write a { σ.heap a with active := v }) rfl ?_ hl
  intro x
  by_cases hx : x = a
  · subst hx
    rw [write_heap_same]
    exact eqExceptFlags_active _ v
  · rw [write_heap_ne _ _ _ _ hx]
    exact eqExceptFlags_refl _

/-- A change of flags keeps the weight sums. -/
theorem allSummed_of_flags (sched : schedule_t) (σ τ : State) (hb : τ.brk = σ.brk)
    (h : ∀ x, EqExceptFlags (σ.heap x) (τ.heap x)) (hl : AllSummed sched σ) :
    AllSummed sched τ := by
  intro x hx hc
  have e := h x
  rw [e.1, e.2.2.2.1]
  apply hl x (by omega)
  rw [← e.2.2.2.2.2]
  exact hc

/-- A change of flags keeps the heap shallow. -/
theorem shallow_of_flags (sched : schedule_t) (σ τ : State) (hb : τ.brk = σ.brk)
    (h : ∀ x, EqExceptFlags (σ.heap x) (τ.heap x)) (hl : Shallow sched σ) :
    Shallow sched τ := by
  intro x hx hc
  have e := h x
  obtain ⟨h1, h2, h3⟩ := hl x (by omega) (by rw [← e.2.2.2.2.2]; exact hc)
  unfold Honest FeasibleNode at *
  rw [e.2.1, e.2.2.2.1]
  exact ⟨h1, h2, h3⟩

/-- Deactivating structs and raising the incumbent value keeps the tree settled,
as long as every newly inactive struct leaves no child behind that beats the
incumbent. -/
theorem treeSettled_of_flags (sched : schedule_t) (σ τ : State) (hb : τ.brk = σ.brk)
    (h : ∀ x, EqExceptFlags (σ.heap x) (τ.heap x))
    (htc : ∀ x, (τ.heap x).total_children = (σ.heap x).total_children)
    (hact : ∀ x, (σ.heap x).active = 0 → (τ.heap x).active = 0)
    (hv : σ.incumbent_value ≤ τ.incumbent_value)
    (hnew : ∀ x bx, x < σ.brk → (σ.heap x).children = some bx → (σ.heap x).active ≠ 0 →
      (τ.heap x).active = 0 → ∀ i : Nat, (i : Int) < (σ.heap x).total_children →
      i < sched.weights.length →
      (τ.heap (bx + i)).active = 0 ∨ (τ.heap (bx + i)).total_weight ≤ τ.incumbent_value)
    (hs : TreeSettled sched σ) : TreeSettled sched τ := by
  constructor
  · intro x bx hx hc
    rw [(h x).2.2.2.2.2] at hc
    rw [hb]
    exact hs.inb x bx (by omega) hc
  · intro x y bx yb hx hy hxy hcx hcy
    rw [(h x).2.2.2.2.2] at hcx
    rw [(h y).2.2.2.2.2] at hcy
    exact hs.sep x y bx yb (by omega) (by omega) hxy hcx hcy
  · intro x bx hx hc hin i hi hiP
    rw [(h x).2.2.2.2.2] at hc
    rw [htc x] at hi
    by_cases h0 : (σ.heap x).active = 0
    · rcases hs.settled x bx (by omega) hc h0 i hi hiP with h1 | h1
      · exact Or.inl (hact _ h1)
      · right
        rw [(h (bx + i)).1]
        exact le_trans h1 hv
    · exact hnew x bx (by omega) hc h0 hin i hi hiP

/-- A node stays pristine as long as its struct and its `children` array are
left alone. -/
theorem pristine_of_same (sched : schedule_t) (σ τ : State) (c D : Nat)
    (h : Pristine sched σ c D) (hb : σ.brk ≤ τ.brk) (hc : τ.heap c = σ.heap c)
    (hblk : ∀ cb, (σ.heap c).children = some cb → ∀ j, j < sched.weights.length →
      τ.heap (cb + j) = σ.heap (cb + j)) : Pristine sched τ c D := by
  obtain ⟨cb, h1, h2, h3⟩ := h.block
  constructor
  · rw [hc]; exact h.locked
  · rw [hc]; exact h.no_children
  · rw [hc]; exact h.active01
  · have := h.addr; omega
  · refine ⟨cb, by rw [hc]; exact h1, by omega, ?_⟩
    intro j hj
    rw [hblk cb h1 j hj]
    exact h3 j hj
  · rw [hc]; exact h.all_in
  · rw [hc]; exact h.entries_nonneg
  · rw [hc]; exact h.weight

/-- The incumbent invariant only depends on the incumbent variables and on the
stable part of the heap. -/
theorem ginv_of_stable (sched : schedule_t) (σ τ : State) (h : GInv sched σ)
    (hst : Stable σ τ) (hb : σ.brk ≤ τ.brk)
    (hi : τ.incumbent_solution = σ.incumbent_solution)
    (hv : τ.incumbent_value = σ.incumbent_value) : GInv sched τ := by
  constructor
  · intro hn
    rw [hv]
    exact h.none_value (by rw [← hi]; exact hn)
  · intro p hp
    rw [hi] at hp
    obtain ⟨h1, h2, h3, h4, h5, h6⟩ := h.some_spec p hp
    obtain ⟨e1, _, _, e4, _, e6⟩ := hst p h1 h2
    refine ⟨by omega, by rw [e6]; exact h2, by rw [e4]; exact h3, by rw [e4]; exact h4,
      by rw [e4]; exact h5, by rw [e1, hv]; exact h6⟩
  · rw [hv]; exact h.value_ge

theorem ginv_write_active (sched : schedule_t) (σ : State) (a : Nat) (v : Int)
    (h : GInv sched σ) : GInv sched (σ.write a { σ.heap a with active := v }) :=
  ginv_of_stable sched σ _ h (stable_write_active σ a v) (le_refl _) rfl rfl

/-- The treatment of the selected child `c` in one pass of the loop of
`expand_branch`: the feasibility test, the incumbent update and the recursive
call. -/
theorem kid_step (sched : schedule_t) (hwf : WellFormed sched) (S : Nat)
    (hS : sched.num_slots = S) (rec : State → Nat → Nat → Except Err State) (d : Nat)
    (hd : d < S)
    (σ : State) (c cbc : Nat) (hp : Pristine sched σ c (d + 1)) (hg : GInv sched σ)
    (hcbc : (σ.heap c).children = some cbc)
    (hrec : d + 1 < S → ¬ (slot_ids (σ.heap c).node_list S).Nodup →
      ExpandSpec sched σ c cbc (d + 1) (rec σ c (d + 1)))
    (hact : (σ.heap c).active = 1) (hw : (σ.heap c).total_weight > σ.incumbent_value) :
    (∃ e, solution_is_feasible sched (σ.heap c) = .error e ∧ e = .outOfBounds ∧ ¬ Nice sched) ∨
    ∃ v σ1, solution_is_feasible sched (σ.heap c) = .ok v ∧
      (if v ≠ 0 then update_incumbent_and_branch sched σ c else pure σ) = .ok σ1 ∧
      (((if (σ1.heap c).active ≠ 0 then rec σ1 c (d + 1) else pure σ1) = .error .outOfBounds ∧
          ¬ Nice sched) ∨
        ∃ τ, (if (σ1.heap c).active ≠ 0 then rec σ1 c (d + 1) else pure σ1) = .ok τ ∧
          FramePost sched σ τ c cbc ∧ (τ.heap c).active = 0 ∧
          (Nice sched → TopLocked sched (σ.heap c) (d + 1) → τ.incumbent_solution ≠ none) ∧
          (FeasibleNode sched (σ.heap c) → (σ.heap c).total_weight ≤ τ.incumbent_value) ∧
          (d = 0 → Nice sched → sched.num_slots ≤ 2 → Shallow sched σ → Shallow sched τ)) := by
  have hS' := toNat_slots sched S hS
  have hlen : (σ.heap c).node_list.length = S := by rw [hp.locked.list_len, hS']
  cases hf : solution_is_feasible sched (σ.heap c) with
  | error e =>
    left
    refine ⟨e, rfl, solution_is_feasible_error sched _ e hf, ?_⟩
    intro hnice
    have hall := hp.all_in hnice
    rw [hS'] at hall
    rw [solution_is_feasible_eq sched (σ.heap c) sched.weights.length S hwf.1 hS (by omega) hall]
      at hf
    cases hf
  | ok v =>
    right
    obtain ⟨_, hrange, hv⟩ := solution_is_feasible_ok sched (σ.heap c) sched.weights.length S
      hwf.1 hS v hf
    by_cases hnd : (slot_ids (σ.heap c).node_list S).Nodup
    · -- feasible: the child becomes the incumbent and is pruned
      rw [if_pos hnd] at hv
      subst hv
      have hupd := update_incumbent_leaf sched σ c hp.no_children
      rw [if_pos hw] at hupd
      obtain ⟨σu, hupd, hσu⟩ : ∃ σu, update_incumbent_and_branch sched σ c = .ok σu ∧
          σu = State.write
            { σ with incumbent_solution := some c, incumbent_value := (σ.heap c).total_weight }
            c { σ.heap c with active := 0 } := ⟨_, hupd, rfl⟩
      have hcell : σu.heap c = { σ.heap c with active := 0 } := by
        rw [hσu, write_heap_same]
      have hother : ∀ x, x ≠ c → σu.heap x = σ.heap x := by
        intro x hx
        rw [hσu, write_heap_ne _ _ _ _ hx]
      have hbrk : σu.brk = σ.brk := by rw [hσu]; rfl
      have hinc : σu.incumbent_solution = some c := by rw [hσu]; rfl
      have hval : σu.incumbent_value = (σ.heap c).total_weight := by rw [hσu]; rfl
      have hinact : (σu.heap c).active = 0 := by rw [hcell]
      refine ⟨1, σu, rfl, ?_, ?_⟩
      · rw [if_pos (by decide)]
        exact hupd
      · right
        have hflags : ∀ x, EqExceptFlags (σ.heap x) (σu.heap x) := by
          intro x
          by_cases hx : x = c
          · subst hx
            rw [hcell]
            exact eqExceptFlags_active _ 0
          · rw [hother x hx]
            exact eqExceptFlags_refl _
        refine ⟨σu, ?_, ?_, hinact, ?_, fun _ => by rw [hval],
          fun _ _ _ hl => shallow_of_flags sched σ σu hbrk hflags hl⟩
        · rw [if_neg (by rw [hinact]; simp)]
          rfl
        · constructor
          · rw [hbrk]
          · intro x _ hxc _
            exact hother x hxc
          · intro x _ _
            by_cases hx : x = c
            · subst hx
              rw [hcell]
              exact eqExceptFlags_active _ 0
            · rw [hother x hx]
              exact eqExceptFlags_refl _
          · constructor
            · intro h; rw [hinc] at h; cases h
            · intro p hpe
              rw [hinc] at hpe
              cases hpe
              rw [hcell, hbrk, hval]
              refine ⟨hp.addr, by simp [hcbc], ?_, ?_, ?_, rfl⟩
              · simp only; rw [hS']; exact hlen
              · simp only; rw [hS']; exact hrange
              · simp only; rw [hS']; exact hnd
            · rw [hval]; exact le_trans hg.value_ge (le_of_lt hw)
          · rw [hval]; exact le_of_lt hw
          · intro _ h; rw [hinc] at h; cases h
          · exact allLocked_of_flags sched σ σu hbrk hflags
          · exact allSummed_of_flags sched σ σu hbrk hflags
          · intro x _ _ h0
            by_cases hx : x = c
            · subst hx
              exact hinact
            · rw [hother x hx]
              exact h0
          · apply treeSettled_of_flags sched σ σu hbrk hflags
            · intro x
              by_cases hx : x = c
              · subst hx
                rw [hcell]
              · rw [hother x hx]
            · intro x h0
              by_cases hx : x = c
              · subst hx
                exact hinact
              · rw [hother x hx]
                exact h0
            · rw [hval]
              exact le_of_lt hw
            · intro x bx _ _ hne h0 i hi _
              by_cases hx : x = c
              · subst hx
                rw [hp.no_children] at hi
                omega
              · rw [hother x hx] at h0
                exact absurd h0 hne
        · intro _ _ h; rw [hinc] at h; cases h
    · -- not feasible: the child is expanded
      rw [if_neg hnd] at hv
      subst hv
      have hd1 : d + 1 < S := by
        by_contra hcon
        have hdS : d + 1 = S := by omega
        apply hnd
        rw [← hdS]
        exact hp.locked.ids_nodup
      refine ⟨0, σ, rfl, by simp, ?_⟩
      have hne : (σ.heap c).active ≠ 0 := by rw [hact]; decide
      rw [if_pos hne]
      rcases hrec hd1 hnd with ⟨herr, hnn⟩ | ⟨τ, hτ, hpost⟩
      · exact Or.inl ⟨herr, hnn⟩
      · right
        have hdne : ((d + 1 : Nat) : Int) ≠ sched.num_slots := by
          rw [hS]; exact_mod_cast (Nat.ne_of_lt hd1)
        have hdlt : ((d + 1 : Nat) : Int) < sched.num_slots := by
          rw [hS]; exact_mod_cast hd1
        refine ⟨τ, hτ, hpost.toFramePost, hpost.inactive hdne,
          fun hnice htop => hpost.found hnice htop hne hdlt,
          fun hfe => absurd (by rw [← hS']; exact hfe.2) hnd, ?_⟩
        intro hd0 _ _ hsh
        exfalso
        have hdep : (σ.heap c).total_depth = 1 := by
          rw [hp.locked.depth, hd0]
          rfl
        have hfe := (hsh c hp.addr (by rw [hcbc]; simp)).2.2 hdep
        apply hnd
        rw [← hS']
        exact hfe.2

end Branchy

namespace Branchy

theorem unused_below_le (m : List Int) (n : Nat) : unused_below m n ≤ n := by
  unfold unused_below
  calc ((List.range n).filter _).length ≤ (List.range n).length := List.length_filter_le _ _
    _ = n := List.length_range n

theorem unused_iff_not_mem (sched : schedule_t) (s : solution_t) (d i : Nat)
    (hl : Locked sched s d) (hi : i < sched.weights.length) :
    s.used_person_id_map[i]? ≠ some 1 ↔ (i : Int) ∉ slot_ids s.node_list d := by
  rw [hl.map_get i hi]
  by_cases h : (i : Int) ∈ slot_ids s.node_list d
  · simp [h]
  · simp [h]

theorem unused_below_top (m : List Int) (P d : Nat)
    (hm : ∀ i, i < P → (m[i]? ≠ some 1 ↔ i + d < P)) :
    ∀ n, n ≤ P → unused_below m n = min n (P - d) := by
  intro n
  induction n with
  | zero => intro _; simp [unused_below]
  | succ n ih =>
    intro hn
    rw [unused_below_succ, ih (by omega)]
    by_cases h : n + d < P
    · rw [if_pos ((hm n (by omega)).mpr h)]
      omega
    · rw [if_neg (fun hc => h ((hm n (by omega)).mp hc))]
      omega

/-- Under a node whose locked entities are the `d` highest ids, the children
array holds exactly the `P - d` lowest entities. -/
theorem total_children_top (sched : schedule_t) (s : solution_t) (d : Nat)
    (hl : Locked sched s d) (ht : TopLocked sched s d) :
    unused_below s.used_person_id_map sched.weights.length = sched.weights.length - d := by
  rw [unused_below_top s.used_person_id_map sched.weights.length d ?_ _ (le_refl _)]
  · omega
  · intro i hi
    rw [unused_iff_not_mem sched s d i hl hi, ht i hi]
    omega

theorem topLocked_child (sched : schedule_t) (S : Nat) (hS : sched.num_slots = S)
    (r : solution_t) (root d cb : Nat) (iv : ℚ) (ch : solution_t)
    (hch : IsChild sched r.node_list root d (sched.weights.length - d - 1) cb iv ch)
    (hd : d < S) (hdP : d + 1 ≤ sched.weights.length)
    (ht : TopLocked sched r d) : TopLocked sched ch (d + 1) := by
  intro i hi
  rw [isChild_slot_ids sched S hS r.node_list root d _ cb iv ch hch hd, List.mem_append,
    ht i hi]
  simp only [List.mem_singleton]
  constructor
  · rintro (h | h)
    · omega
    · have : i = sched.weights.length - d - 1 := by exact_mod_cast h
      omega
  · intro h
    by_cases h' : sched.weights.length ≤ i + d
    · exact Or.inl h'
    · right
      have : i = sched.weights.length - d - 1 := by omega
      rw [this]

theorem weight_sum_nonneg (l : List node_t) (n : Nat) (h : ∀ j, 0 ≤ weight_at l j) :
    0 ≤ weight_sum l n := by
  unfold weight_sum
  exact Finset.sum_nonneg (fun j _ => h j)

/-- The children that `create_branch` has built are pristine nodes one level
below the parent. -/
theorem pristine_child (sched : schedule_t) (hwf : WellFormed sched) (S : Nat)
    (hS : sched.num_slots = S) (σ0 σ1 : State) (a cb d : Nat) (hd : d < S)
    (hp0 : Pristine sched σ0 a d) (hcb0 : (σ0.heap a).children = some cb)
    (hbi : BranchInv sched σ0 a cb d sched.weights.length σ1)
    (i : Nat) (hi : i < sched.weights.length)
    (hui : (σ0.heap a).used_person_id_map[i]? ≠ some 1) :
    Pristine sched σ1 (cb + i) (d + 1) := by
  obtain ⟨cb', h1, h2, h3⟩ := hp0.block
  rw [hcb0] at h1
  cases h1
  obtain ⟨cbi, hch, hb1, hb2, hb3⟩ := hbi.made i hi hui
  have hnot := (unused_iff_not_mem sched _ d i hp0.locked hi).mp hui
  have hbrk := hbi.brk_le
  constructor
  · exact isChild_locked sched S hS _ a d i cbi _ _ hch hd hp0.locked.ids_range
      hp0.locked.ids_nodup hi hnot
  · exact hch.no_children
  · rw [hch.active]
    by_cases h : (σ1.heap (cb + i)).total_weight < σ0.incumbent_value
    · simp [h]
    · simp [h]
  · omega
  · exact ⟨cbi, hch.children, hb2, hb3⟩
  · intro hnice
    rw [toNat_slots sched S hS]
    exact (isChild_nice sched hwf S hS _ a d i cbi _ _ hch hd hp0.locked.ids_range hi hnice
      (hp0.entries_nonneg hnice)).1
  · intro hnice
    exact (isChild_nice sched hwf S hS _ a d i cbi _ _ hch hd hp0.locked.ids_range hi hnice
      (hp0.entries_nonneg hnice)).2
  · exact hch.weight

end Branchy

namespace Branchy

/-- A child of the root carries the true weight in every slot that holds an
entity: the weight locked at depth `0` is the weight at slot `0`. -/
theorem isChild_honest (sched : schedule_t) (rl : List node_t) (root i cb : Nat) (iv : ℚ)
    (ch : solution_t) (hch : IsChild sched rl root 0 i cb iv ch) : Honest sched ch := by
  intro j nd hj hget hpos
  by_cases hj0 : j = 0
  · subst hj0
    rw [hch.locked] at hget
    cases hget
    simp
  · obtain ⟨res, hres, hg⟩ := hch.filled j (by omega) hj
    rw [hg] at hget
    cases hget
    rcases hres with ⟨h1, _, _⟩ | ⟨k, _, h2, _, h4, _, _, _⟩
    · simp only at hpos
      omega
    · simp only [h2, h4, Int.toNat_ofNat]

/-- The root carries the true weight in every slot that holds an entity. -/
theorem isRoot_honest (sched : schedule_t) (s : solution_t) (hr : IsRoot sched s) :
    Honest sched s := by
  intro j nd hj hget hpos
  obtain ⟨res, hres, hg⟩ := hr.filled j hj
  rw [hg] at hget
  cases hget
  rcases hres with ⟨h1, _, _⟩ | ⟨k, _, h2, _, h4, _, _, _⟩
  · simp only at hpos
    omega
  · simp only [h2, h4, Int.toNat_ofNat]

/-- On a `Nice` schedule a child with at most one slot behind its locked slots
is feasible: the entity filled in is not one of the locked ones. -/
theorem isChild_feasible_last (sched : schedule_t) (hwf : WellFormed sched) (S : Nat)
    (hS : sched.num_slots = S) (rl : List node_t) (root d i cb : Nat) (iv : ℚ)
    (ch : solution_t) (hch : IsChild sched rl root d i cb iv ch) (hd : d < S)
    (hSd : S ≤ d + 2)
    (hrange : ∀ p ∈ slot_ids rl d, 0 ≤ p ∧ p < (sched.weights.length : Int))
    (hnodup : (slot_ids rl d).Nodup) (hi : i < sched.weights.length)
    (hnot : (i : Int) ∉ slot_ids rl d) (hnice : Nice sched)
    (hrl : ∀ j, 0 ≤ weight_at rl j) : FeasibleNode sched ch := by
  have hS' := toNat_slots sched S hS
  have hSP : S ≤ sched.weights.length := by
    have := hnice.2
    rw [hwf.1, hS] at this
    exact_mod_cast this
  have hl := isChild_locked sched S hS rl root d i cb iv ch hch hd hrange hnodup hi hnot
  have hlen : ch.node_list.length = S := by rw [hch.list_len, hS']
  unfold FeasibleNode
  rw [hS']
  refine ⟨(isChild_nice sched hwf S hS rl root d i cb iv ch hch hd hrange hi hnice hrl).1, ?_⟩
  by_cases hS1 : S = d + 1
  · rw [hS1]
    exact hl.ids_nodup
  · have hS2 : S = d + 2 := by omega
    have hdl : d + 1 < ch.node_list.length := by omega
    obtain ⟨res, hres, hg⟩ := hch.filled (d + 1) (by omega) (by omega)
    have hidlen : (slot_ids ch.node_list (d + 1)).length < sched.weights.length := by
      rw [slot_ids_length _ _ (by omega)]
      omega
    obtain ⟨k0, hk0, hk0not⟩ := exists_not_mem_of_length_lt _ _ hidlen
    have hk0map : ch.used_person_id_map[k0]? = some 0 := by
      rw [hl.map_get k0 hk0, if_neg hk0not]
    rw [hS2, slot_ids_succ _ _ hdl]
    rw [List.getElem?_eq_getElem hdl] at hg
    rw [Option.some.inj hg]
    simp only
    rcases hres with ⟨_, _, h3⟩ | ⟨k, hk, h2, h3, _, _, _, _⟩
    · have h1 := h3 k0 hk0 hk0map
      have h2 := wt_nonneg sched hnice.1 k0 (d + 1)
      unfold SLOT_WEIGHT_INITIAL_VAL at h1
      linarith
    · rw [h2]
      have hkn : (k : Int) ∉ slot_ids ch.node_list (d + 1) := by
        intro hmem
        have := hl.map_get k hk
        rw [if_pos hmem, h3] at this
        cases this
      rw [List.nodup_append]
      refine ⟨hl.ids_nodup, List.nodup_singleton _, ?_⟩
      intro x hx hx'
      rw [List.mem_singleton] at hx'
      subst hx'
      exact hkn hx

end Branchy

namespace Branchy

/-- Writing the `active` flag of one struct changes flags only. -/
theorem write_active_flags (σ : State) (a : Nat) (v : Int) :
    ∀ x, EqExceptFlags (σ.heap x) ((σ.write a { σ.heap a with active := v }).heap x) := by
  intro x
  by_cases hx : x = a
  · subst hx
    rw [write_heap_same]
    exact eqExceptFlags_active _ v
  · rw [write_heap_ne _ _ _ _ hx]
    exact eqExceptFlags_refl _

/-- The parent keeps its `children` array through `create_branch`. -/
theorem branch_root_children (sched : schedule_t) (σ0 σ1 : State) (a cb : Nat) {d : Nat}
    (hbi : BranchInv sched σ0 a cb d sched.weights.length σ1)
    (hcb0 : (σ0.heap a).children = some cb) : (σ1.heap a).children = some cb := by
  rw [hbi.root_cell]
  exact hcb0

/-- Where the `children` array of a pristine node lies. -/
theorem pristine_block (sched : schedule_t) (σ : State) (a cb d : Nat)
    (hp : Pristine sched σ a d) (hcb : (σ.heap a).children = some cb) :
    cb + sched.weights.length ≤ σ.brk ∧ (a < cb ∨ cb + sched.weights.length ≤ a) ∧
      ∀ j, j < sched.weights.length → σ.heap (cb + j) = solution_t.zero := by
  obtain ⟨cb', h1, h2, h3⟩ := hp.block
  rw [hcb] at h1
  cases h1
  refine ⟨h2, ?_, h3⟩
  by_contra hcon
  have hj : a - cb < sched.weights.length := by omega
  have := h3 (a - cb) hj
  have ha : cb + (a - cb) = a := by omega
  rw [ha] at this
  rw [this] at hcb
  cases hcb

/-- The parent struct after `create_branch`. -/
theorem branch_root (sched : schedule_t) (hwf : WellFormed sched) (σ0 σ1 : State) (a cb d : Nat)
    (hp0 : Pristine sched σ0 a d) (hcb0 : (σ0.heap a).children = some cb)
    (hbi : BranchInv sched σ0 a cb d sched.weights.length σ1) :
    (σ1.heap a).children = some cb ∧ EqExceptFlags (σ0.heap a) (σ1.heap a) ∧
      (σ1.heap a).active = (σ0.heap a).active ∧
      (σ1.heap a).total_children =
        (unused_below (σ0.heap a).used_person_id_map sched.weights.length : Int) ∧
      0 ≤ (σ1.heap a).total_children ∧ (σ1.heap a).total_children ≤ sched.num_people ∧
      (σ1.heap a).total_children.toNat ≤ sched.weights.length := by
  have hr := hbi.root_cell
  have hle := unused_below_le (σ0.heap a).used_person_id_map sched.weights.length
  have htc : (σ1.heap a).total_children =
      (unused_below (σ0.heap a).used_person_id_map sched.weights.length : Int) := by
    rw [hr, hp0.no_children]; simp
  refine ⟨by rw [hr]; exact hcb0, by rw [hr]; exact ⟨rfl, rfl, rfl, rfl, rfl, rfl⟩,
    by rw [hr], htc, by rw [htc]; omega, by rw [htc, hwf.1]; exact_mod_cast hle, by rw [htc]; simpa using hle⟩

/-- A set-up child in the array of `a` was built for an unused entity, and its
own `children` array was allocated during that call of `create_branch`. -/
theorem kid_base (sched : schedule_t) (σ0 σ1 : State) (a cb d : Nat)
    (hp0 : Pristine sched σ0 a d) (hcb0 : (σ0.heap a).children = some cb)
    (hbi : BranchInv sched σ0 a cb d sched.weights.length σ1)
    (i cbi : Nat) (hi : i < sched.weights.length)
    (hc : (σ1.heap (cb + i)).children = some cbi) :
    (σ0.heap a).used_person_id_map[i]? ≠ some 1 ∧ σ0.brk ≤ cbi := by
  obtain ⟨_, _, hz⟩ := pristine_block sched σ0 a cb d hp0 hcb0
  by_cases hu : (σ0.heap a).used_person_id_map[i]? = some 1
  · rw [hbi.skipped i hi (fun _ => hu), hz i hi] at hc
    cases hc
  · obtain ⟨cbi', hch, hb, _, _⟩ := hbi.made i hi hu
    rw [hch.children] at hc
    cases hc
    exact ⟨hu, hb⟩

/-- The set-up structs after `create_branch`: those that were set up before,
unchanged but for the child count of `a`, and the new children of `a`, whose own
`children` arrays lie in the part of the heap allocated by the call. -/
theorem branch_cells (sched : schedule_t) (hwf : WellFormed sched) (σ0 σ1 : State) (a cb d : Nat)
    (hp0 : Pristine sched σ0 a d) (hcb0 : (σ0.heap a).children = some cb)
    (hbi : BranchInv sched σ0 a cb d sched.weights.length σ1)
    (x bx : Nat) (hx : x < σ1.brk) (hc : (σ1.heap x).children = some bx) :
    (x < σ0.brk ∧ (σ0.heap x).children = some bx ∧ EqExceptFlags (σ0.heap x) (σ1.heap x) ∧
        (σ1.heap x).active = (σ0.heap x).active ∧ (x ≠ a → σ1.heap x = σ0.heap x)) ∨
      (∃ i, i < sched.weights.length ∧ x = cb + i ∧
        (σ0.heap a).used_person_id_map[i]? ≠ some 1 ∧ σ0.brk ≤ bx ∧
        bx + sched.weights.length ≤ σ1.brk) := by
  obtain ⟨hblk, hout, hz⟩ := pristine_block sched σ0 a cb d hp0 hcb0
  obtain ⟨hr1, hr2, hr3, _, _, _, _⟩ := branch_root sched hwf σ0 σ1 a cb d hp0 hcb0 hbi
  by_cases hx0 : x < σ0.brk
  · by_cases hxa : x = a
    · subst hxa
      left
      exact ⟨hx0, by rw [← hr2.2.2.2.2.2]; exact hc, hr2, hr3, fun h => absurd rfl h⟩
    · by_cases hxb : x < cb ∨ cb + sched.weights.length ≤ x
      · left
        have := hbi.frame x hx0 hxa hxb
        rw [this] at hc
        exact ⟨hx0, hc, by rw [this]; exact eqExceptFlags_refl _, by rw [this], fun _ => this⟩
      · have hj : x - cb < sched.weights.length := by omega
        have hxe : cb + (x - cb) = x := by omega
        by_cases hu : (σ0.heap a).used_person_id_map[x - cb]? = some 1
        · exfalso
          have h1 := hbi.skipped (x - cb) hj (fun _ => hu)
          rw [hxe] at h1
          have h2 := hz (x - cb) hj
          rw [hxe] at h2
          rw [h1, h2] at hc
          cases hc
        · right
          obtain ⟨cbi, hch, hb1, hb2, _⟩ := hbi.made (x - cb) hj hu
          rw [hxe] at hch
          have := hch.children
          rw [hc] at this
          cases this
          exact ⟨x - cb, hj, hxe.symm, hu, hb1, hb2⟩
  · exfalso
    rw [hbi.fresh x (by omega) hx] at hc
    cases hc

/-- The loop invariant holds when the loop is entered. -/
theorem loopInv_init (sched : schedule_t) (hwf : WellFormed sched) (S : Nat)
    (hS : sched.num_slots = S) (σ0 σ1 : State) (a cb d : Nat) (hd : d < S)
    (hp0 : Pristine sched σ0 a d) (hcb0 : (σ0.heap a).children = some cb)
    (hg0 : GInv sched σ0) (hact0 : (σ0.heap a).active ≠ 0)
    (hbi : BranchInv sched σ0 a cb d sched.weights.length σ1) :
    LoopInv sched σ0 σ1 σ1 a cb d := by
  obtain ⟨hblk, hout, hz⟩ := pristine_block sched σ0 a cb d hp0 hcb0
  obtain ⟨hr1, hr2, hr3, hr4, _, _, _⟩ := branch_root sched hwf σ0 σ1 a cb d hp0 hcb0 hbi
  have hstable : Stable σ0 σ1 := by
    intro x hx hc
    by_cases hxa : x = a
    · subst hxa; exact hr2
    · by_cases hxb : x < cb ∨ cb + sched.weights.length ≤ x
      · rw [hbi.frame x hx hxa hxb]
        exact eqExceptFlags_refl _
      · exfalso
        have hj : x - cb < sched.weights.length := by omega
        have := hz (x - cb) hj
        have hxe : cb + (x - cb) = x := by omega
        rw [hxe] at this
        rw [this] at hc
        exact hc rfl
  constructor
  · exact le_refl _
  · exact hbi.frame
  · exact ⟨eqExceptFlags_refl _, rfl⟩
  · intro i hi
    by_cases hu : (σ0.heap a).used_person_id_map[i]? = some 1
    · left
      rw [hbi.skipped i hi (fun _ => hu), hz i hi]
      rfl
    · right
      exact ⟨pristine_child sched hwf S hS σ0 σ1 a cb d hd hp0 hcb0 hbi i hi hu, rfl⟩
  · exact hstable
  · exact stable_refl σ1
  · exact ginv_of_stable sched σ0 σ1 hg0 hstable hbi.brk_le hbi.incumbent hbi.value
  · rw [hbi.value]
  · rw [hbi.incumbent]; exact id
  · intro e he hea _
    right
    obtain ⟨_, _, _, _, _, _, htcN⟩ := branch_root sched hwf σ0 σ1 a cb d hp0 hcb0 hbi
    have heP : e < sched.weights.length := by omega
    have hu : (σ0.heap a).used_person_id_map[e]? ≠ some 1 := by
      intro hu
      rw [hbi.skipped e heP (fun _ => hu), hz e heP] at hea
      cases hea
    exact ⟨by rw [hr3]; exact hact0, hea,
      pristine_child sched hwf S hS σ0 σ1 a cb d hd hp0 hcb0 hbi e heP hu, rfl⟩
  · intro hnice htop hnone
    have hSP : S ≤ sched.weights.length := by
      have := hnice.2
      rw [hwf.1, hS] at this
      exact_mod_cast this
    have he : sched.weights.length - d - 1 < sched.weights.length := by omega
    have hnot : ((sched.weights.length - d - 1 : Nat) : Int) ∉ slot_ids (σ0.heap a).node_list d := by
      rw [htop _ he]; omega
    have hu := (unused_iff_not_mem sched _ d _ hp0.locked he).mpr hnot
    have hpk := pristine_child sched hwf S hS σ0 σ1 a cb d hd hp0 hcb0 hbi _ he hu
    obtain ⟨cbi, hch, _, _, _⟩ := hbi.made _ he hu
    refine ⟨by rw [hr3]; exact hact0, ?_, hpk, rfl⟩
    rw [hch.active]
    have hw : 0 ≤ (σ1.heap (cb + (sched.weights.length - d - 1))).total_weight := by
      rw [hpk.weight]
      exact weight_sum_nonneg _ _ (hpk.entries_nonneg hnice)
    have hiv : σ0.incumbent_value = -1 := by
      rw [hbi.incumbent] at hnone
      exact hg0.none_value hnone
    rw [hiv, if_neg (by linarith)]
  · intro hl x hx hc
    by_cases hx0 : x < σ0.brk
    · by_cases hxa : x = a
      · subst hxa
        rw [hr2.2.1]
        exact locked_of_flags sched _ _ _ hr2
          (hl x hx0 (by rw [← hr2.2.2.2.2.2]; exact hc))
      · by_cases hxb : x < cb ∨ cb + sched.weights.length ≤ x
        · rw [hbi.frame x hx0 hxa hxb] at hc ⊢
          exact hl x hx0 hc
        · have hj : x - cb < sched.weights.length := by omega
          have hxe : cb + (x - cb) = x := by omega
          by_cases hu : (σ0.heap a).used_person_id_map[x - cb]? = some 1
          · have := hbi.skipped (x - cb) hj (fun _ => hu)
            rw [hxe] at this
            rw [this] at hc ⊢
            exact hl x hx0 hc
          · have hpk := pristine_child sched hwf S hS σ0 σ1 a cb d hd hp0 hcb0 hbi (x - cb) hj hu
            rw [hxe] at hpk
            rw [hpk.locked.depth]
            exact hpk.locked
    · rw [hbi.fresh x (by omega) hx] at hc
      exact absurd rfl hc

  · intro hl x hx hc
    obtain ⟨bx, hbx⟩ := Option.ne_none_iff_exists'.mp hc
    rcases branch_cells sched hwf σ0 σ1 a cb d hp0 hcb0 hbi x bx hx hbx with
      ⟨hx0, hc0, he, _, _⟩ | ⟨i, hi, hxi, hu, _, _⟩
    · rw [he.1, he.2.2.2.1]
      exact hl x hx0 (by rw [hc0]; simp)
    · subst hxi
      exact (pristine_child sched hwf S hS σ0 σ1 a cb d hd hp0 hcb0 hbi i hi hu).weight
  · intro x hx hc h0
    by_cases hxa : x = a
    · subst hxa
      rw [hr3]
      exact h0
    · by_cases hxb : x < cb ∨ cb + sched.weights.length ≤ x
      · rw [hbi.frame x hx hxa hxb]
        exact h0
      · exfalso
        have hj : x - cb < sched.weights.length := by omega
        have := hz (x - cb) hj
        have hxe : cb + (x - cb) = x := by omega
        rw [hxe] at this
        rw [this] at hc
        exact hc rfl
  · intro hs
    have hcl := branch_cells sched hwf σ0 σ1 a cb d hp0 hcb0 hbi
    have hbrk := hbi.brk_le
    constructor
    · intro x bx hx hc
      rcases hcl x bx hx hc with ⟨hx0, hc0, _, _, _⟩ | ⟨i, _, _, _, _, h2⟩
      · have := hs.inb x bx hx0 hc0
        omega
      · exact h2
    · intro x y bx yb hx hy hxy hcx hcy
      rcases hcl x bx hx hcx with ⟨hx0, hcx0, _, _, _⟩ | ⟨i, hi, hxi, hui, hbi1, hbi2⟩
      · rcases hcl y yb hy hcy with ⟨hy0, hcy0, _, _, _⟩ | ⟨i', _, _, _, hb1, _⟩
        · exact hs.sep x y bx yb hx0 hy0 hxy hcx0 hcy0
        · have := hs.inb x bx hx0 hcx0
          left
          omega
      · rcases hcl y yb hy hcy with ⟨hy0, hcy0, _, _, _⟩ | ⟨i', hi', hyi, hui', _, _⟩
        · have := hs.inb y yb hy0 hcy0
          right
          omega
        · subst hxi
          subst hyi
          exact hbi.apart i i' bx yb hi hi' (by omega) hui hui' hcx hcy
    · intro x bx hx hc h0 i hi hiP
      rcases hcl x bx hx hc with ⟨hx0, hc0, _, hact, hsame⟩ | ⟨k, hk, hxk, huk, _, _⟩
      · by_cases hxa : x = a
        · subst hxa
          rw [hr3] at h0
          exact absurd h0 hact0
        · have hxeq := hsame hxa
          rw [hxeq] at h0 hi
          have hold := hs.settled x bx hx0 hc0 h0 i hi hiP
          have hin := hs.inb x bx hx0 hc0
          have hsp := hs.sep x a bx cb hx0 hp0.addr hxa hc0 hcb0
          rw [hbi.value]
          by_cases hia : bx + i = a
          · rw [hia] at hold ⊢
            rw [hr3, hr2.1]
            exact hold
          · rw [hbi.frame (bx + i) (by omega) hia (by omega)]
            exact hold
      · exfalso
        subst hxk
        obtain ⟨cbi, hch, _, _, _⟩ := hbi.made k hk huk
        rw [hch.no_children] at hi
        omega
  · intro hd0 hnice hS2 hsh x hx hc
    obtain ⟨bx, hbx⟩ := Option.ne_none_iff_exists'.mp hc
    rcases branch_cells sched hwf σ0 σ1 a cb d hp0 hcb0 hbi x bx hx hbx with
      ⟨hx0, hc0, he, _, _⟩ | ⟨i, hi, hxi, hu, _, _⟩
    · obtain ⟨h1, h2, h3⟩ := hsh x hx0 (by rw [hc0]; simp)
      unfold Honest FeasibleNode at *
      rw [he.2.1, he.2.2.2.1]
      exact ⟨h1, h2, h3⟩
    · subst hxi
      subst hd0
      obtain ⟨cbi, hch, _, _, _⟩ := hbi.made i hi hu
      have hnot := (unused_iff_not_mem sched _ 0 i hp0.locked hi).mp hu
      refine ⟨by rw [hch.depth]; simp, isChild_honest sched _ a i cbi _ _ hch, fun _ => ?_⟩
      exact isChild_feasible_last sched hwf S hS _ a 0 i cbi _ _ hch hd
        (by rw [hS] at hS2; omega) hp0.locked.ids_range hp0.locked.ids_nodup hi hnot hnice
        (hp0.entries_nonneg hnice)

/-- Deactivating the node `a` keeps the loop invariant, provided the search of
a top-locked node on a `Nice` schedule has found an incumbent by then. -/
theorem loopInv_deactivate (sched : schedule_t) (σ0 σ1 σ : State) (a cb d : Nat)
    (hp0 : Pristine sched σ0 a d) (hcb0 : (σ0.heap a).children = some cb)
    (hbi : BranchInv sched σ0 a cb d sched.weights.length σ1)
    (hli : LoopInv sched σ0 σ1 σ a cb d)
    (htop : Nice sched → TopLocked sched (σ0.heap a) d → σ.incumbent_solution ≠ none)
    (hbest : ∀ e, e < (σ1.heap a).total_children.toNat → (σ1.heap (cb + e)).active = 1 →
      FeasibleNode sched (σ1.heap (cb + e)) →
      (σ1.heap (cb + e)).total_weight ≤ σ.incumbent_value)
    (hsettle : ∀ i : Nat, (i : Int) < (σ.heap a).total_children → i < sched.weights.length →
      (σ.heap (cb + i)).active = 0 ∨ (σ.heap (cb + i)).total_weight ≤ σ.incumbent_value) :
    LoopInv sched σ0 σ1 (σ.write a { σ.heap a with active := 0 }) a cb d := by
  obtain ⟨hblk, hout, hz⟩ := pristine_block sched σ0 a cb d hp0 hcb0
  have ha := hp0.addr
  constructor
  · exact hli.brk_le
  · intro x hx hxa hxb
    rw [write_heap_ne _ _ _ _ hxa]
    exact hli.frame x hx hxa hxb
  · rw [write_heap_same]
    exact ⟨eqExceptFlags_trans hli.root_cell.1 (eqExceptFlags_active _ 0), hli.root_cell.2⟩
  · intro i hi
    have hne : cb + i ≠ a := by omega
    rw [write_heap_ne _ _ _ _ hne]
    rcases hli.kids i hi with h | ⟨hp, hc⟩
    · exact Or.inl h
    · right
      refine ⟨?_, hc⟩
      refine pristine_of_same sched σ (σ.write a _) (cb + i) (d + 1) hp (le_refl _)
        (write_heap_ne _ _ _ _ hne) ?_
      intro cbi hcbi j hj
      rw [hc] at hcbi
      have := (kid_base sched σ0 σ1 a cb d hp0 hcb0 hbi i cbi hi hcbi).2
      exact write_heap_ne _ _ _ _ (by omega)
  · exact stable_trans hli.stable (stable_write_active σ a 0) (le_trans hbi.brk_le hli.brk_le)
  · exact stable_trans hli.stable1 (stable_write_active σ a 0) hli.brk_le
  · exact ginv_write_active sched σ a 0 hli.ginv
  · exact hli.mono
  · exact hli.kept
  · intro e he hea hfe
    exact Or.inl (hbest e he hea hfe)
  · intro hnice ht hnone
    exact absurd hnone (htop hnice ht)
  · intro hl
    exact allLocked_write_active sched σ a 0 (hli.locked_all hl)
  · intro hl
    exact allSummed_of_flags sched σ (σ.write a { σ.heap a with active := 0 }) rfl
      (write_active_flags σ a 0) (hli.summed_all hl)
  · intro x hx hc h0
    by_cases hxa : x = a
    · subst hxa
      rw [write_heap_same]
    · rw [write_heap_ne _ _ _ _ hxa]
      exact hli.calm x hx hc h0
  · intro hs
    have hcba : (σ.heap a).children = some cb := by
      rw [hli.root_cell.1.2.2.2.2.2, (branch_root_children sched σ0 σ1 a cb hbi hcb0)]
    refine treeSettled_of_flags sched σ (σ.write a { σ.heap a with active := 0 }) rfl
      (write_active_flags σ a 0) ?_ ?_ (le_refl _) ?_ (hli.settled_all hs)
    · intro x
      by_cases hxa : x = a
      · subst hxa
        rw [write_heap_same]
      · rw [write_heap_ne _ _ _ _ hxa]
    · intro x h0
      by_cases hxa : x = a
      · subst hxa
        rw [write_heap_same]
      · rw [write_heap_ne _ _ _ _ hxa]
        exact h0
    · intro x bx hx hc hne h0 i hi hiP
      by_cases hxa : x = a
      · subst hxa
        rw [hcba] at hc
        cases hc
        have hne : cb + i ≠ x := by omega
        rw [write_heap_ne _ _ _ _ hne]
        exact hsettle i hi hiP
      · rw [write_heap_ne _ _ _ _ hxa] at h0
        exact absurd h0 hne
  · intro hd0 hnice hS2 hsh
    exact shallow_of_flags sched σ (σ.write a { σ.heap a with active := 0 }) rfl
      (write_active_flags σ a 0) (hli.shallow_all hd0 hnice hS2 hsh)

end Branchy

namespace Branchy

theorem activeCount_lt (σ τ : State) (cb tc k : Nat) (hk : k < tc)
    (hσ : (σ.heap (cb + k)).active ≠ 0) (hτ : (τ.heap (cb + k)).active = 0)
    (hsame : ∀ i, i < tc → i ≠ k → τ.heap (cb + i) = σ.heap (cb + i)) :
    activeCount τ cb tc < activeCount σ cb tc := by
  unfold activeCount
  apply Finset.card_lt_card
  rw [Finset.ssubset_iff_of_subset]
  · refine ⟨k, ?_, ?_⟩
    · simp [hk, hσ]
    · simp [hτ]
  · intro i hi
    rw [Finset.mem_filter, Finset.mem_range] at hi ⊢
    have hik : i ≠ k := by
      intro h
      rw [h] at hi
      exact hi.2 hτ
    rw [hsame i hi.1 hik] at hi
    exact hi

theorem activeCount_congr (σ τ : State) (cb tc : Nat)
    (hsame : ∀ i, i < tc → τ.heap (cb + i) = σ.heap (cb + i)) :
    activeCount τ cb tc = activeCount σ cb tc := by
  unfold activeCount
  congr 1
  apply Finset.filter_congr
  intro i hi
  rw [Finset.mem_range] at hi
  rw [hsame i hi]

theorem activeCount_pos (σ : State) (cb tc k : Nat) (hk : k < tc)
    (hσ : (σ.heap (cb + k)).active ≠ 0) : 0 < activeCount σ cb tc := by
  unfold activeCount
  apply Finset.card_pos.mpr
  exact ⟨k, by simp [hk, hσ]⟩

/-- The loop invariant after the selected child `cb + k` has been dealt with. -/
theorem loopInv_kid (sched : schedule_t) (hwf : WellFormed sched) (S : Nat)
    (hS : sched.num_slots = S) (σ0 σ1 σ τ : State) (a cb d : Nat) (hd : d < S)
    (hp0 : Pristine sched σ0 a d) (hcb0 : (σ0.heap a).children = some cb)
    (hbi : BranchInv sched σ0 a cb d sched.weights.length σ1)
    (hli : LoopInv sched σ0 σ1 σ a cb d)
    (k cbc : Nat) (hk : k < sched.weights.length)
    (hpk : Pristine sched σ (cb + k) (d + 1)) (hck : σ.heap (cb + k) = σ1.heap (cb + k))
    (hcbc : (σ.heap (cb + k)).children = some cbc)
    (hpost : FramePost sched σ τ (cb + k) cbc)
    (hin : (τ.heap (cb + k)).active = 0)
    (hfound : Nice sched → TopLocked sched (σ.heap (cb + k)) (d + 1) →
      τ.incumbent_solution ≠ none)
    (hfeas : FeasibleNode sched (σ.heap (cb + k)) →
      (σ.heap (cb + k)).total_weight ≤ τ.incumbent_value)
    (hshal : d = 0 → Nice sched → sched.num_slots ≤ 2 → Shallow sched σ → Shallow sched τ) :
    LoopInv sched σ0 σ1 τ a cb d ∧ τ.heap a = σ.heap a ∧
      ∀ i, i < sched.weights.length → i ≠ k → τ.heap (cb + i) = σ.heap (cb + i) := by
  obtain ⟨hblk, hout, hz⟩ := pristine_block sched σ0 a cb d hp0 hcb0
  have ha := hp0.addr
  have hb01 := hbi.brk_le
  have hb1 := hli.brk_le
  have hck1 : (σ1.heap (cb + k)).children = some cbc := by rw [← hck]; exact hcbc
  obtain ⟨huk, hcbc0⟩ := kid_base sched σ0 σ1 a cb d hp0 hcb0 hbi k cbc hk hck1
  have hroot : τ.heap a = σ.heap a :=
    hpost.frame a (by omega) (by omega) (Or.inl (by omega))
  have hkid : ∀ i, i < sched.weights.length → i ≠ k → τ.heap (cb + i) = σ.heap (cb + i) := by
    intro i hi hik
    exact hpost.frame (cb + i) (by omega) (by omega) (Or.inl (by omega))
  have hprist : ∀ i, i < sched.weights.length → i ≠ k → Pristine sched σ (cb + i) (d + 1) →
      σ.heap (cb + i) = σ1.heap (cb + i) → Pristine sched τ (cb + i) (d + 1) := by
    intro i hi hik hp hc
    refine pristine_of_same sched σ τ (cb + i) (d + 1) hp hpost.brk_le (hkid i hi hik) ?_
    intro cbi hcbi j hj
    obtain ⟨cb', h1, h2, _⟩ := hp.block
    rw [hcbi] at h1
    cases h1
    have hcbi1 : (σ1.heap (cb + i)).children = some cbi := by rw [← hc]; exact hcbi
    obtain ⟨hui, hcbi0⟩ := kid_base sched σ0 σ1 a cb d hp0 hcb0 hbi i cbi hi hcbi1
    have hap := hbi.apart i k cbi cbc hi hk hik hui huk hcbi1 hck1
    apply hpost.frame (cbi + j) (by omega) (by omega)
    rcases hap with h | h
    · left; omega
    · right; omega
  refine ⟨?_, hroot, hkid⟩
  constructor
  · exact le_trans hb1 hpost.brk_le
  · intro x hx hxa hxb
    rw [hpost.frame x (by omega) (by omega) (Or.inl (by omega))]
    exact hli.frame x hx hxa hxb
  · rw [hroot]; exact hli.root_cell
  · intro i hi
    by_cases hik : i = k
    · subst hik; exact Or.inl hin
    · rcases hli.kids i hi with h | ⟨hp, hc⟩
      · left; rw [hkid i hi hik]; exact h
      · right
        exact ⟨hprist i hi hik hp hc, by rw [hkid i hi hik]; exact hc⟩
  · exact stable_trans hli.stable hpost.stable (le_trans hb01 hb1)
  · exact stable_trans hli.stable1 hpost.stable hb1
  · exact hpost.ginv
  · exact le_trans hli.mono hpost.mono
  · intro h; exact hpost.kept (hli.kept h)
  · intro e he hea hfe
    obtain ⟨_, _, _, _, _, _, htcN⟩ := branch_root sched hwf σ0 σ1 a cb d hp0 hcb0 hbi
    have heP : e < sched.weights.length := by omega
    rcases hli.best e he hea hfe with h | ⟨h1, h2, h3, h4⟩
    · exact Or.inl (le_trans h hpost.mono)
    · by_cases hek : e = k
      · subst hek
        left
        rw [← h4]
        exact hfeas (by rw [h4]; exact hfe)
      · right
        exact ⟨by rw [hroot]; exact h1, by rw [hkid e heP hek]; exact h2,
          hprist e heP hek h3 h4, by rw [hkid e heP hek]; exact h4⟩
  · intro hnice htop hnone
    have hnoneσ : σ.incumbent_solution = none := by
      by_contra h
      exact hpost.kept h hnone
    obtain ⟨h1, h2, h3, h4⟩ := hli.top hnice htop hnoneσ
    have hSP : S ≤ sched.weights.length := by
      have := hnice.2
      rw [hwf.1, hS] at this
      exact_mod_cast this
    have he : sched.weights.length - d - 1 < sched.weights.length := by omega
    by_cases hke : sched.weights.length - d - 1 = k
    · exfalso
      apply hfound hnice _ hnone
      rw [hck]
      obtain ⟨cbi, hch, _, _, _⟩ := hbi.made k hk huk
      rw [← hke] at hch ⊢
      exact topLocked_child sched S hS (σ0.heap a) a d cbi _ _ hch hd (by omega) htop
    · refine ⟨by rw [hroot]; exact h1, by rw [hkid _ he hke]; exact h2,
        hprist _ he hke h3 h4, by rw [hkid _ he hke]; exact h4⟩
  · intro hl
    exact hpost.locked_all (hli.locked_all hl)
  · intro hl
    exact hpost.summed_all (hli.summed_all hl)
  · intro x hx hc h0
    have e := hli.stable x hx hc
    exact hpost.calm x (by omega) (by rw [e.2.2.2.2.2]; exact hc) (hli.calm x hx hc h0)
  · intro hs
    exact hpost.settled_all (hli.settled_all hs)
  · intro hd0 hnice hS2 hsh
    exact hshal hd0 hnice hS2 (hli.shallow_all hd0 hnice hS2 hsh)

end Branchy

namespace Branchy

/-- On a `Nice` schedule the child for the highest unused entity of a top-locked
node lies among the children that the loops of the search visit. -/
theorem top_child_visible (sched : schedule_t) (hwf : WellFormed sched) (S : Nat)
    (hS : sched.num_slots = S) (σ0 σ1 : State) (a cb d : Nat) (hd : d < S)
    (hp0 : Pristine sched σ0 a d) (hcb0 : (σ0.heap a).children = some cb)
    (hbi : BranchInv sched σ0 a cb d sched.weights.length σ1)
    (hnice : Nice sched) (htop : TopLocked sched (σ0.heap a) d) :
    sched.weights.length - d - 1 < (σ1.heap a).total_children.toNat ∧
      sched.weights.length - d - 1 < sched.weights.length := by
  have hSP : S ≤ sched.weights.length := by
    have := hnice.2
    rw [hwf.1, hS] at this
    exact_mod_cast this
  obtain ⟨_, _, _, htc, _, _, _⟩ := branch_root sched hwf σ0 σ1 a cb d hp0 hcb0 hbi
  rw [htc, total_children_top sched _ d hp0.locked htop]
  simp only [Int.toNat_ofNat]
  omega

/-- The `while` loop of `expand_branch(a, d)`: it ends, with `a` inactive,
within one pass more than there are active children. -/
theorem expand_loop_spec (sched : schedule_t) (hwf : WellFormed sched) (S : Nat)
    (hS : sched.num_slots = S) (rec : State → Nat → Nat → Except Err State) (d : Nat)
    (hd : d < S)
    (hrec : d + 1 < S → ¬ (Nice sched ∧ S ≤ d + 2) → ∀ σ c cbc, Pristine sched σ c (d + 1) →
      GInv sched σ → (σ.heap c).children = some cbc →
      ExpandSpec sched σ c cbc (d + 1) (rec σ c (d + 1)))
    (σ0 σ1 : State) (a cb : Nat)
    (hp0 : Pristine sched σ0 a d) (hcb0 : (σ0.heap a).children = some cb)
    (hbi : BranchInv sched σ0 a cb d sched.weights.length σ1) :
    ∀ n σ, LoopInv sched σ0 σ1 σ a cb d →
      activeCount σ cb (σ1.heap a).total_children.toNat + 1 ≤ n →
      (expand_loop sched rec a d n σ = .error .outOfBounds ∧ ¬ Nice sched) ∨
      ∃ τ, expand_loop sched rec a d n σ = .ok τ ∧ LoopInv sched σ0 σ1 τ a cb d ∧
        (τ.heap a).active = 0 ∧ σ.incumbent_value ≤ τ.incumbent_value ∧
        (σ.incumbent_solution ≠ none → τ.incumbent_solution ≠ none) := by
  obtain ⟨hblk, hout, hz⟩ := pristine_block sched σ0 a cb d hp0 hcb0
  obtain ⟨hr1, _, _, _, htc0, htcP, htcN⟩ := branch_root sched hwf σ0 σ1 a cb d hp0 hcb0 hbi
  have hpeople : 0 ≤ sched.num_people := by rw [hwf.1]; omega
  intro n
  induction n with
  | zero => intro σ _ h; omega
  | succ n ih =>
    intro σ hli hfuel
    have hcb : (σ.heap a).children = some cb := by
      rw [hli.root_cell.1.2.2.2.2.2]; exact hr1
    have htc : (σ.heap a).total_children = (σ1.heap a).total_children := hli.root_cell.2
    rw [expand_loop]
    by_cases hact : (σ.heap a).active = 0
    · rw [if_pos hact]
      exact Or.inr ⟨σ, rfl, hli, hact, le_refl _, id⟩
    · rw [if_neg hact]
      obtain ⟨r, hsel, hres⟩ := select_branch_spec sched σ a cb hact hcb hpeople
        (by rw [htc]; exact htcP)
      rw [htc] at hres
      rw [hsel]
      simp only [except_ok_bind]
      rcases hres with ⟨hnone, _, hno⟩ | ⟨k, hk, hsome, _, hkact, _, hkw, _, _⟩
      · -- no child can be selected: the node is deactivated
        rw [hnone]
        simp only [except_pure]
        refine Or.inr ⟨_, rfl, ?_, by rw [write_heap_same], le_refl _, id⟩
        apply loopInv_deactivate sched σ0 σ1 σ a cb d hp0 hcb0 hbi hli
        · intro hnice htop hni
          obtain ⟨_, h2, h3, _⟩ := hli.top hnice htop hni
          obtain ⟨he1, _⟩ := top_child_visible sched hwf S hS σ0 σ1 a cb d hd hp0 hcb0 hbi
            hnice htop
          apply hno _ he1
          have hw : 0 ≤ (σ.heap (cb + (sched.weights.length - d - 1))).total_weight := by
            rw [h3.weight]
            exact weight_sum_nonneg _ _ (h3.entries_nonneg hnice)
          have hiv := hli.ginv.none_value hni
          unfold SLOT_WEIGHT_INITIAL_VAL at hiv ⊢
          exact ⟨h2, by linarith, by linarith⟩
        · intro e he hea hfe
          rcases hli.best e he hea hfe with h | ⟨_, h2, _, h4⟩
          · exact h
          · rw [← h4]
            by_contra hcon
            have hge := hli.ginv.value_ge
            exact hno e he ⟨h2, lt_of_le_of_lt hge (not_le.mp hcon), not_le.mp hcon⟩
        · intro i hi hiP
          rw [htc] at hi
          have hiN : i < (σ1.heap a).total_children.toNat := by omega
          rcases hli.kids i hiP with h0 | ⟨hpi, _⟩
          · exact Or.inl h0
          · rcases hpi.active01 with h0 | h1
            · exact Or.inl h0
            · right
              by_contra hcon
              have hge := hli.ginv.value_ge
              exact hno i hiN ⟨h1, lt_of_le_of_lt hge (not_le.mp hcon), not_le.mp hcon⟩
      · -- the child `cb + k` is selected
        rw [hsome]
        simp only
        have hkP : k < sched.weights.length := by omega
        rcases hli.kids k hkP with h0 | ⟨hpk, hck⟩
        · rw [h0] at hkact; cases hkact
        obtain ⟨cbc, hcbc, _, _⟩ := hpk.block
        have hrec' : d + 1 < S → ¬ (slot_ids (σ.heap (cb + k)).node_list S).Nodup →
            ExpandSpec sched σ (cb + k) cbc (d + 1) (rec σ (cb + k) (d + 1)) := by
          intro hd1 hnd
          refine hrec hd1 ?_ σ (cb + k) cbc hpk hli.ginv hcbc
          rintro ⟨hnice, hSd⟩
          apply hnd
          have hck1 : (σ1.heap (cb + k)).children = some cbc := by rw [← hck]; exact hcbc
          obtain ⟨huk, _⟩ := kid_base sched σ0 σ1 a cb d hp0 hcb0 hbi k cbc hkP hck1
          obtain ⟨cbi, hch, _, _, _⟩ := hbi.made k hkP huk
          have hnot := (unused_iff_not_mem sched _ d k hp0.locked hkP).mp huk
          have hfe := isChild_feasible_last sched hwf S hS _ a d k cbi _ _ hch hd hSd
            hp0.locked.ids_range hp0.locked.ids_nodup hkP hnot hnice (hp0.entries_nonneg hnice)
          rw [hck, ← toNat_slots sched S hS]
          exact hfe.2
        rcases kid_step sched hwf S hS rec d hd σ (cb + k) cbc hpk hli.ginv hcbc hrec' hkact hkw
          with ⟨e, hf, he, hnn⟩ | ⟨v, σu, hf, hupd, hrest⟩
        · left
          rw [hf, he]
          exact ⟨rfl, hnn⟩
        · have htail : ∀ τ, FramePost sched σ τ (cb + k) cbc →
              (τ.heap (cb + k)).active = 0 →
              (Nice sched → TopLocked sched (σ.heap (cb + k)) (d + 1) →
                τ.incumbent_solution ≠ none) →
              (FeasibleNode sched (σ.heap (cb + k)) →
                (σ.heap (cb + k)).total_weight ≤ τ.incumbent_value) →
              (d = 0 → Nice sched → sched.num_slots ≤ 2 → Shallow sched σ → Shallow sched τ) →
              ((solution_is_active sched τ a >>= fun a_1 =>
                  expand_loop sched rec a d n
                    (if a_1 = 0 then τ.write a { τ.heap a with active := 0 } else τ))
                  = .error .outOfBounds ∧ ¬ Nice sched) ∨
              ∃ υ, (solution_is_active sched τ a >>= fun a_1 =>
                  expand_loop sched rec a d n
                    (if a_1 = 0 then τ.write a { τ.heap a with active := 0 } else τ)) = .ok υ ∧
                LoopInv sched σ0 σ1 υ a cb d ∧ (υ.heap a).active = 0 ∧
                σ.incumbent_value ≤ υ.incumbent_value ∧
                (σ.incumbent_solution ≠ none → υ.incumbent_solution ≠ none) := by
            intro τ hpost hin hfound hfeas hshal
            obtain ⟨hliτ, hroot, hkid⟩ := loopInv_kid sched hwf S hS σ0 σ1 σ τ a cb d hd hp0 hcb0
              hbi hli k cbc hkP hpk hck hcbc hpost hin hfound hfeas hshal
            have hcbτ : (τ.heap a).children = some cb := by rw [hroot]; exact hcb
            have htcτ : (τ.heap a).total_children = (σ1.heap a).total_children := by
              rw [hroot]; exact htc
            obtain ⟨ra, hra, hiff⟩ := solution_is_active_spec sched τ a cb hcbτ hpeople
              (by rw [htcτ]; exact htcP)
            rw [htcτ] at hiff
            rw [hra]
            simp only [except_ok_bind]
            have hcount : activeCount τ cb (σ1.heap a).total_children.toNat <
                activeCount σ cb (σ1.heap a).total_children.toNat :=
              activeCount_lt σ τ cb _ k hk (by rw [hkact]; decide) hin
                (fun i hi hik => hkid i (by omega) hik)
            by_cases hra0 : ra = 0
            · rw [if_pos hra0]
              have hliσ3 : LoopInv sched σ0 σ1 (τ.write a { τ.heap a with active := 0 }) a cb d := by
                apply loopInv_deactivate sched σ0 σ1 τ a cb d hp0 hcb0 hbi hliτ
                · intro hnice htop hni
                  obtain ⟨_, h2, _, _⟩ := hliτ.top hnice htop hni
                  obtain ⟨he1, _⟩ := top_child_visible sched hwf S hS σ0 σ1 a cb d hd hp0 hcb0 hbi
                    hnice htop
                  have := (hiff.mp hra0) _ he1
                  rw [this] at h2
                  cases h2
                · intro e he hea hfe
                  rcases hliτ.best e he hea hfe with h | ⟨_, h2, _, _⟩
                  · exact h
                  · have := (hiff.mp hra0) e he
                    rw [this] at h2
                    cases h2
                · intro i hi hiP
                  rw [htcτ] at hi
                  exact Or.inl ((hiff.mp hra0) i (by omega))
              have hc3 : activeCount (τ.write a { τ.heap a with active := 0 }) cb
                  (σ1.heap a).total_children.toNat =
                  activeCount τ cb (σ1.heap a).total_children.toNat := by
                apply activeCount_congr
                intro i hi
                have ha := hp0.addr
                exact write_heap_ne _ _ _ _ (by omega)
              rcases ih _ hliσ3 (by rw [hc3]; omega) with ⟨herr, hnn⟩ | ⟨υ, hυ, h1, h2, h3, h4⟩
              · exact Or.inl ⟨herr, hnn⟩
              · exact Or.inr ⟨υ, hυ, h1, h2, le_trans hpost.mono h3, fun h => h4 (hpost.kept h)⟩
            · rw [if_neg hra0]
              rcases ih _ hliτ (by omega) with ⟨herr, hnn⟩ | ⟨υ, hυ, h1, h2, h3, h4⟩
              · exact Or.inl ⟨herr, hnn⟩
              · exact Or.inr ⟨υ, hυ, h1, h2, le_trans hpost.mono h3, fun h => h4 (hpost.kept h)⟩
          rw [hf]
          simp only [except_ok_bind]
          by_cases hv : v ≠ 0
          · rw [if_pos hv] at hupd
            rw [if_pos hv, hupd]
            simp only [except_ok_bind]
            by_cases hau : (σu.heap (cb + k)).active ≠ 0
            · rw [if_pos hau] at hrest
              rw [if_pos hau]
              rcases hrest with ⟨herr, hnn⟩ | ⟨τ, hτ, hpost, hin, hfound, hfeas, hshal⟩
              · left
                rw [herr]
                exact ⟨rfl, hnn⟩
              · rw [hτ]
                simp only [except_ok_bind]
                exact htail τ hpost hin hfound hfeas hshal
            · rw [if_neg hau] at hrest
              rw [if_neg hau]
              rcases hrest with ⟨herr, hnn⟩ | ⟨τ, hτ, hpost, hin, hfound, hfeas, hshal⟩
              · cases herr
              · cases hτ
                exact htail _ hpost hin hfound hfeas hshal
          · rw [if_neg hv] at hupd
            cases hupd
            rw [if_neg hv]
            simp only [except_pure, except_ok_bind]
            by_cases hau : (σ.heap (cb + k)).active ≠ 0
            · rw [if_pos hau] at hrest
              rw [if_pos hau]
              rcases hrest with ⟨herr, hnn⟩ | ⟨τ, hτ, hpost, hin, hfound, hfeas, hshal⟩
              · left
                rw [herr]
                exact ⟨rfl, hnn⟩
              · rw [hτ]
                simp only [except_ok_bind]
                exact htail τ hpost hin hfound hfeas hshal
            · rw [if_neg hau] at hrest
              rw [if_neg hau]
              rcases hrest with ⟨herr, hnn⟩ | ⟨τ, hτ, hpost, hin, hfound, hfeas, hshal⟩
              · cases herr
              · cases hτ
                exact htail _ hpost hin hfound hfeas hshal

end Branchy

namespace Branchy

theorem activeCount_le (σ : State) (cb tc : Nat) : activeCount σ cb tc ≤ tc := by
  unfold activeCount
  calc ((Finset.range tc).filter _).card ≤ (Finset.range tc).card := Finset.card_filter_le _ _
    _ = tc := Finset.card_range tc

/-- The C function `expand_branch` on a pristine node: with `S - d` levels of
recursion and `P + 1` evaluations of each loop condition it returns, leaving
the node inactive. -/
theorem expand_branch_spec (sched : schedule_t) (hwf : WellFormed sched) (S : Nat)
    (hS : sched.num_slots = S) (l : Nat) (hl : sched.weights.length + 1 ≤ l) :
    ∀ f σ a cb d, Pristine sched σ a d → GInv sched σ → (σ.heap a).children = some cb →
      d ≤ S → S ≤ d + f → 1 ≤ f →
      ExpandSpec sched σ a cb d (expand_branch sched f l σ a d) := by
  intro f
  induction f with
  | zero => intro σ a cb d _ _ _ _ _ h; omega
  | succ f ih =>
    intro σ a cb d hp hg hcb hdS hfuel _
    have hp0 : Pristine sched
        { σ with num_expanded_solutions := σ.num_expanded_solutions + 1 } a d :=
      ⟨hp.locked, hp.no_children, hp.active01, hp.addr, hp.block, hp.all_in, hp.entries_nonneg,
        hp.weight⟩
    have hg0 : GInv sched { σ with num_expanded_solutions := σ.num_expanded_solutions + 1 } :=
      ⟨hg.none_value, hg.some_spec, hg.value_ge⟩
    rw [expand_branch]
    simp only
    by_cases hdeq : (d : Int) = sched.num_slots
    · rw [if_pos hdeq]
      right
      refine ⟨_, rfl, ⟨⟨le_refl _, fun x _ _ _ => rfl, stable_refl σ, hg0, le_refl _, id,
        fun h x hx hc => h x hx hc, fun h x hx hc => h x hx hc, fun x _ _ h => h,
        fun h => ⟨h.inb, h.sep, h.settled⟩⟩, ?_, ?_, ?_, fun _ _ _ h x hx hc => h x hx hc⟩⟩
      · intro h; exact absurd hdeq h
      · intro _ _ _ h; rw [hdeq] at h; exact absurd h (lt_irrefl _)
      · intro _ h; rw [hdeq] at h; exact absurd h (lt_irrefl _)
    · rw [if_neg hdeq]
      by_cases hact : (σ.heap a).active = 0
      · rw [if_pos hact]
        right
        refine ⟨_, rfl, ⟨⟨le_refl _, fun x _ _ _ => rfl, stable_refl σ, hg0, le_refl _, id,
        fun h x hx hc => h x hx hc, fun h x hx hc => h x hx hc, fun x _ _ h => h,
        fun h => ⟨h.inb, h.sep, h.settled⟩⟩, ?_, ?_, ?_, fun _ _ _ h x hx hc => h x hx hc⟩⟩
        · intro _; exact hact
        · intro _ _ h; exact absurd hact h
        · intro h; exact absurd hact h
      · rw [if_neg hact]
        have hd : d < S := by
          have : d ≠ S := by
            intro h
            apply hdeq
            rw [hS, h]
          omega
        obtain ⟨hblk, hout, _⟩ := pristine_block sched _ a cb d hp0 hcb
        obtain ⟨σ1, hσ1, hbi⟩ := create_branch_spec sched hwf S hS
          { σ with num_expanded_solutions := σ.num_expanded_solutions + 1 } a cb d hd
          (by rw [hp.locked.list_len, toNat_slots sched S hS]; omega)
          hp.locked.ids_range hp.locked.map_len hcb hp.addr hblk hout
        rw [hσ1]
        simp only [except_ok_bind]
        have hli := loopInv_init sched hwf S hS _ σ1 a cb d hd hp0 hcb hg0 hact hbi
        obtain ⟨_, _, _, htcU, _, _, htcN⟩ := branch_root sched hwf _ σ1 a cb d hp0 hcb hbi
        have hcount := activeCount_le σ1 cb (σ1.heap a).total_children.toNat
        rcases expand_loop_spec sched hwf S hS (expand_branch sched f l) d hd
            (fun hd1 _ σ' c cbc hp' hg' hc' => ih σ' c cbc (d + 1) hp' hg' hc' (by omega) (by omega)
              (by omega))
            _ σ1 a cb hp0 hcb hbi l σ1 hli (by omega)
          with ⟨herr, hnn⟩ | ⟨τ, hτ, hliτ, hin, hmono, hkept⟩
        · exact Or.inl ⟨herr, hnn⟩
        · right
          refine ⟨τ, hτ, ⟨⟨le_trans hbi.brk_le hliτ.brk_le, hliτ.frame, hliτ.stable, hliτ.ginv,
            hliτ.mono, hliτ.kept, fun h => hliτ.locked_all (fun x hx hc => h x hx hc),
            fun h => hliτ.summed_all (fun x hx hc => h x hx hc),
            fun x hx hc h => hliτ.calm x hx hc h,
            fun h => hliτ.settled_all ⟨h.inb, h.sep, h.settled⟩⟩,
            ?_, ?_, ?_,
            fun h1 h2 h3 h => hliτ.shallow_all h1 h2 h3 (fun x hx hc => h x hx hc)⟩⟩
          · intro _; exact hin
          · intro hnice htop _ _ hnone
            have := (hliτ.top hnice htop hnone).1
            exact this hin
          · intro _ _ i hi hui
            obtain ⟨cbi, hch, _, hb2, _⟩ := hbi.made i hi hui
            obtain ⟨hblk', _, _⟩ := pristine_block sched _ a cb d hp0 hcb
            have hbrk01 := hbi.brk_le
            refine ⟨σ1.heap (cb + i), cbi, hch, ?_, ?_⟩
            · apply hliτ.stable1 (cb + i)
              · have : cb + sched.weights.length ≤ σ.brk := hblk'
                have : σ.brk ≤ σ1.brk := hbrk01
                omega
              · rw [hch.children]; simp
            · intro hvis hca hfe
              rcases hliτ.best i (by rw [htcU]; simpa using hvis) hca hfe with h | ⟨h1, _, _, _⟩
              · exact h
              · exact absurd hin h1

end Branchy

namespace Branchy

/-- The C function `create_root`. -/
theorem create_root_spec (sched : schedule_t) (hwf : WellFormed sched) (S : Nat)
    (hS : sched.num_slots = S) :
    ∃ σr, create_root sched initial_state = .ok (0, σr) ∧ IsRootState sched σr := by
  have hP := toNat_people sched hwf
  have hS' := toNat_slots sched S hS
  unfold create_root
  simp only [hP, hS']
  obtain ⟨t, ht, hmap, hframe, hlen, _, _, hmid, hw⟩ := fill_fold sched hwf S hS
    { active := 1, total_weight := 0, total_depth := 0, total_children := 0,
      used_person_id_map := List.replicate sched.weights.length 0,
      node_list := List.replicate S { person_id := 0, weight := 0 },
      parent := none, children := some 1 }
    (by simp) (by simp) 0 S (by omega)
  rw [← List.range_eq_range'] at ht
  have hbrk : initial_state.brk = 0 := rfl
  simp only [calloc_fst, hbrk, Nat.zero_add]
  rw [ht]
  simp only [except_ok_bind]
  refine ⟨_, rfl, ?_⟩
  obtain ⟨hfa, hfd, hfc, hfp, hfch⟩ := hframe
  simp only at hfa hfd hfc hfp hfch hmap hmid hw
  constructor
  · rw [write_heap_same]
    constructor
    · exact hfa
    · exact hfd
    · exact hfc
    · exact hfp
    · exact hfch
    · exact hmap
    · rw [hS']; exact hlen
    · intro j hj
      rw [hS'] at hj
      exact hmid j (Nat.zero_le _) (by omega)
    · rw [hw, hS']
      unfold weight_sum
      rw [Finset.range_eq_Ico]
      simp
  · rfl
  · intro x hx
    rw [write_heap_ne _ _ _ _ hx]
    simp [State.calloc, initial_state]
  · rfl
  · rfl
  · rfl

/-- On a `Nice` schedule every slot of the root holds an existing entity and a
non-negative weight. -/
theorem isRoot_nice (sched : schedule_t) (hwf : WellFormed sched) (S : Nat)
    (hS : sched.num_slots = S) (s : solution_t) (hr : IsRoot sched s) (hnice : Nice sched) :
    (∀ p ∈ slot_ids s.node_list S, 0 ≤ p ∧ p < (sched.weights.length : Int)) ∧
      ∀ j, 0 ≤ weight_at s.node_list j := by
  have hS' := toNat_slots sched S hS
  have hSP : S ≤ sched.weights.length := by
    have := hnice.2
    rw [hwf.1, hS] at this
    exact_mod_cast this
  have hfill : ∀ j, j < S → ∃ (q : Nat) (w : ℚ), q < sched.weights.length ∧ 0 ≤ w ∧
      s.node_list[j]? = some { person_id := (q : Int), weight := w } := by
    intro j hj
    obtain ⟨res, hres, hget⟩ := hr.filled j (by rw [hS']; exact hj)
    rcases hres with ⟨_, _, h3⟩ | ⟨q, hq, h2, _, h4, _, _, _⟩
    · have h1 := h3 0 (by omega) (List.getElem?_replicate_of_lt (by omega))
      have h2 := wt_nonneg sched hnice.1 0 j
      unfold SLOT_WEIGHT_INITIAL_VAL at h1
      linarith
    · refine ⟨q, res.1, hq, ?_, ?_⟩
      · rw [h4]; exact wt_nonneg sched hnice.1 q j
      · rw [hget, h2]
  constructor
  · intro p hp
    obtain ⟨j, hj, nd, hnd, hpid⟩ := mem_slot_ids.mp hp
    obtain ⟨q, w, hq, _, hget⟩ := hfill j hj
    rw [hget] at hnd
    cases hnd
    subst hpid
    simp only
    omega
  · intro j
    by_cases hjS : j < S
    · obtain ⟨q, w, _, hw, hget⟩ := hfill j hjS
      rw [weight_at_of_get hget]
      exact hw
    · unfold weight_at
      have : s.node_list[j]? = none := by
        apply List.getElem?_eq_none
        rw [hr.list_len, hS']
        omega
      rw [this]

/-- The root built by `create_root` is a pristine node of depth `0`, and no
incumbent exists yet. -/
theorem rootState_pristine (sched : schedule_t) (hwf : WellFormed sched) (S : Nat)
    (hS : sched.num_slots = S) (σ : State) (h : IsRootState sched σ) :
    Pristine sched σ 0 0 ∧ GInv sched σ ∧ (σ.heap 0).children = some 1 ∧
      TopLocked sched (σ.heap 0) 0 ∧ (σ.heap 0).active ≠ 0 := by
  have hS' := toNat_slots sched S hS
  have hr := h.root
  refine ⟨?_, ?_, hr.children, ?_, by rw [hr.active]; decide⟩
  · constructor
    · constructor
      · rw [hr.depth]; rfl
      · rw [hr.map]; simp
      · exact hr.list_len
      · intro p hp; simp [slot_ids] at hp
      · simp [slot_ids]
      · intro i hi
        rw [hr.map]
        simp [slot_ids, hi]
    · exact hr.no_children
    · exact Or.inr hr.active
    · rw [h.brk]; omega
    · refine ⟨1, hr.children, by rw [h.brk], ?_⟩
      intro j _
      exact h.rest _ (by omega)
    · intro hnice
      rw [hS']
      exact (isRoot_nice sched hwf S hS _ hr hnice).1
    · intro hnice
      exact (isRoot_nice sched hwf S hS _ hr hnice).2
    · exact hr.weight
  · constructor
    · intro _; exact h.value
    · intro p hp; rw [h.incumbent] at hp; cases hp
    · rw [h.value]
  · intro i hi
    simp [slot_ids]
    omega

/-- The search of `method_schedule_compute_solution` on a well-formed schedule:
`num_slots` levels of recursion and `num_people + 1` evaluations of each loop
condition are enough. -/
theorem run_search_spec (sched : schedule_t) (hwf : WellFormed sched) (S : Nat)
    (hS : sched.num_slots = S) (d l : Nat) (hd : S ≤ d) (hd1 : 1 ≤ d)
    (hl : sched.weights.length + 1 ≤ l) :
    ∃ σr, create_root sched initial_state = .ok (0, σr) ∧ IsRootState sched σr ∧
      ExpandSpec sched σr 0 1 0 (run_search sched d l) := by
  obtain ⟨σr, hσr, hrs⟩ := create_root_spec sched hwf S hS
  obtain ⟨hp, hg, hc, _, _⟩ := rootState_pristine sched hwf S hS σr hrs
  refine ⟨σr, hσr, hrs, ?_⟩
  unfold run_search
  rw [hσr]
  simp only [except_ok_bind]
  exact expand_branch_spec sched hwf S hS l hl d σr 0 1 0 hp hg hc (Nat.zero_le _) (by omega) hd1

/-- The result loop of `method_schedule_compute_solution` when there is an
incumbent. -/
theorem result_array_some (sched : schedule_t) (S : Nat) (hS : sched.num_slots = S)
    (σ : State) (p : Nat) (hinc : σ.incumbent_solution = some p)
    (hlen : S ≤ (σ.heap p).node_list.length) :
    result_array sched σ = .ok (slot_ids (σ.heap p).node_list S) := by
  have key : ∀ n, n ≤ S →
      (List.range n).foldlM
        (fun (arr : List Int) (i : Nat) =>
          match σ.incumbent_solution with
          | none => (.error .nullDeref : Except Err (List Int))
          | some inc => do
            let nd ← readNode (σ.heap inc).node_list i
            pure (arr ++ [nd.person_id]))
        [] = .ok (slot_ids (σ.heap p).node_list n) := by
    intro n
    induction n with
    | zero => intro _; simp [slot_ids]
    | succ n ih =>
      intro hn
      have hnl : n < (σ.heap p).node_list.length := by omega
      rw [List.range_succ, List.foldlM_append, ih (by omega)]
      simp only [except_ok_bind, List.foldlM_cons, List.foldlM_nil, hinc]
      rw [readNode_ok_of_get (List.getElem?_eq_getElem hnl)]
      simp only [except_ok_bind, except_pure]
      rw [slot_ids_succ _ n hnl]
  unfold result_array
  rw [toNat_slots sched S hS]
  exact key S (le_refl _)

/-- The result loop of `method_schedule_compute_solution` when there is no
incumbent: the first pass dereferences the null pointer. -/
theorem result_array_none (sched : schedule_t) (S : Nat) (hS : sched.num_slots = S) (hS1 : 1 ≤ S)
    (σ : State) (hinc : σ.incumbent_solution = none) :
    result_array sched σ = .error .nullDeref := by
  unfold result_array
  rw [toNat_slots sched S hS]
  obtain ⟨n, rfl⟩ : ∃ n, S = n + 1 := ⟨S - 1, by omega⟩
  rw [List.range_succ_eq_map, List.foldlM_cons, hinc]
  rfl

end Branchy

namespace Scheduler

theorem feasible_step_eq : feasible_step = Branchy.feasible_step := rfl

theorem solution_is_feasible_eq_branchy (s : schedule_t) (n : solution_t) :
    solution_is_feasible s n = Branchy.solution_is_feasible (toBranchy s) n := rfl

theorem solution_is_active_loop_eq (s : schedule_t) (σ : State) (n : solution_t) :
    ∀ k i, solution_is_active_loop s σ n k i =
      Branchy.solution_is_active_loop (toBranchy s) σ n k i := by
  intro k
  induction k with
  | zero => intro i; rfl
  | succ k ih =>
    intro i
    unfold solution_is_active_loop Branchy.solution_is_active_loop
    simp only [ih]
    rfl

theorem solution_is_active_eq (s : schedule_t) (σ : State) (a : Nat) :
    solution_is_active s σ a = Branchy.solution_is_active (toBranchy s) σ a := by
  unfold solution_is_active Branchy.solution_is_active
  exact solution_is_active_loop_eq s σ _ _ _

theorem max_cost_for_slot_eq (s : schedule_t) (j : Nat) (m : List Int) :
    max_cost_for_slot s j m = Branchy.max_cost_for_slot (toBranchy s) j m := rfl

theorem prune_branch_eq (s : schedule_t) (σ : State) (b : Option Nat) :
    prune_branch s σ b = Branchy.prune_branch (toBranchy s) σ b := rfl

theorem update_incumbent_and_branch_eq (s : schedule_t) (σ : State) (a : Nat) :
    update_incumbent_and_branch s σ a =
      Branchy.update_incumbent_and_branch (toBranchy s) σ a := rfl

theorem create_root_eq (s : schedule_t) (σ : State) :
    create_root s σ = Branchy.create_root (toBranchy s) σ := rfl

theorem create_branch_eq (s : schedule_t) (σ : State) (a d : Nat) :
    create_branch s σ a d = Branchy.create_branch (toBranchy s) σ a d := rfl

theorem nearest_active_eq (σ : State) :
    ∀ n p, nearest_active σ n p = Branchy.nearest_active σ n p := by
  intro n
  induction n with
  | zero => intro p; cases p <;> rfl
  | succ n ih =>
    intro p
    cases p with
    | none => rfl
    | some p =>
      unfold nearest_active Branchy.nearest_active
      simp only [ih]

theorem select_branch_eq (s : schedule_t) (σ : State) (a : Nat) :
    select_branch s σ a = Branchy.select_branch (toBranchy s) σ a := by
  unfold select_branch Branchy.select_branch
  rw [nearest_active_eq]
  rfl

theorem expand_loop_eq (s : schedule_t) (rec rec' : State → Nat → Nat → Except Err State)
    (hrec : rec = rec') (a d : Nat) :
    ∀ n σ, expand_loop s rec a d n σ = Branchy.expand_loop (toBranchy s) rec' a d n σ := by
  subst hrec
  intro n
  induction n with
  | zero => intro σ; rfl
  | succ n ih =>
    intro σ
    rw [expand_loop, Branchy.expand_loop]
    simp only [ih, select_branch_eq, solution_is_feasible_eq_branchy,
      update_incumbent_and_branch_eq, solution_is_active_eq]

theorem expand_branch_eq (s : schedule_t) :
    ∀ d l σ a k, expand_branch s d l σ a k = Branchy.expand_branch (toBranchy s) d l σ a k := by
  intro d
  induction d with
  | zero => intro l σ a k; rfl
  | succ d ih =>
    intro l σ a k
    rw [expand_branch, Branchy.expand_branch]
    have hrec : expand_branch s d l = Branchy.expand_branch (toBranchy s) d l := by
      funext σ a k
      exact ih l σ a k
    simp only [create_branch_eq, expand_loop_eq s _ _ hrec]
    rfl

theorem run_search_eq (s : schedule_t) (d l : Nat) :
    run_search s d l = Branchy.run_search (toBranchy s) d l := by
  unfold run_search Branchy.run_search
  simp only [create_root_eq, expand_branch_eq]
  rfl

theorem result_array_eq (s : schedule_t) (σ : State) :
    result_array s σ = Branchy.result_array (toBranchy s) σ := rfl

/-- The search engine of `Scheduler.c` computes what the search engine of
`branchy.c` computes on the same weights. -/
theorem method_schedule_compute_solution_eq (s : schedule_t) (d l : Nat) :
    method_schedule_compute_solution (some s) d l =
      Branchy.method_schedule_compute_solution (some (toBranchy s)) d l := by
  unfold method_schedule_compute_solution Branchy.method_schedule_compute_solution
  simp only [run_search_eq, result_array_eq]
  rfl

end Scheduler

theorem foldlM_invariant {α β : Type} (f : β → α → Except Err β) (Q : β → Prop)
    (hf : ∀ b a b', Q b → f b a = .ok b' → Q b') :
    ∀ (l : List α) (b b' : β), Q b → l.foldlM f b = .ok b' → Q b' := by
  intro l
  induction l with
  | nil =>
    intro b b' hb h
    simp only [List.foldlM_nil, except_pure] at h
    cases h
    exact hb
  | cons a l ih =>
    intro b b' hb h
    rw [List.foldlM_cons] at h
    obtain ⟨b1, h1, h2⟩ := except_bind_eq_ok h
    exact ih b1 b' (hf b a b1 hb h1) h2

theorem sameGlob_refl (σ : State) : SameGlob σ σ := ⟨rfl, rfl, rfl⟩

theorem sameGlob_trans {σ τ υ : State} (h1 : SameGlob σ τ) (h2 : SameGlob τ υ) : SameGlob σ υ :=
  ⟨h2.1.trans h1.1, h2.2.1.trans h1.2.1, h2.2.2.trans h1.2.2⟩

theorem sameGlob_write (σ : State) (a : Nat) (v : solution_t) : SameGlob σ (σ.write a v) :=
  ⟨rfl, rfl, rfl⟩

theorem sameGlob_calloc (σ : State) (n : Nat) : SameGlob σ (σ.calloc n).2 := ⟨rfl, rfl, rfl⟩

namespace Branchy

/-- The C function `prune_branch` leaves the module-level variables alone. -/
theorem prune_branch_glob (sched : schedule_t) (σ τ : State) (b : Option Nat)
    (h : prune_branch sched σ b = .ok τ) : SameGlob σ τ := by
  unfold prune_branch at h
  cases b with
  | none =>
    simp only [except_pure] at h
    cases h
    exact sameGlob_refl σ
  | some b =>
    simp only at h
    obtain ⟨σ1, h1, h2⟩ := except_bind_eq_ok h
    simp only [except_pure] at h2
    cases h2
    have : SameGlob σ σ1 := by
      refine foldlM_invariant (prune_step sched b) (fun υ => SameGlob σ υ) ?_ _ σ σ1
        (sameGlob_refl σ) h1
      intro υ i υ' hυ hstep
      unfold prune_step at hstep
      obtain ⟨c, _, hc⟩ := except_bind_eq_ok hstep
      simp only [except_pure] at hc
      cases hc
      exact sameGlob_trans hυ (sameGlob_write _ _ _)
    exact sameGlob_trans this (sameGlob_write _ _ _)

/-- The C function `create_branch` leaves the module-level variables alone. -/
theorem create_branch_glob (sched : schedule_t) (σ τ : State) (a d : Nat)
    (h : create_branch sched σ a d = .ok τ) : SameGlob σ τ := by
  unfold create_branch at h
  refine foldlM_invariant (create_branch_step sched a d) (fun υ => SameGlob σ υ) ?_ _ σ τ
    (sameGlob_refl σ) h
  intro υ i υ' hυ hstep
  unfold create_branch_step at hstep
  obtain ⟨u, _, hrest⟩ := except_bind_eq_ok hstep
  by_cases hu : u = 1
  · rw [if_pos hu] at hrest
    simp only [except_pure] at hrest
    cases hrest
    exact hυ
  · rw [if_neg hu] at hrest
    obtain ⟨c, _, hrest⟩ := except_bind_eq_ok hrest
    obtain ⟨s, _, hrest⟩ := except_bind_eq_ok hrest
    simp only [except_pure] at hrest
    cases hrest
    exact sameGlob_trans hυ
      (sameGlob_trans (sameGlob_write _ _ _)
        (sameGlob_trans (sameGlob_calloc _ _) (sameGlob_write _ _ _)))

/-- The C function `update_incumbent_and_branch` either leaves the incumbent
alone, or replaces it by a node of strictly greater weight. -/
theorem update_incumbent_glob (sched : schedule_t) (σ τ : State) (s : Nat)
    (h : update_incumbent_and_branch sched σ s = .ok τ) :
    SameGlob σ τ ∨
      (σ.incumbent_value < (σ.heap s).total_weight ∧ τ.incumbent_solution = some s ∧
        τ.incumbent_value = (σ.heap s).total_weight ∧
        τ.num_expanded_solutions = σ.num_expanded_solutions) := by
  unfold update_incumbent_and_branch at h
  by_cases hw : (σ.heap s).total_weight > σ.incumbent_value
  · right
    simp only [if_pos hw] at h
    obtain ⟨h1, h2, h3⟩ := prune_branch_glob sched _ τ _ h
    exact ⟨hw, h1, h2, h3⟩
  · left
    simp only [if_neg hw] at h
    exact prune_branch_glob sched σ τ _ h

/-- A relation between states that every step of the `while` loop of
`expand_branch` respects is respected by the loop. -/
theorem expand_loop_rel (sched : schedule_t) (R : State → State → Prop)
    (hrefl : ∀ σ, R σ σ) (htrans : ∀ σ τ υ, R σ τ → R τ υ → R σ υ)
    (hsame : ∀ σ τ, SameGlob σ τ → R σ τ)
    (hupd : ∀ σ c v τ, solution_is_feasible sched (σ.heap c) = .ok v → v ≠ 0 →
      update_incumbent_and_branch sched σ c = .ok τ → R σ τ)
    (rec : State → Nat → Nat → Except Err State)
    (hrec : ∀ σ a d τ, rec σ a d = .ok τ → R σ τ) (a d : Nat) :
    ∀ n σ τ, expand_loop sched rec a d n σ = .ok τ → R σ τ := by
  intro n
  induction n with
  | zero => intro σ τ h; simp [expand_loop] at h
  | succ n ih =>
    intro σ τ h
    rw [expand_loop] at h
    by_cases hact : (σ.heap a).active = 0
    · rw [if_pos hact] at h
      simp only [except_pure] at h
      cases h
      exact hrefl σ
    · rw [if_neg hact] at h
      obtain ⟨nr, _, h⟩ := except_bind_eq_ok h
      cases nr with
      | none =>
        simp only [except_pure] at h
        cases h
        exact hsame _ _ (sameGlob_write _ _ _)
      | some c =>
        simp only at h
        obtain ⟨v, hv, h⟩ := except_bind_eq_ok h
        have htail : ∀ σ2, R σ σ2 →
            (solution_is_active sched σ2 a >>= fun a_1 =>
              expand_loop sched rec a d n
                (if a_1 = 0 then σ2.write a { σ2.heap a with active := 0 } else σ2)) = .ok τ →
            R σ τ := by
          intro σ2 h2 ht
          obtain ⟨ra, _, ht⟩ := except_bind_eq_ok ht
          by_cases hra : ra = 0
          · rw [if_pos hra] at ht
            exact htrans _ _ _ (htrans _ _ _ h2 (hsame _ _ (sameGlob_write _ _ _))) (ih _ _ ht)
          · rw [if_neg hra] at ht
            exact htrans _ _ _ h2 (ih _ _ ht)
        have hmid : ∀ σ1, R σ σ1 →
            ((if (σ1.heap c).active ≠ 0 then rec σ1 c (d + 1) else pure σ1) >>= fun σ2 =>
              solution_is_active sched σ2 a >>= fun a_1 =>
                expand_loop sched rec a d n
                  (if a_1 = 0 then σ2.write a { σ2.heap a with active := 0 } else σ2)) = .ok τ →
            R σ τ := by
          intro σ1 h1 hm
          obtain ⟨σ2, hσ2, hm⟩ := except_bind_eq_ok hm
          by_cases hau : (σ1.heap c).active ≠ 0
          · rw [if_pos hau] at hσ2
            exact htail σ2 (htrans _ _ _ h1 (hrec _ _ _ _ hσ2)) hm
          · rw [if_neg hau] at hσ2
            simp only [except_pure] at hσ2
            cases hσ2
            exact htail _ h1 hm
        by_cases hv0 : v ≠ 0
        · rw [if_pos hv0] at h
          obtain ⟨σ1, hσ1, h⟩ := except_bind_eq_ok h
          apply hmid σ1 (hupd σ c v σ1 hv hv0 hσ1)
          by_cases hau : (σ1.heap c).active ≠ 0
          · rw [if_pos hau] at h ⊢
            exact h
          · rw [if_neg hau] at h ⊢
            exact h
        · rw [if_neg hv0] at h
          apply hmid σ (hrefl σ)
          simp only [except_pure, except_ok_bind] at h
          by_cases hau : (σ.heap c).active ≠ 0
          · rw [if_pos hau] at h ⊢
            exact h
          · rw [if_neg hau] at h ⊢
            exact h

/-- A relation between states that every step of the search respects is
respected by `expand_branch`, from the state in which the call has been
counted. -/
theorem expand_branch_rel (sched : schedule_t) (R : State → State → Prop)
    (hrefl : ∀ σ, R σ σ) (htrans : ∀ σ τ υ, R σ τ → R τ υ → R σ υ)
    (hsame : ∀ σ τ, SameGlob σ τ → R σ τ)
    (hcount : ∀ σ, R σ { σ with num_expanded_solutions := σ.num_expanded_solutions + 1 })
    (hupd : ∀ σ c v τ, solution_is_feasible sched (σ.heap c) = .ok v → v ≠ 0 →
      update_incumbent_and_branch sched σ c = .ok τ → R σ τ) :
    ∀ f l σ a d τ, expand_branch sched f l σ a d = .ok τ →
      R { σ with num_expanded_solutions := σ.num_expanded_solutions + 1 } τ := by
  intro f
  induction f with
  | zero => intro l σ a d τ h; simp [expand_branch] at h
  | succ f ih =>
    intro l σ a d τ h
    rw [expand_branch] at h
    simp only at h
    by_cases hd : (d : Int) = sched.num_slots
    · rw [if_pos hd] at h
      simp only [except_pure] at h
      cases h
      exact hrefl _
    · rw [if_neg hd] at h
      by_cases hact : (σ.heap a).active = 0
      · rw [if_pos hact] at h
        simp only [except_pure] at h
        cases h
        exact hrefl _
      · rw [if_neg hact] at h
        obtain ⟨σ1, hσ1, h⟩ := except_bind_eq_ok h
        have h1 := hsame _ _ (create_branch_glob sched _ σ1 a d hσ1)
        refine htrans _ _ _ h1 (expand_loop_rel sched R hrefl htrans hsame hupd
          (expand_branch sched f l) ?_ a d l σ1 τ h)
        intro σ' a' d' τ' h'
        exact htrans _ _ _ (hcount σ') (ih l σ' a' d' τ' h')

end Branchy

/-- A computation that either runs out of fuel or agrees with a second one
keeps doing so when both are continued alike. -/
theorem bind_fuel {α β : Type} (x x' : Except Err α) (f f' : α → Except Err β)
    (hx : x = .error .outOfFuel ∨ x = x')
    (hf : ∀ a, f a = .error .outOfFuel ∨ f a = f' a) :
    (x >>= f) = .error .outOfFuel ∨ (x >>= f) = (x' >>= f') := by
  rcases hx with hx | hx
  · left
    rw [hx]
    rfl
  · subst hx
    cases x with
    | error e => right; rfl
    | ok a => exact hf a

namespace Branchy

/-- More loop fuel and a recursive call with more fuel do not change what the
`while` loop of `expand_branch` computes, once it computes anything. -/
theorem expand_loop_fuel (sched : schedule_t) (rec rec' : State → Nat → Nat → Except Err State)
    (hrec : ∀ σ a d, rec σ a d = .error .outOfFuel ∨ rec σ a d = rec' σ a d) (a d : Nat) :
    ∀ n n' σ, n ≤ n' → (expand_loop sched rec a d n σ = .error .outOfFuel ∨
      expand_loop sched rec a d n σ = expand_loop sched rec' a d n' σ) := by
  intro n
  induction n with
  | zero => intro n' σ _; left; rfl
  | succ n ih =>
    intro n' σ hn
    obtain ⟨m, rfl⟩ : ∃ m, n' = m + 1 := ⟨n' - 1, by omega⟩
    rw [expand_loop, expand_loop]
    by_cases hact : (σ.heap a).active = 0
    · rw [if_pos hact, if_pos hact]
      right; rfl
    · rw [if_neg hact, if_neg hact]
      apply bind_fuel _ _ _ _ (Or.inr rfl)
      intro nr
      cases nr with
      | none => right; rfl
      | some c =>
        simp only
        apply bind_fuel _ _ _ _ (Or.inr rfl)
        intro v
        beta_reduce
        by_cases hv0 : v ≠ 0
        · rw [if_pos hv0, if_pos hv0]
          apply bind_fuel _ _ _ _ (Or.inr rfl)
          intro σ1
          beta_reduce
          by_cases hau : (σ1.heap c).active ≠ 0
          · rw [if_pos hau, if_pos hau]
            apply bind_fuel _ _ _ _ (hrec σ1 c (d + 1))
            intro σ2
            apply bind_fuel _ _ _ _ (Or.inr rfl)
            intro ra
            exact ih m _ (by omega)
          · rw [if_neg hau, if_neg hau]
            apply bind_fuel _ _ _ _ (Or.inr rfl)
            intro σ2
            apply bind_fuel _ _ _ _ (Or.inr rfl)
            intro ra
            exact ih m _ (by omega)
        · rw [if_neg hv0, if_neg hv0]
          apply bind_fuel _ _ _ _ (Or.inr rfl)
          intro σ1
          beta_reduce
          by_cases hau : (σ1.heap c).active ≠ 0
          · rw [if_pos hau, if_pos hau]
            apply bind_fuel _ _ _ _ (hrec σ1 c (d + 1))
            intro σ2
            apply bind_fuel _ _ _ _ (Or.inr rfl)
            intro ra
            exact ih m _ (by omega)
          · rw [if_neg hau, if_neg hau]
            apply bind_fuel _ _ _ _ (Or.inr rfl)
            intro σ2
            apply bind_fuel _ _ _ _ (Or.inr rfl)
            intro ra
            exact ih m _ (by omega)

/-- More fuel does not change what `expand_branch` computes, once it computes
anything. -/
theorem expand_branch_fuel (sched : schedule_t) :
    ∀ d d' l l' σ a k, d ≤ d' → l ≤ l' → (expand_branch sched d l σ a k = .error .outOfFuel ∨
      expand_branch sched d l σ a k = expand_branch sched d' l' σ a k) := by
  intro d
  induction d with
  | zero => intro d' l l' σ a k _ _; left; rfl
  | succ d ih =>
    intro d' l l' σ a k hd hl
    obtain ⟨e, rfl⟩ : ∃ e, d' = e + 1 := ⟨d' - 1, by omega⟩
    rw [expand_branch, expand_branch]
    simp only
    by_cases hk : (k : Int) = sched.num_slots
    · rw [if_pos hk, if_pos hk]
      right; rfl
    · rw [if_neg hk, if_neg hk]
      by_cases hact : (σ.heap a).active = 0
      · rw [if_pos hact, if_pos hact]
        right; rfl
      · rw [if_neg hact, if_neg hact]
        apply bind_fuel _ _ _ _ (Or.inr rfl)
        intro σ1
        exact expand_loop_fuel sched (expand_branch sched d l) (expand_branch sched e l')
          (fun σ a k => ih e l l' σ a k (by omega) hl) a k l l' σ1 hl

/-- More fuel does not change what the search computes, once it computes
anything. -/
theorem run_search_fuel (sched : schedule_t) (d d' l l' : Nat) (hd : d ≤ d') (hl : l ≤ l') :
    run_search sched d l = .error .outOfFuel ∨ run_search sched d l = run_search sched d' l' := by
  unfold run_search
  apply bind_fuel _ _ _ _ (Or.inr rfl)
  intro r
  exact expand_branch_fuel sched d d' l l' r.2 r.1 0 hd hl

/-- A result of the search that is not a lack of fuel is its result for every
larger fuel. -/
theorem run_search_stable (sched : schedule_t) (d l : Nat) (r : Except Err State)
    (h : run_search sched d l = r) (hr : r ≠ .error .outOfFuel) (d' l' : Nat) (hd : d ≤ d')
    (hl : l ≤ l') : run_search sched d' l' = r := by
  rcases run_search_fuel sched d d' l l' hd hl with h1 | h1
  · rw [h] at h1
    exact absurd h1 hr
  · rw [← h1, h]

/-- What a search that returns shows of its final state is shown for every
larger fuel. -/
theorem run_search_map_stable {β : Type} (sched : schedule_t) (d l : Nat) (f : State → β) (y : β)
    (h : (run_search sched d l).map f = .ok y) (d' l' : Nat) (hd : d ≤ d') (hl : l ≤ l') :
    (run_search sched d' l').map f = .ok y := by
  have hne : run_search sched d l ≠ .error .outOfFuel := by
    intro e
    rw [e] at h
    cases h
  rw [run_search_stable sched d l _ rfl hne d' l' hd hl]
  exact h

/-- A result of `method_schedule_compute_solution` that is not a lack of fuel
is its result for every larger fuel. -/
theorem compute_solution_stable (sched : Option schedule_t) (d l : Nat)
    (r : Except Err (List Int)) (h : method_schedule_compute_solution sched d l = r)
    (hr : r ≠ .error .outOfFuel) (d' l' : Nat) (hd : d ≤ d') (hl : l ≤ l') :
    method_schedule_compute_solution sched d' l' = r := by
  cases sched with
  | none => rw [← h]; rfl
  | some s =>
    have hb : method_schedule_compute_solution (some s) d l = .error .outOfFuel ∨
        method_schedule_compute_solution (some s) d l =
          method_schedule_compute_solution (some s) d' l' := by
      unfold method_schedule_compute_solution
      simp only
      exact bind_fuel _ _ _ _ (Or.inr rfl)
        (fun _ => bind_fuel _ _ _ _ (run_search_fuel s d d' l l' hd hl) (fun _ => Or.inr rfl))
    rcases hb with h1 | h1
    · rw [h] at h1
      exact absurd h1 hr
    · rw [← h1, h]

end Branchy

namespace Scheduler

/-- A result of the search of `Scheduler.c` that is not a lack of fuel is its
result for every larger fuel. -/
theorem run_search_stable_scheduler (s : schedule_t) (d l : Nat) (r : Except Err State)
    (h : run_search s d l = r) (hr : r ≠ .error .outOfFuel) (d' l' : Nat) (hd : d ≤ d')
    (hl : l ≤ l') : run_search s d' l' = r := by
  rw [run_search_eq] at h ⊢
  exact Branchy.run_search_stable _ d l r h hr d' l' hd hl

/-- What a search of `Scheduler.c` that returns shows of its final state is
shown for every larger fuel. -/
theorem run_search_map_stable_scheduler {β : Type} (s : schedule_t) (d l : Nat) (f : State → β)
    (y : β) (h : (run_search s d l).map f = .ok y) (d' l' : Nat) (hd : d ≤ d') (hl : l ≤ l') :
    (run_search s d' l').map f = .ok y := by
  rw [run_search_eq] at h ⊢
  exact Branchy.run_search_map_stable _ d l f y h d' l' hd hl

/-- A result of `method_schedule_compute_solution` of `Scheduler.c` that is not
a lack of fuel is its result for every larger fuel. -/
theorem compute_solution_stable_scheduler (s : schedule_t) (d l : Nat)
    (r : Except Err (List Int)) (h : method_schedule_compute_solution (some s) d l = r)
    (hr : r ≠ .error .outOfFuel) (d' l' : Nat) (hd : d ≤ d') (hl : l ≤ l') :
    method_schedule_compute_solution (some s) d' l' = r := by
  rw [method_schedule_compute_solution_eq] at h ⊢
  exact Branchy.compute_solution_stable _ d l r h hr d' l' hd hl

end Scheduler

/-- The C function `fact` reads its argument as a loop bound only. -/
theorem fact_toNat (n : Int) : fact n = fact (n.toNat : Int) := by
  unfold fact
  simp only [Int.toNat_ofNat]

/-- Below `34` the wrapped factorial is neither `0` nor `-1`. -/
theorem fact_small : ∀ m : Nat, m < 34 → fact (m : Int) ≠ 0 ∧ fact (m : Int) ≠ -1 := by
  decide!

/-- The quotient `fact(people) / fact(people - slots)` is computed when
`people - slots` is below `34`. -/
theorem int_div_fact_ok (p s : Int) (h : p - s < 34) :
    ∃ q, int_div (fact p) (fact (p - s)) = .ok q := by
  have hs := fact_small (p - s).toNat (by omega)
  rw [← fact_toNat] at hs
  unfold int_div
  rw [if_neg hs.1, if_neg (fun hc => hs.2 hc.2)]
  exact ⟨_, rfl⟩

theorem okOr_eq_ok (x : Except Err State) (σ : State) (h : x.toBool = true) :
    x = .ok (okOr x σ) := by
  cases x with
  | ok τ => rfl
  | error e => cases h

/-- Pairwise distinct ids below `P` are at most `P` many. -/
theorem length_le_of_nodup_range (L : List Int) (P : Nat) (hnd : L.Nodup)
    (hr : ∀ p ∈ L, 0 ≤ p ∧ p < (P : Int)) : L.length ≤ P := by
  have hsub : L.toFinset ⊆ (Finset.range P).image (fun k : Nat => (k : Int)) := by
    intro x hx
    rw [List.mem_toFinset] at hx
    obtain ⟨h0, h1⟩ := hr x hx
    rw [Finset.mem_image]
    exact ⟨x.toNat, Finset.mem_range.mpr (by omega), by omega⟩
  have hcard := Finset.card_le_card hsub
  rw [List.toFinset_card_of_nodup hnd] at hcard
  exact le_trans hcard (le_trans Finset.card_image_le (by rw [Finset.card_range]))

namespace Branchy

/-- The C function `create_root` leaves the module-level variables alone. -/
theorem create_root_glob (sched : schedule_t) (σ : State) (r : Nat × State)
    (h : create_root sched σ = .ok r) : SameGlob σ r.2 := by
  unfold create_root at h
  obtain ⟨s, _, h⟩ := except_bind_eq_ok h
  simp only [except_pure] at h
  cases h
  exact ⟨rfl, rfl, rfl⟩

theorem root_state_eq (sched : schedule_t) (σr : State)
    (h : create_root sched initial_state = .ok (0, σr)) : root_state sched = σr := by
  unfold root_state
  rw [h]

/-- Every step of the search leaves `incumbent_value` where it is or raises it. -/
theorem step_value_le (sched : schedule_t) (σ τ : State) (h : Step sched σ τ) :
    σ.incumbent_value ≤ τ.incumbent_value := by
  have hrel : ∀ σ τ, SameGlob σ τ → σ.incumbent_value ≤ τ.incumbent_value :=
    fun σ τ hs => le_of_eq hs.2.1.symm
  have hupd : ∀ σ τ s, update_incumbent_and_branch sched σ s = .ok τ →
      σ.incumbent_value ≤ τ.incumbent_value := by
    intro σ τ s hs
    rcases update_incumbent_glob sched σ τ s hs with hsame | ⟨hlt, _, hv, _⟩
    · exact hrel σ τ hsame
    · rw [hv]; exact le_of_lt hlt
  cases h
  case update s hs => exact hupd σ τ s hs
  case create root depth hc => exact hrel σ τ (create_branch_glob sched σ τ root depth hc)
  case select branch r hsel => exact le_refl _
  case prune b hp => exact hrel σ τ (prune_branch_glob sched σ τ b hp)
  case expand d l root depth he =>
    exact expand_branch_rel sched (fun σ τ => σ.incumbent_value ≤ τ.incumbent_value)
      (fun _ => le_refl _) (fun _ _ _ h1 h2 => le_trans h1 h2)
      hrel (fun _ => le_refl _) (fun σ c v τ _ _ hu => hupd σ τ c hu)
      d l σ root depth τ he

end Branchy

/-- C1 (code bug): on the 3 x 3 schedule with the weight rows `[7,6,5]`,
`[8,2,4]`, `[9,3,1]` `method_schedule_compute_solution` returns, for every fuel
of at least 3 levels and 4 loop evaluations, the assignment `[2, 1, 0]` and
holds the incumbent value `22`, although the true weight of that assignment is
`9 + 2 + 5 = 16` and the permutation `[2, 0, 1]` has the true weight
`9 + 6 + 4 = 19`: the result is not the weight-maximizing permutation. -/
theorem compute_solution_nine_not_optimal :
    Branchy.schedule_of 3 [([7, 6, 5], []), ([8, 2, 4], []), ([9, 3, 1], [])]
      = some Branchy.nine ∧
    (∀ d l, 3 ≤ d → 4 ≤ l →
      Branchy.method_schedule_compute_solution (some Branchy.nine) d l = .ok [2, 1, 0] ∧
      (Branchy.run_search Branchy.nine d l).map (fun τ => τ.incumbent_value) = .ok 22) ∧
    Branchy.assignment_weight Branchy.nine [2, 1, 0] = 16 ∧
    Branchy.assignment_weight Branchy.nine [2, 0, 1] = 19 :=
  ⟨by decide!,
    fun d l hd hl =>
      ⟨Branchy.compute_solution_stable _ 3 4 _ (by decide!) (by decide) d l hd hl,
        Branchy.run_search_map_stable _ 3 4 _ _ (by decide!) d l hd hl⟩,
    by decide!, by decide!⟩

/-- C3: for `num_slots = 2` and the weight rows `[5,1]`, `[1,5]`, `[3,3]`
`method_schedule_compute_solution` of `Scheduler.c` returns the ids `[0, 1]`,
and the `total_weight` of the final incumbent is `10`, for every fuel of at
least 2 levels and 4 loop evaluations. -/
theorem compute_solution_specialists :
    Scheduler.schedule_of 2 [[5, 1], [1, 5], [3, 3]] = some Scheduler.specialists ∧
    ∀ d l, 2 ≤ d → 4 ≤ l →
      Scheduler.method_schedule_compute_solution (some Scheduler.specialists) d l
        = .ok [0, 1] ∧
      (Scheduler.run_search Scheduler.specialists d l).map
          (fun τ => τ.incumbent_solution.map (fun p => (τ.heap p).total_weight))
        = .ok (some 10) :=
  ⟨by decide!,
    fun d l hd hl =>
      ⟨Scheduler.compute_solution_stable_scheduler _ 2 4 _ (by decide!) (by decide) d l hd hl,
        Scheduler.run_search_map_stable_scheduler _ 2 4 _ _ (by decide!) d l hd hl⟩⟩

/-- C5: every step of a run of the search (a call of
`update_incumbent_and_branch`, `create_branch`, `select_branch`, `prune_branch`
or `expand_branch` that returns) leaves `incumbent_value` at least as large as
it was; the run starts from the value `-1`, and the value is at least `-1` when
the search returns. -/
theorem incumbent_value_never_decreases (sched : Branchy.schedule_t) (σ τ : State)
    (h : Branchy.Step sched σ τ) :
    σ.incumbent_value ≤ τ.incumbent_value ∧
      Branchy.initial_state.incumbent_value = -1 ∧
      ∀ d l υ, Branchy.run_search sched d l = .ok υ → -1 ≤ υ.incumbent_value := by
  refine ⟨Branchy.step_value_le sched σ τ h, rfl, ?_⟩
  intro d l υ hrun
  unfold Branchy.run_search at hrun
  obtain ⟨r, hr, hexp⟩ := except_bind_eq_ok hrun
  have h1 := (Branchy.create_root_glob sched _ r hr).2.1
  have h2 := Branchy.step_value_le sched _ _ (Branchy.Step.expand _ _ d l _ _ hexp)
  rw [h1] at h2
  exact h2

/-- The hypothesis of `incumbent_value_never_decreases` at the call
`expand_branch(root, 0)` of the run on the weight rows `[5,1]`, `[1,5]`,
`[3,3]`, which raises the value from `-1` to `10`. -/
theorem incumbent_value_never_decreases_witness :
    (Branchy.root_state Branchy.specialists).incumbent_value = -1 ∧
    (okOr (Branchy.expand_branch Branchy.specialists 2 4
        (Branchy.root_state Branchy.specialists) 0 0) Branchy.initial_state).incumbent_value
      = 10 ∧
    (Branchy.root_state Branchy.specialists).incumbent_value ≤
      (okOr (Branchy.expand_branch Branchy.specialists 2 4
        (Branchy.root_state Branchy.specialists) 0 0) Branchy.initial_state).incumbent_value :=
  ⟨by decide!, by decide!,
    (incumbent_value_never_decreases Branchy.specialists _ _
      (Branchy.Step.expand _ _ 2 4 0 0 (okOr_eq_ok _ _ (by decide!)))).1⟩

/-- C6: on a node whose `num_slots` slots hold ids in `0..num_people-1`,
`solution_is_feasible` (of `branchy.c` and of `Scheduler.c`) returns `1` if and
only if these ids are pairwise distinct, and returns `0` whenever an id is
repeated. -/
theorem solution_is_feasible_iff_distinct (bs : Branchy.schedule_t) (ss : Scheduler.schedule_t)
    (s : solution_t) (P S : Nat)
    (hbP : bs.num_people = P) (hbS : bs.num_slots = S)
    (hsP : ss.num_people = P) (hsS : ss.num_slots = S)
    (hlen : S ≤ s.node_list.length)
    (hrange : ∀ p ∈ slot_ids s.node_list S, 0 ≤ p ∧ p < (P : Int)) :
    (Branchy.solution_is_feasible bs s = .ok 1 ↔ (slot_ids s.node_list S).Nodup) ∧
    (¬ (slot_ids s.node_list S).Nodup → Branchy.solution_is_feasible bs s = .ok 0) ∧
    (Scheduler.solution_is_feasible ss s = .ok 1 ↔ (slot_ids s.node_list S).Nodup) ∧
    (¬ (slot_ids s.node_list S).Nodup → Scheduler.solution_is_feasible ss s = .ok 0) := by
  have hb := Branchy.solution_is_feasible_eq bs s P S hbP hbS hlen hrange
  have hs : Scheduler.solution_is_feasible ss s =
      .ok (if (slot_ids s.node_list S).Nodup then 1 else 0) := by
    rw [Scheduler.solution_is_feasible_eq_branchy]
    exact Branchy.solution_is_feasible_eq (Scheduler.toBranchy ss) s P S hsP hsS hlen hrange
  rw [hb, hs]
  by_cases hnd : (slot_ids s.node_list S).Nodup
  · simp [hnd]
  · simp [hnd]

/-- The hypotheses of `solution_is_feasible_iff_distinct` at a node with the
slot ids `[0, 1]` and at one with the slot ids `[1, 1]`. -/
theorem solution_is_feasible_iff_distinct_witness :
    (Branchy.solution_is_feasible Branchy.specialists
        { solution_t.zero with node_list := [⟨0, 5⟩, ⟨1, 5⟩] } = .ok 1 ↔
      (slot_ids [⟨0, 5⟩, ⟨1, 5⟩] 2).Nodup) ∧
    Scheduler.solution_is_feasible Scheduler.specialists
        { solution_t.zero with node_list := [⟨1, 1⟩, ⟨1, 5⟩] } = .ok 0 :=
  ⟨(solution_is_feasible_iff_distinct Branchy.specialists Scheduler.specialists
      { solution_t.zero with node_list := [⟨0, 5⟩, ⟨1, 5⟩] } 3 2 rfl rfl rfl rfl (by decide)
      (by decide)).1,
   (solution_is_feasible_iff_distinct Branchy.specialists Scheduler.specialists
      { solution_t.zero with node_list := [⟨1, 1⟩, ⟨1, 5⟩] } 3 2 rfl rfl rfl rfl (by decide)
      (by decide)).2.2.2 (by decide)⟩

/-- C9 (code bug): with `num_slots = 2` and no entity the search of `Scheduler.c`
ends without an incumbent and `method_schedule_compute_solution` then reads the
slots of the null incumbent: the run stops with a null dereference instead of
reporting that there is no solution, for every fuel. -/
theorem compute_solution_empty_null_deref :
    Scheduler.schedule_of 2 [] = some Scheduler.empty ∧
    ∀ d l, 1 ≤ d → 1 ≤ l →
      (Scheduler.run_search Scheduler.empty d l).map
          (fun τ => (τ.incumbent_solution, τ.num_expanded_solutions)) = .ok (none, 1) ∧
      Scheduler.method_schedule_compute_solution (some Scheduler.empty) d l =
        .error .nullDeref :=
  ⟨by decide!,
    fun d l hd hl =>
      ⟨Scheduler.run_search_map_stable_scheduler _ 1 1 _ _ (by decide!) d l hd hl,
        Scheduler.compute_solution_stable_scheduler _ 1 1 _ (by decide!) (by decide) d l hd hl⟩⟩

/-- C10: when the length of the weight row differs from `num_slots`,
`method_schedule_set_weight` (of `branchy.c` and of `Scheduler.c`) returns false
and leaves the schedule, with `num_people`, every weight row and every
attribute set, as it was. -/
theorem set_weight_wrong_length (bs : Branchy.schedule_t) (ss : Scheduler.schedule_t)
    (weights : List ℚ) (attribute_ids : List Int)
    (hb : (weights.length : Int) ≠ bs.num_slots) (hs : (weights.length : Int) ≠ ss.num_slots) :
    Branchy.method_schedule_set_weight (some bs) weights attribute_ids = (some bs, false) ∧
    Scheduler.method_schedule_set_weight (some ss) weights = (some ss, false) := by
  constructor
  · simp [Branchy.method_schedule_set_weight, hb]
  · simp [Scheduler.method_schedule_set_weight, hs]

/-- The hypotheses of `set_weight_wrong_length` for a row of three weights and
schedules of two slots. -/
theorem set_weight_wrong_length_witness :
    Branchy.method_schedule_set_weight (some Branchy.specialists) [1, 2, 3] [4]
      = (some Branchy.specialists, false) ∧
    Scheduler.method_schedule_set_weight (some Scheduler.specialists) [1, 2, 3]
      = (some Scheduler.specialists, false) :=
  set_weight_wrong_length Branchy.specialists Scheduler.specialists [1, 2, 3] [4]
    (by decide) (by decide)

theorem slot_ids_get (l : List node_t) (n j : Nat) (nd : node_t) (hj : j < n)
    (h : l[j]? = some nd) : (slot_ids l n)[j]? = some nd.person_id := by
  unfold slot_ids
  rw [List.getElem?_map, List.getElem?_take, if_pos hj, h]
  rfl

/-- Two different slots of a node with pairwise distinct ids hold different ids. -/
theorem slot_ids_ne (l : List node_t) (n i j : Nat) (a b : node_t) (hnd : (slot_ids l n).Nodup)
    (hij : i < j) (hj : j < n) (hjl : j < l.length)
    (ha : l[i]? = some a) (hb : l[j]? = some b) : a.person_id ≠ b.person_id := by
  intro heq
  have h1 := slot_ids_get l n i a (by omega) ha
  have h2 := slot_ids_get l n j b hj hb
  by_cases hn : n ≤ l.length
  · exact (List.nodup_iff_getElem?_ne_getElem?.mp hnd) i j hij
      (by rw [slot_ids_length l n hn]; exact hj) (by rw [h1, h2, heq])
  · have hlen' : j < (slot_ids l n).length := by
      unfold slot_ids
      simp
      omega
    exact (List.nodup_iff_getElem?_ne_getElem?.mp hnd) i j hij hlen' (by rw [h1, h2, heq])

namespace Branchy

/-- The pick of `max_cost_for_slot` does not change when entities other than
the picked one are marked as used. -/
theorem maxCostResult_restrict (sched : schedule_t) (j P : Nat) (m m' : List Int)
    (res res' : ℚ × Int) (h : MaxCostResult sched j m P res)
    (h' : MaxCostResult sched j m' P res') (k : Nat) (hk : res.2 = (k : Int))
    (hsub : ∀ i, i < P → m'[i]? = some 0 → m[i]? = some 0) (hk' : m'[k]? = some 0) :
    res' = res := by
  rcases h with ⟨h0, _, _⟩ | ⟨k1, hk1, h2, h3, h4, h5, h6, h7⟩
  · rw [hk] at h0; omega
  · have hkk : k1 = k := by rw [hk] at h2; exact_mod_cast h2.symm
    subst hkk
    rcases h' with ⟨_, _, g3⟩ | ⟨k2, hk2, g2, g3, g4, g5, g6, g7⟩
    · have := g3 k1 hk1 hk'
      rw [h4] at h5
      exact absurd (lt_of_lt_of_le h5 this) (lt_irrefl _)
    · have e1 : wt sched k1 j ≤ wt sched k2 j := by
        have := g6 k1 hk1 hk'
        rw [g4] at this
        exact this
      have e2 : wt sched k2 j ≤ wt sched k1 j := by
        have := h6 k2 hk2 (hsub k2 hk2 g3)
        rw [h4] at this
        exact this
      have e3 : ¬ k2 < k1 := by
        intro hlt
        have := h7 k2 hlt (hsub k2 hk2 g3)
        rw [h4] at this
        exact absurd (lt_of_lt_of_le this e1) (lt_irrefl _)
      have e4 : ¬ k1 < k2 := by
        intro hlt
        have := g7 k1 hlt hk'
        rw [g4] at this
        exact absurd (lt_of_lt_of_le this e2) (lt_irrefl _)
      have hkk : k2 = k1 := by omega
      subst hkk
      exact Prod.ext (by rw [g4, h4]) (by rw [g2, h2])

end Branchy

namespace Branchy

/-- On non-negative weights `max_cost_for_slot` picks an entity as soon as one
is unused. -/
theorem maxCostResult_pick (sched : schedule_t) (hnn : NonNeg sched) (j P : Nat) (m : List Int)
    (res : ℚ × Int) (h : MaxCostResult sched j m P res) (i : Nat) (hi : i < P)
    (hm : m[i]? = some 0) :
    ∃ k : Nat, k < P ∧ res.2 = (k : Int) ∧ res.1 = wt sched k j := by
  rcases h with ⟨_, _, h3⟩ | ⟨k, hk, h2, _, h4, _⟩
  · have h1 := h3 i hi hm
    have h2 := wt_nonneg sched hnn i j
    unfold SLOT_WEIGHT_INITIAL_VAL at h1
    linarith
  · exact ⟨k, hk, h2, h4⟩

/-- The child of a feasible root built for the entity of the root's slot 0
repeats the slots of the root. -/
theorem first_child_node_list (sched : schedule_t) (hnn : NonNeg sched) (S : Nat)
    (hS : sched.num_slots = S) (r ch : solution_t) (hr : IsRoot sched r)
    (hnd : (slot_ids r.node_list S).Nodup) (i0 cb : Nat) (iv : ℚ)
    (hi0 : i0 < sched.weights.length)
    (h0 : r.node_list[0]? = some { person_id := (i0 : Int), weight := wt sched i0 0 })
    (hc : IsChild sched r.node_list 0 0 i0 cb iv ch) : ch.node_list = r.node_list := by
  have hS' := toNat_slots sched S hS
  apply List.ext_getElem?
  intro j
  by_cases hj0 : j = 0
  · subst hj0
    rw [hc.locked, h0]
  by_cases hjS : j < S
  · obtain ⟨res, hres, hg⟩ := hr.filled j (by omega)
    obtain ⟨res', hres', hg'⟩ := hc.filled j (by omega) (by omega)
    obtain ⟨k, hk, hk2, _⟩ := maxCostResult_pick sched hnn j _ _ res hres i0 hi0
      (List.getElem?_replicate_of_lt hi0)
    have hne : (i0 : Int) ≠ res.2 := by
      have := slot_ids_ne r.node_list S 0 j _ _ hnd (by omega) hjS
        (by rw [hr.list_len, hS']; exact hjS) h0 hg
      exact this
    have hk' : ch.used_person_id_map[k]? = some 0 := by
      rw [hc.map_get k hk]
      have : ¬ ((k : Int) ∈ slot_ids r.node_list 0 ++ [(i0 : Int)]) := by
        unfold slot_ids
        simp only [List.take_zero, List.map_nil, List.nil_append, List.mem_singleton]
        intro h
        exact hne (by rw [hk2, h])
      rw [if_neg this]
    have heq := maxCostResult_restrict sched j _ _ _ res res' hres hres' k hk2
      (fun i hi _ => List.getElem?_replicate_of_lt hi) hk'
    rw [hg', hg, heq]
  · rw [List.getElem?_eq_none (by rw [hc.list_len, hS']; omega),
      List.getElem?_eq_none (by rw [hr.list_len, hS']; omega)]

end Branchy

/-- C4 (counterexample): on the schedule with the weight rows `[-1/2,-2]`,
`[-2,-3/4]` over two slots the root built by `create_root` holds the ids
`[0,1]`, `solution_is_feasible` accepts it, its `total_weight` is `-5/4`, and
the search ends without any incumbent, whatever the fuel, so that no final
incumbent of at least that weight exists. -/
theorem incumbent_below_root_fractions :
    Branchy.schedule_of 2 [([-1/2, -2], []), ([-2, -3/4], [])] = some Branchy.fractions ∧
    slot_ids ((Branchy.root_state Branchy.fractions).heap 0).node_list 2 = [0, 1] ∧
    Branchy.solution_is_feasible Branchy.fractions
      ((Branchy.root_state Branchy.fractions).heap 0) = .ok 1 ∧
    ((Branchy.root_state Branchy.fractions).heap 0).total_weight = -5/4 ∧
    ∀ d l, 1 ≤ d → 2 ≤ l →
      (Branchy.run_search Branchy.fractions d l).map (fun τ => τ.incumbent_solution)
        = .ok none ∧
      Branchy.method_schedule_compute_solution (some Branchy.fractions) d l
        = .error .nullDeref :=
  ⟨by decide!, by decide!, by decide!, by decide!,
    fun d l hd hl =>
      ⟨Branchy.run_search_map_stable _ 1 2 _ _ (by decide!) d l hd hl,
        Branchy.compute_solution_stable _ 1 2 _ (by decide!) (by decide) d l hd hl⟩⟩

/-- C4 (amended): on every schedule with `num_slots >= 1` and non-negative
weights whose root built by `create_root` is accepted by `solution_is_feasible`,
the search returns with an incumbent whose `total_weight` is greater than or
equal to the `total_weight` of the root. -/
theorem incumbent_at_least_root (sched : Branchy.schedule_t) (hwf : Branchy.WellFormed sched)
    (hslots : 1 ≤ sched.num_slots) (hnn : Branchy.NonNeg sched)
    (hroot : Branchy.solution_is_feasible sched ((Branchy.root_state sched).heap 0) = .ok 1)
    (d l : Nat) (hd : sched.num_slots.toNat ≤ d) (hl : sched.num_people.toNat + 1 ≤ l) :
    ∃ τ p, Branchy.run_search sched d l = .ok τ ∧ τ.incumbent_solution = some p ∧
      ((Branchy.root_state sched).heap 0).total_weight ≤ (τ.heap p).total_weight := by
  have hS : sched.num_slots = (sched.num_slots.toNat : Int) := by omega
  have hS1 : 1 ≤ sched.num_slots.toNat := by omega
  generalize sched.num_slots.toNat = S at hS hS1 hd
  have hS' := Branchy.toNat_slots sched S hS
  rw [Branchy.toNat_people sched hwf] at hl
  obtain ⟨σr, hσr, hrs, hspec⟩ := Branchy.run_search_spec sched hwf S hS d l hd (by omega) hl
  rw [Branchy.root_state_eq sched σr hσr] at hroot ⊢
  obtain ⟨hpr, _, _, htop, hact⟩ := Branchy.rootState_pristine sched hwf S hS σr hrs
  obtain ⟨hlen, hrange, hval⟩ := Branchy.solution_is_feasible_ok sched (σr.heap 0)
    sched.weights.length S hwf.1 hS 1 hroot
  have hnd : (slot_ids (σr.heap 0).node_list S).Nodup := by
    by_contra hcon
    rw [if_neg hcon] at hval
    exact absurd hval (by decide)
  have hSP : S ≤ sched.weights.length := by
    have := length_le_of_nodup_range _ _ hnd hrange
    rwa [slot_ids_length _ _ hlen] at this
  have hnice : Branchy.Nice sched := ⟨hnn, by rw [hwf.1, hS]; exact_mod_cast hSP⟩
  rcases hspec with ⟨_, hn⟩ | ⟨τ, hτ, hpost⟩
  · exact absurd hnice hn
  have hdS : ((0 : Nat) : Int) < sched.num_slots := by
    rw [hS]
    exact_mod_cast hS1
  obtain ⟨p, hinc⟩ := Option.ne_none_iff_exists'.mp (hpost.found hnice htop hact hdS)
  refine ⟨τ, p, hτ, hinc, ?_⟩
  rw [(hpost.ginv.some_spec p hinc).2.2.2.2.2]
  obtain ⟨res0, hm0, hg0⟩ := hrs.root.filled 0 (by omega)
  obtain ⟨i0, hi0, h2, h4⟩ := Branchy.maxCostResult_pick sched hnn 0 _ _ res0 hm0 0 (by omega)
    (List.getElem?_replicate_of_lt (by omega))
  have hg0' : (σr.heap 0).node_list[0]? =
      some { person_id := (i0 : Int), weight := Branchy.wt sched i0 0 } := by
    rw [hg0, h2, h4]
  have hfree : (σr.heap 0).used_person_id_map[i0]? ≠ some 1 := by
    rw [hrs.root.map, List.getElem?_replicate_of_lt hi0]
    decide
  obtain ⟨ch, cbi, hic, _, hbest⟩ := hpost.kids hact hdS i0 hi0 hfree
  have hnl := Branchy.first_child_node_list sched hnn S hS (σr.heap 0) ch hrs.root hnd i0 cbi _
    hi0 hg0' hic
  have hw : ch.total_weight = (σr.heap 0).total_weight := by
    rw [hic.weight, hnl, hrs.root.weight]
  have hw0 : 0 ≤ (σr.heap 0).total_weight := by
    rw [hrs.root.weight]
    exact Branchy.weight_sum_nonneg _ _ (Branchy.isRoot_nice sched hwf S hS _ hrs.root hnice).2
  have hactive : ch.active = 1 := by
    rw [hic.active, hrs.value, hw, if_neg]
    unfold SLOT_WEIGHT_INITIAL_VAL
    linarith
  have hfeas : Branchy.FeasibleNode sched ch := by
    unfold Branchy.FeasibleNode
    rw [hnl, hS']
    exact ⟨hrange, hnd⟩
  have hvis : i0 < Branchy.unused_below (σr.heap 0).used_person_id_map sched.weights.length := by
    rw [Branchy.total_children_top sched (σr.heap 0) 0 hpr.locked htop]
    omega
  rw [← hw]
  exact hbest hvis hactive hfeas

/-- The hypotheses of `incumbent_at_least_root` on the weight rows `[5,1]`,
`[1,5]`, `[3,3]`, whose root holds the ids `[0,1]`. -/
theorem incumbent_at_least_root_witness :
    ∃ τ p, Branchy.run_search Branchy.specialists 2 4 = .ok τ ∧ τ.incumbent_solution = some p ∧
      ((Branchy.root_state Branchy.specialists).heap 0).total_weight ≤ (τ.heap p).total_weight :=
  incumbent_at_least_root Branchy.specialists (by unfold Branchy.WellFormed; decide)
    (by decide) (by unfold Branchy.NonNeg; decide!) (by decide!) 2 4 (by decide) (by decide)

namespace Branchy

theorem solution_is_active_loop_forget (bs : schedule_t) (σ : State) (n : solution_t) :
    ∀ k i, solution_is_active_loop bs σ n k i =
      Scheduler.solution_is_active_loop (Scheduler.ofBranchy bs) σ n k i := by
  intro k
  induction k with
  | zero => intro i; rfl
  | succ k ih =>
    intro i
    unfold solution_is_active_loop Scheduler.solution_is_active_loop
    simp only [ih]
    rfl

theorem solution_is_active_forget (bs : schedule_t) (σ : State) (a : Nat) :
    solution_is_active bs σ a = Scheduler.solution_is_active (Scheduler.ofBranchy bs) σ a := by
  unfold solution_is_active Scheduler.solution_is_active
  exact solution_is_active_loop_forget bs σ _ _ _

theorem select_branch_forget (bs : schedule_t) (σ : State) (a : Nat) :
    select_branch bs σ a = Scheduler.select_branch (Scheduler.ofBranchy bs) σ a := by
  unfold select_branch Scheduler.select_branch
  rw [Scheduler.nearest_active_eq]
  rfl

theorem expand_loop_forget (bs : schedule_t) (rec rec' : State → Nat → Nat → Except Err State)
    (hrec : rec = rec') (a d : Nat) :
    ∀ n σ, expand_loop bs rec a d n σ =
      Scheduler.expand_loop (Scheduler.ofBranchy bs) rec' a d n σ := by
  subst hrec
  intro n
  induction n with
  | zero => intro σ; rfl
  | succ n ih =>
    intro σ
    rw [expand_loop, Scheduler.expand_loop]
    simp only [ih, select_branch_forget, solution_is_active_forget]
    rfl

theorem expand_branch_forget (bs : schedule_t) :
    ∀ d l σ a k, expand_branch bs d l σ a k =
      Scheduler.expand_branch (Scheduler.ofBranchy bs) d l σ a k := by
  intro d
  induction d with
  | zero => intro l σ a k; rfl
  | succ d ih =>
    intro l σ a k
    rw [expand_branch, Scheduler.expand_branch]
    have hrec : expand_branch bs d l = Scheduler.expand_branch (Scheduler.ofBranchy bs) d l := by
      funext σ a k
      exact ih l σ a k
    simp only [expand_loop_forget bs _ _ hrec]
    rfl

theorem run_search_forget (bs : schedule_t) (d l : Nat) :
    run_search bs d l = Scheduler.run_search (Scheduler.ofBranchy bs) d l := by
  unfold run_search Scheduler.run_search
  simp only [expand_branch_forget]
  rfl

theorem compute_solution_forget (bs : schedule_t) (d l : Nat) :
    method_schedule_compute_solution (some bs) d l =
      Scheduler.method_schedule_compute_solution (some (Scheduler.ofBranchy bs)) d l := by
  unfold method_schedule_compute_solution Scheduler.method_schedule_compute_solution
  simp only [run_search_forget]
  rfl

/-- The two bindings build corresponding schedules from the same rows. -/
theorem schedule_of_forget (n : Int) (rows : List (List ℚ × List Int)) :
    (schedule_of n rows).map Scheduler.ofBranchy =
      Scheduler.schedule_of n (rows.map Prod.fst) := by
  unfold schedule_of Scheduler.schedule_of
  have key : ∀ (rows : List (List ℚ × List Int)) (b : Option schedule_t)
      (s : Option Scheduler.schedule_t), b.map Scheduler.ofBranchy = s →
      (rows.foldl (fun s r => (method_schedule_set_weight s r.1 r.2).1) b).map
          Scheduler.ofBranchy =
        (rows.map Prod.fst).foldl (fun s r => (Scheduler.method_schedule_set_weight s r).1) s := by
    intro rows
    induction rows with
    | nil => intro b s h; exact h
    | cons r rows ih =>
      intro b s h
      simp only [List.foldl_cons, List.map_cons]
      apply ih
      cases b with
      | none =>
        cases s with
        | none => rfl
        | some s => cases h
      | some b =>
        cases s with
        | none => cases h
        | some s =>
          simp only [Option.map_some', Option.some.injEq] at h
          subst h
          unfold method_schedule_set_weight Scheduler.method_schedule_set_weight
          simp only [Scheduler.ofBranchy]
          by_cases hlen : (r.1.length : Int) ≠ b.num_slots
          · rw [if_pos hlen, if_pos hlen]
            rfl
          · rw [if_neg hlen, if_neg hlen]
            rfl
  exact key rows _ _ rfl

end Branchy

/-- C11 (counterexample): the row `[16777217, 0]` added to an empty schedule
of two slots is stored as `[16777216, 0]` by `method_schedule_set_weight` of
both files: the weights are kept in `float` objects, and `16777217` is not a
single-precision value. -/
theorem set_weight_rounds_row :
    float_of 16777217 = 16777216 ∧
    (Branchy.method_schedule_set_weight (Branchy.method_schedule_create 2)
        [16777217, 0] []).1.map (fun s => s.weights) = some [[16777216, 0]] ∧
    (Scheduler.method_schedule_set_weight (Scheduler.method_schedule_create 2)
        [16777217, 0]).1.map (fun s => s.weights) = some [[16777216, 0]] := by
  decide!

/-- C11 (amended): for a weight row of length `num_slots`,
`method_schedule_set_weight` (of `branchy.c` and of `Scheduler.c`) returns true,
raises `num_people` by one, stores the row, each weight converted to `float`
(`float_of`; so the row itself when every weight is a single-precision value
below `2 ^ 128` in magnitude), and, in
`branchy.c`, the attribute list under the entity id that `num_people` was
before, and leaves the rows and attribute sets of the earlier entities,
`num_slots` and the constraint sets as they were. -/
theorem set_weight_appends (bs : Branchy.schedule_t) (ss : Scheduler.schedule_t)
    (weights : List ℚ) (attribute_ids : List Int)
    (hb : (weights.length : Int) = bs.num_slots) (hs : (weights.length : Int) = ss.num_slots)
    (hbw : bs.num_people = bs.weights.length) (hba : bs.attribs.length = bs.weights.length)
    (hsw : ss.num_people = ss.weights.length) :
    (∃ bs', Branchy.method_schedule_set_weight (some bs) weights attribute_ids
        = (some bs', true) ∧
      bs'.num_people = bs.num_people + 1 ∧
      bs'.weights.length = bs.weights.length + 1 ∧
      bs'.attribs.length = bs.attribs.length + 1 ∧
      bs'.weights[bs.num_people.toNat]? = some (weights.map float_of) ∧
      ((∀ w ∈ weights, IsFloat w) → bs'.weights[bs.num_people.toNat]? = some weights) ∧
      bs'.attribs[bs.num_people.toNat]? = some ⟨attribute_ids.length, attribute_ids⟩ ∧
      (∀ i, i < bs.weights.length →
        bs'.weights[i]? = bs.weights[i]? ∧ bs'.attribs[i]? = bs.attribs[i]?) ∧
      bs'.num_slots = bs.num_slots ∧ bs'.num_constraints = bs.num_constraints ∧
      bs'.constraints = bs.constraints) ∧
    (∃ ss', Scheduler.method_schedule_set_weight (some ss) weights = (some ss', true) ∧
      ss'.num_people = ss.num_people + 1 ∧
      ss'.weights.length = ss.weights.length + 1 ∧
      ss'.weights[ss.num_people.toNat]? = some (weights.map float_of) ∧
      ((∀ w ∈ weights, IsFloat w) → ss'.weights[ss.num_people.toNat]? = some weights) ∧
      (∀ i, i < ss.weights.length → ss'.weights[i]? = ss.weights[i]?) ∧
      ss'.num_slots = ss.num_slots) := by
  have hsame : (∀ w ∈ weights, IsFloat w) → weights.map float_of = weights := by
    intro h
    conv_rhs => rw [← List.map_id weights]
    exact List.map_congr_left (fun w hw => by rw [(h w hw).1]; rfl)
  constructor
  · refine ⟨{ bs with num_people := bs.num_people + 1,
                      weights := bs.weights ++ [weights.map float_of],
                      attribs := bs.attribs ++
                        [{ num_values := attribute_ids.length, values := attribute_ids }] },
      ?_, rfl, by simp, by simp, ?_, ?_, ?_, ?_, rfl, rfl, rfl⟩
    · unfold Branchy.method_schedule_set_weight
      simp only
      rw [if_neg (by rw [hb]; simp)]
    · rw [hbw]
      simp
    · intro h
      rw [hbw]
      simp [hsame h]
    · rw [hbw]
      simp only [Int.toNat_ofNat]
      rw [List.getElem?_append_right (by omega)]
      simp [hba]
    · intro i hi
      exact ⟨List.getElem?_append_left (by omega), List.getElem?_append_left (by omega)⟩
  · refine ⟨{ ss with num_people := ss.num_people + 1,
                      weights := ss.weights ++ [weights.map float_of] },
      ?_, rfl, by simp, ?_, ?_, ?_, rfl⟩
    · unfold Scheduler.method_schedule_set_weight
      simp only
      rw [if_neg (by rw [hs]; simp)]
    · rw [hsw]
      simp
    · intro h
      rw [hsw]
      simp [hsame h]
    · intro i hi
      exact List.getElem?_append_left (by omega)

/-- The hypotheses of `set_weight_appends` for the row `[2, 4]` (with the
attributes `[7, 8]`) added as a fourth entity to schedules of two slots. -/
theorem set_weight_appends_witness :
    (∃ bs', Branchy.method_schedule_set_weight (some Branchy.specialists) [2, 4] [7, 8]
        = (some bs', true) ∧
      bs'.num_people = 4 ∧ bs'.weights[3]? = some [2, 4] ∧
      bs'.attribs[3]? = some ⟨2, [7, 8]⟩) ∧
    (∃ ss', Scheduler.method_schedule_set_weight (some Scheduler.specialists) [2, 4]
        = (some ss', true) ∧
      ss'.num_people = 4 ∧ ss'.weights[3]? = some [2, 4]) := by
  obtain ⟨⟨bs', h1, h2, _, _, _, h3, h4, _⟩, ⟨ss', g1, g2, _, _, g3, _⟩⟩ :=
    set_weight_appends Branchy.specialists Scheduler.specialists [2, 4] [7, 8]
      (by decide) (by decide) (by decide) (by decide) (by decide)
  exact ⟨⟨bs', h1, h2, h3 (by decide!), h4⟩, ⟨ss', g1, g2, g3 (by decide!)⟩⟩

/-- C12 (code bug): after `schedule_create(2)` and one entity with the row
`[1, 2]` and the attribute `7`, `method_schedule_set_constraints` with the tags
`[5]` returns true and raises `num_constraints` to one, but the new constraint
set holds `[0]` instead of `[5]`, and the attribute set of entity `0` has
become `[5]`: the tags are stored through `sched->attribs[index]->values`.
With no entity the same read is a null dereference, and with more tags than
entity `0` has attributes the loop writes past the end of that array. -/
theorem set_constraints_writes_attribs :
    Branchy.schedule_of 2 [([1, 2], [7])] = some Branchy.tagged ∧
    Branchy.method_schedule_set_constraints (some Branchy.tagged) [5] =
      .ok (some { Branchy.tagged with
                    num_constraints := 1, constraints := [⟨1, [0]⟩], attribs := [⟨1, [5]⟩] },
           true) ∧
    Branchy.method_schedule_set_constraints (Branchy.method_schedule_create 2) [5]
      = .error .nullDeref ∧
    Branchy.method_schedule_set_constraints (some Branchy.tagged) [5, 6]
      = .error .outOfBounds := by
  decide!

/-- C13: on the same `num_people`, `num_slots` and weights the search of
`branchy.c` computes what the search of `Scheduler.c` computes, whatever the
attribute and constraint sets are, and so in particular when
`num_constraints` is `0`: `create_root`, `create_branch`, `select_branch`,
`update_incumbent_and_branch` and `expand_branch` return the same state, and
`method_schedule_compute_solution` the same final state (with its
`incumbent_value`) and the same id sequence; the two bindings build
corresponding schedules from the same weight rows. -/
theorem constrained_equals_unconstrained (bs : Branchy.schedule_t) :
    (∀ σ, Branchy.create_root bs σ = Scheduler.create_root (Scheduler.ofBranchy bs) σ) ∧
    (∀ σ a d, Branchy.create_branch bs σ a d =
      Scheduler.create_branch (Scheduler.ofBranchy bs) σ a d) ∧
    (∀ σ a, Branchy.select_branch bs σ a =
      Scheduler.select_branch (Scheduler.ofBranchy bs) σ a) ∧
    (∀ σ s, Branchy.update_incumbent_and_branch bs σ s =
      Scheduler.update_incumbent_and_branch (Scheduler.ofBranchy bs) σ s) ∧
    (∀ d l σ a k, Branchy.expand_branch bs d l σ a k =
      Scheduler.expand_branch (Scheduler.ofBranchy bs) d l σ a k) ∧
    (∀ d l, Branchy.run_search bs d l = Scheduler.run_search (Scheduler.ofBranchy bs) d l) ∧
    (∀ d l, Branchy.method_schedule_compute_solution (some bs) d l =
      Scheduler.method_schedule_compute_solution (some (Scheduler.ofBranchy bs)) d l) ∧
    (∀ n rows, (Branchy.schedule_of n rows).map Scheduler.ofBranchy =
      Scheduler.schedule_of n (rows.map Prod.fst)) :=
  ⟨fun _ => rfl, fun _ _ _ => rfl, Branchy.select_branch_forget bs, fun _ _ => rfl,
    Branchy.expand_branch_forget bs, Branchy.run_search_forget bs,
    Branchy.compute_solution_forget bs, Branchy.schedule_of_forget⟩

namespace Branchy

/-- What `max_cost_for_slot` returns is determined by the schedule, the slot
and the used-map. -/
theorem maxCostResult_unique (sched : schedule_t) (j P : Nat) (m : List Int) (r r' : ℚ × Int)
    (h : MaxCostResult sched j m P r) (h' : MaxCostResult sched j m P r') : r' = r := by
  rcases h with ⟨a1, a2, a3⟩ | ⟨k, hk, h2, h3, h4, h5, h6, h7⟩
  · rcases h' with ⟨b1, b2, _⟩ | ⟨k', hk', g2, g3, g4, g5, _, _⟩
    · exact Prod.ext (by rw [a2, b2]) (by rw [a1, b1])
    · have := a3 k' hk' g3
      rw [g4] at g5
      exact absurd (lt_of_lt_of_le g5 this) (lt_irrefl _)
  · exact maxCostResult_restrict sched j P m m r r'
      (Or.inr ⟨k, hk, h2, h3, h4, h5, h6, h7⟩) h' k h2 (fun _ _ hi => hi) h3

end Branchy

/-- C16 (counterexample): on the rows `[5,5]`, `[1,1]` over two slots, where
`num_people >= num_slots`, the root built by `create_root` holds entity `0` in
both slots; its used-map is still empty, and `solution_is_feasible` rejects
it. -/
theorem create_root_repeats_entity :
    Branchy.schedule_of 2 [([5, 5], []), ([1, 1], [])] = some Branchy.twins ∧
    Branchy.twins.num_people ≥ Branchy.twins.num_slots ∧
    (Branchy.create_root Branchy.twins Branchy.initial_state).map
        (fun r => (slot_ids (r.2.heap r.1).node_list 2, (r.2.heap r.1).used_person_id_map,
          (r.2.heap r.1).total_weight))
      = .ok ([0, 0], [0, 0], 10) ∧
    Branchy.solution_is_feasible Branchy.twins ((Branchy.root_state Branchy.twins).heap 0)
      = .ok 0 := by
  decide!

/-- C16 (amended): `create_root` records no pick: the used-map of the root is
empty when it returns, and every slot of the root holds the entity that
`max_cost_for_slot` picks for that slot among all entities, independently of
the other slots (so the ids of the root are pairwise distinct only when these
picks fall on different entities). -/
theorem create_root_independent_picks (sched : Branchy.schedule_t)
    (hwf : Branchy.WellFormed sched) :
    ∃ σr, Branchy.create_root sched Branchy.initial_state = .ok (0, σr) ∧
      (σr.heap 0).used_person_id_map = List.replicate sched.weights.length 0 ∧
      (σr.heap 0).total_depth = 0 ∧
      ∀ s : Nat, (s : Int) < sched.num_slots →
        ∃ res, Branchy.max_cost_for_slot sched s (List.replicate sched.weights.length 0)
            = .ok res ∧
          (slot_ids (σr.heap 0).node_list sched.num_slots.toNat)[s]? = some res.2 := by
  by_cases h0 : 0 ≤ sched.num_slots
  · have hS : sched.num_slots = (sched.num_slots.toNat : Int) := by omega
    obtain ⟨σr, hσr, hrs⟩ := Branchy.create_root_spec sched hwf _ hS
    refine ⟨σr, hσr, hrs.root.map, hrs.root.depth, ?_⟩
    intro s hs
    obtain ⟨res, hres, hg⟩ := hrs.root.filled s (by omega)
    obtain ⟨r, hr, hres'⟩ := Branchy.max_cost_for_slot_spec sched hwf _ hS s (by omega)
      (List.replicate sched.weights.length 0) (by simp)
    have := Branchy.maxCostResult_unique sched s _ _ res r hres hres'
    exact ⟨res, by rw [hr, this], slot_ids_get _ _ s _ (by omega) hg⟩
  · have hz : sched.num_slots.toNat = 0 := by omega
    have hP := Branchy.toNat_people sched hwf
    refine ⟨(Branchy.root_state sched), ?_, ?_, ?_, ?_⟩
    · unfold Branchy.root_state Branchy.create_root
      simp only [hz, hP, List.range_zero, List.foldlM_nil, except_pure, except_ok_bind]
      rfl
    · unfold Branchy.root_state Branchy.create_root
      simp only [hz, hP, List.range_zero, List.foldlM_nil, except_pure, except_ok_bind]
      rfl
    · unfold Branchy.root_state Branchy.create_root
      simp only [hz, hP, List.range_zero, List.foldlM_nil, except_pure, except_ok_bind]
      rfl
    · intro s hs
      omega

/-- The weight rows `[5,1]`, `[1,5]`, `[3,3]` are a well-formed schedule for
`create_root_independent_picks`. -/
theorem create_root_independent_picks_witness :
    ∃ σr, Branchy.create_root Branchy.specialists Branchy.initial_state = .ok (0, σr) ∧
      (σr.heap 0).used_person_id_map = [0, 0, 0] := by
  obtain ⟨σr, h1, h2, _⟩ :=
    create_root_independent_picks Branchy.specialists (by unfold Branchy.WellFormed; decide)
  exact ⟨σr, h1, h2⟩

/-- C17 (code bug): on the rows `[7,6,5]`, `[8,2,4]`, `[9,3,1]` the search
expands the child `s` of entity `2` (address `3`).  The child that
`create_branch(s, 1)` builds for entity `1` (address `11`, in `branchy.c` and in
`Scheduler.c`) has the entry `(1, 8)` in slot `1` and the `total_weight`
`9 + 8 + 5 = 22`: the weight locked is `weights[1][0] = 8`, the weight of the
entity at slot `0`, and not `weights[1][1] = 2`.  This child is the incumbent
when the search returns. -/
theorem create_branch_locks_slot_zero_weight :
    Branchy.wt Branchy.nine 1 0 = 8 ∧ Branchy.wt Branchy.nine 1 1 = 2 ∧
    ((Branchy.root_branched Branchy.nine >>= fun σ => Branchy.create_branch Branchy.nine σ 3 1).map
        (fun τ => ((τ.heap 11).parent, (τ.heap 11).total_depth, (τ.heap 11).node_list,
          (τ.heap 11).total_weight)))
      = .ok (some 3, 2, [⟨2, 9⟩, ⟨1, 8⟩, ⟨0, 5⟩], 22) ∧
    ((Scheduler.root_branched Scheduler.nine >>= fun σ =>
          Scheduler.create_branch Scheduler.nine σ 3 1).map
        (fun τ => ((τ.heap 11).parent, (τ.heap 11).total_depth, (τ.heap 11).node_list,
          (τ.heap 11).total_weight)))
      = .ok (some 3, 2, [⟨2, 9⟩, ⟨1, 8⟩, ⟨0, 5⟩], 22) ∧
    ∀ d l, 3 ≤ d → 4 ≤ l →
      (Branchy.run_search Branchy.nine d l).map
          (fun τ => (τ.incumbent_solution, (τ.heap 11).parent, (τ.heap 11).node_list,
            (τ.heap 11).total_weight))
        = .ok (some 11, some 3, [⟨2, 9⟩, ⟨1, 8⟩, ⟨0, 5⟩], 22) :=
  ⟨by decide!, by decide!, by decide!, by decide!,
    fun d l hd hl => Branchy.run_search_map_stable _ 3 4 _ _ (by decide!) d l hd hl⟩

/-- C18 (code bug): on the rows `[0,0,0]`, `[0,0,0]`, `[1,1,1]` the search
accepts the node at address `5` as incumbent with the value `1` and then calls
`create_branch(s, 1)` for the child `s` of entity `1` (address `2`).  The child
built there for entity `0` (address `7`) has the `total_weight` `1`, equal to
the incumbent value at that time, and is created with `active == 1` (in
`branchy.c` and in `Scheduler.c`): the test is `total_weight < incumbent_value`.
The child is still active, with the same weight and incumbent value, when the
search returns. -/
theorem create_branch_keeps_tie_active :
    ((Branchy.root_branched Branchy.tie >>= fun σ => Branchy.create_branch Branchy.tie σ 1 1
          >>= fun σ => Branchy.update_incumbent_and_branch Branchy.tie σ 5).map
        (fun σ => (σ.incumbent_solution, σ.incumbent_value, (σ.heap 7).children)))
      = .ok (some 5, 1, none) ∧
    ((Branchy.root_branched Branchy.tie >>= fun σ => Branchy.create_branch Branchy.tie σ 1 1
          >>= fun σ => Branchy.update_incumbent_and_branch Branchy.tie σ 5
          >>= fun σ => Branchy.create_branch Branchy.tie σ 2 1).map
        (fun τ => (τ.incumbent_value, (τ.heap 7).parent, (τ.heap 7).total_weight,
          (τ.heap 7).active)))
      = .ok (1, some 2, 1, 1) ∧
    ((Scheduler.root_branched Scheduler.tie >>= fun σ => Scheduler.create_branch Scheduler.tie σ 1 1
          >>= fun σ => Scheduler.update_incumbent_and_branch Scheduler.tie σ 5
          >>= fun σ => Scheduler.create_branch Scheduler.tie σ 2 1).map
        (fun τ => (τ.incumbent_value, (τ.heap 7).parent, (τ.heap 7).total_weight,
          (τ.heap 7).active)))
      = .ok (1, some 2, 1, 1) ∧
    ∀ d l, 3 ≤ d → 4 ≤ l →
      (Branchy.run_search Branchy.tie d l).map
          (fun τ => (τ.incumbent_solution, τ.incumbent_value, (τ.heap 7).parent,
            (τ.heap 7).total_weight, (τ.heap 7).active))
        = .ok (some 5, 1, some 2, 1, 1) :=
  ⟨by decide!, by decide!, by decide!,
    fun d l hd hl => Branchy.run_search_map_stable _ 3 4 _ _ (by decide!) d l hd hl⟩

namespace Branchy

/-- In the state that `create_root` builds every set-up struct is locked: the
root, at depth `0`, is the only one. -/
theorem allLocked_root (sched : schedule_t) (hwf : WellFormed sched) (S : Nat)
    (hS : sched.num_slots = S) (σ : State) (h : IsRootState sched σ) : AllLocked sched σ := by
  obtain ⟨hp, _, _, _, _⟩ := rootState_pristine sched hwf S hS σ h
  intro x _ hc
  by_cases hx : x = 0
  · subst hx
    rw [h.root.depth]
    exact hp.locked
  · rw [h.rest x hx] at hc
    exact absurd rfl hc

end Branchy

/-- C19: on a node `a` with `d < num_slots` locked slots, a used-map of
`num_people` entries and an allocated `children` array at `cb`,
`create_branch(a, d)` returns and builds one child for every entity `e` that
the used-map of `a` does not mark, in `children[e]`, and leaves `children[e]`
alone for every marked `e`; `total_children` grows by the number of unmarked
entities (and so equals it when it was `0`).  Each child has
`total_depth == d + 1`, `parent == a`, the entries `0..d-1` of `a` (id and
weight) and entity `e` in entry `d`. -/
theorem create_branch_children (sched : Branchy.schedule_t) (hwf : Branchy.WellFormed sched)
    (σ : State) (a cb d : Nat) (hd : (d : Int) < sched.num_slots)
    (hrlen : d ≤ (σ.heap a).node_list.length)
    (hr : ∀ p ∈ slot_ids (σ.heap a).node_list d, 0 ≤ p ∧ p < (sched.weights.length : Int))
    (hmap : (σ.heap a).used_person_id_map.length = sched.weights.length)
    (hcb : (σ.heap a).children = some cb) (ha : a < σ.brk)
    (hblk : cb + sched.weights.length ≤ σ.brk)
    (hout : a < cb ∨ cb + sched.weights.length ≤ a) :
    ∃ τ, Branchy.create_branch sched σ a d = .ok τ ∧
      (τ.heap a).total_children = (σ.heap a).total_children +
        (Branchy.unused_below (σ.heap a).used_person_id_map sched.weights.length : Int) ∧
      Branchy.unused_below (σ.heap a).used_person_id_map sched.weights.length
        = ((List.range sched.weights.length).filter
            (fun e => decide ((σ.heap a).used_person_id_map[e]? ≠ some 1))).length ∧
      (∀ e, e < sched.weights.length → (σ.heap a).used_person_id_map[e]? ≠ some 1 →
        (τ.heap (cb + e)).total_depth = (d : Int) + 1 ∧
        (τ.heap (cb + e)).parent = some a ∧
        (∀ j, j < d → (τ.heap (cb + e)).node_list[j]? = (σ.heap a).node_list[j]?) ∧
        ((τ.heap (cb + e)).node_list[d]?).map node_t.person_id = some (e : Int)) ∧
      (∀ e, e < sched.weights.length → (σ.heap a).used_person_id_map[e]? = some 1 →
        τ.heap (cb + e) = σ.heap (cb + e)) := by
  have hS : sched.num_slots = (sched.num_slots.toNat : Int) := by omega
  obtain ⟨τ, hτ, hbi⟩ := Branchy.create_branch_spec sched hwf _ hS σ a cb d (by omega) hrlen hr
    hmap hcb ha hblk hout
  refine ⟨τ, hτ, ?_, rfl, ?_, ?_⟩
  · rw [hbi.root_cell]
  · intro e he hu
    obtain ⟨cbi, hch, _, _, _⟩ := hbi.made e he hu
    refine ⟨hch.depth, hch.parent, hch.copied, ?_⟩
    rw [hch.locked]
    rfl
  · intro e he hu
    exact hbi.skipped e he (fun _ => hu)

/-- The hypotheses of `create_branch_children` at the root of the rows `[5,1]`,
`[1,5]`, `[3,3]`: `create_branch(root, 0)` builds three children. -/
theorem create_branch_children_witness :
    ∃ τ, Branchy.create_branch Branchy.specialists (Branchy.root_state Branchy.specialists) 0 0
        = .ok τ ∧
      (τ.heap 0).total_children = ((Branchy.root_state Branchy.specialists).heap 0).total_children
        + (Branchy.unused_below
            ((Branchy.root_state Branchy.specialists).heap 0).used_person_id_map 3 : Int) := by
  obtain ⟨τ, h1, h2, _⟩ :=
    create_branch_children Branchy.specialists (by unfold Branchy.WellFormed; decide)
      (Branchy.root_state Branchy.specialists) 0 1 0 (by decide) (by decide!)
      (by intro p hp; cases hp) (by decide!) (by decide!) (by decide!) (by decide!) (by decide)
  exact ⟨τ, h1, h2⟩

/-- C20: when the search returns (schedule with `num_people` rows of
`num_slots >= 0` weights), every struct that has been set up, the root at
address `0` and every child built by `create_branch`, holds pairwise distinct
entity ids in its locked slots, the slots below its `total_depth`, and its
used-map has the value `1` exactly at these ids and `0` at the other
entities. -/
theorem tree_nodes_locked (sched : Branchy.schedule_t) (hwf : Branchy.WellFormed sched)
    (hslots : 0 ≤ sched.num_slots) (d l : Nat) (τ : State)
    (h : Branchy.run_search sched d l = .ok τ) :
    (0 < τ.brk ∧ (τ.heap 0).children ≠ none) ∧
    ∀ x, x < τ.brk → (τ.heap x).children ≠ none →
      0 ≤ (τ.heap x).total_depth ∧
      (slot_ids (τ.heap x).node_list (τ.heap x).total_depth.toNat).Nodup ∧
      (τ.heap x).used_person_id_map.length = sched.weights.length ∧
      ∀ e : Nat, e < sched.weights.length →
        ((τ.heap x).used_person_id_map[e]? = some 1 ↔
          (e : Int) ∈ slot_ids (τ.heap x).node_list (τ.heap x).total_depth.toNat) ∧
        ((τ.heap x).used_person_id_map[e]? = some 0 ↔
          (e : Int) ∉ slot_ids (τ.heap x).node_list (τ.heap x).total_depth.toNat) := by
  have hS : sched.num_slots = (sched.num_slots.toNat : Int) := by omega
  have hne : (Except.ok τ : Except Err State) ≠ .error .outOfFuel := by
    intro e
    cases e
  have h' := Branchy.run_search_stable sched d l _ h hne
    (max d (sched.num_slots.toNat + 1)) (max l (sched.weights.length + 1))
    (le_max_left _ _) (le_max_left _ _)
  obtain ⟨σr, _, hrs, hspec⟩ := Branchy.run_search_spec sched hwf _ hS
    (max d (sched.num_slots.toNat + 1)) (max l (sched.weights.length + 1))
    (le_trans (Nat.le_succ _) (le_max_right _ _))
    (le_trans (Nat.le_add_left 1 _) (le_max_right _ _)) (le_max_right _ _)
  rw [h'] at hspec
  rcases hspec with ⟨herr, _⟩ | ⟨τ', hτ', hpost⟩
  · cases herr
  · cases hτ'
    have hall := hpost.locked_all (Branchy.allLocked_root sched hwf _ hS σr hrs)
    have hroot := hpost.stable 0 (by rw [hrs.brk]; omega) (by rw [hrs.root.children]; simp)
    refine ⟨⟨?_, ?_⟩, ?_⟩
    · have := hpost.brk_le
      rw [hrs.brk] at this
      omega
    · rw [hroot.2.2.2.2.2, hrs.root.children]
      simp
    · intro x hx hc
      have hl := hall x hx hc
      refine ⟨?_, hl.ids_nodup, hl.map_len, ?_⟩
      · rw [hl.depth]
        omega
      · intro e he
        rw [hl.map_get e he]
        by_cases hmem : (e : Int) ∈ slot_ids (τ.heap x).node_list (τ.heap x).total_depth.toNat
        · simp [hmem]
        · simp [hmem]

/-- The hypotheses of `tree_nodes_locked` on the rows `[5,1]`, `[1,5]`,
`[3,3]`: the child of entity `1` (address `2`) has locked ids without a
repeat. -/
theorem tree_nodes_locked_witness :
    (slot_ids ((okOr (Branchy.run_search Branchy.specialists 2 4) Branchy.initial_state).heap 2).node_list
      ((okOr (Branchy.run_search Branchy.specialists 2 4)
        Branchy.initial_state).heap 2).total_depth.toNat).Nodup :=
  ((tree_nodes_locked Branchy.specialists (by unfold Branchy.WellFormed; decide) (by decide) 2 4
      (okOr (Branchy.run_search Branchy.specialists 2 4) Branchy.initial_state)
      (okOr_eq_ok _ _ (by decide!))).2 2 (by decide!) (by decide!)).2.1

theorem flagsDown_refl (σ : State) : FlagsDown σ σ :=
  ⟨rfl, fun _ => eqExceptFlags_refl _, fun _ => rfl, fun _ h => h⟩

theorem flagsDown_trans {σ τ υ : State} (h1 : FlagsDown σ τ) (h2 : FlagsDown τ υ) :
    FlagsDown σ υ :=
  ⟨h2.1.trans h1.1, fun x => eqExceptFlags_trans (h1.2.1 x) (h2.2.1 x),
    fun x => (h2.2.2.1 x).trans (h1.2.2.1 x), fun x h => h2.2.2.2 x (h1.2.2.2 x h)⟩

theorem flagsDown_write (σ : State) (a : Nat) :
    FlagsDown σ (σ.write a { σ.heap a with active := 0 }) := by
  refine ⟨rfl, Branchy.write_active_flags σ a 0, ?_, ?_⟩
  · intro x
    by_cases hx : x = a
    · subst hx
      rw [write_heap_same]
    · rw [write_heap_ne _ _ _ _ hx]
  · intro x h
    by_cases hx : x = a
    · subst hx
      rw [write_heap_same]
    · rw [write_heap_ne _ _ _ _ hx]
      exact h

namespace Branchy

/-- The C function `prune_branch` writes `active` flags only, and writes `0`. -/
theorem prune_branch_flags (sched : schedule_t) (σ τ : State) (b : Option Nat)
    (h : prune_branch sched σ b = .ok τ) : FlagsDown σ τ := by
  unfold prune_branch at h
  cases b with
  | none =>
    simp only [except_pure] at h
    cases h
    exact flagsDown_refl σ
  | some b =>
    simp only at h
    obtain ⟨σ1, h1, h2⟩ := except_bind_eq_ok h
    simp only [except_pure] at h2
    cases h2
    have : FlagsDown σ σ1 := by
      refine foldlM_invariant (prune_step sched b) (fun υ => FlagsDown σ υ) ?_ _ σ σ1
        (flagsDown_refl σ) h1
      intro υ i υ' hυ hstep
      unfold prune_step at hstep
      obtain ⟨c, _, hc⟩ := except_bind_eq_ok hstep
      simp only [except_pure] at hc
      cases hc
      exact flagsDown_trans hυ (flagsDown_write _ _)
    exact flagsDown_trans this (flagsDown_write _ _)

/-- The C function `update_incumbent_and_branch` writes `active` flags only, and
writes `0`. -/
theorem update_incumbent_flags (sched : schedule_t) (σ τ : State) (s : Nat)
    (h : update_incumbent_and_branch sched σ s = .ok τ) : FlagsDown σ τ := by
  unfold update_incumbent_and_branch at h
  by_cases hw : (σ.heap s).total_weight > σ.incumbent_value
  · simp only [if_pos hw] at h
    have := prune_branch_flags sched _ τ _ h
    exact ⟨this.1, this.2.1, this.2.2.1, this.2.2.2⟩
  · simp only [if_neg hw] at h
    exact prune_branch_flags sched _ τ _ h

/-- What a call of `expand_branch` on a pristine node guarantees when it
returns, whatever the fuel it was given. -/
theorem expand_branch_post (sched : schedule_t) (hwf : WellFormed sched) (σ τ : State)
    (a cb d f l : Nat) (hp : Pristine sched σ a d) (hg : GInv sched σ)
    (hcb : (σ.heap a).children = some cb) (hd : (d : Int) ≤ sched.num_slots)
    (h : expand_branch sched f l σ a d = .ok τ) : ExpandPost sched σ τ a cb d := by
  have hS : sched.num_slots = (sched.num_slots.toNat : Int) := by omega
  have h' : expand_branch sched (max f (sched.num_slots.toNat + 1))
      (max l (sched.weights.length + 1)) σ a d = .ok τ := by
    rcases expand_branch_fuel sched f (max f (sched.num_slots.toNat + 1)) l
      (max l (sched.weights.length + 1)) σ a d (le_max_left _ _) (le_max_left _ _) with e | e
    · rw [h] at e
      cases e
    · rw [← e, h]
  have hspec := expand_branch_spec sched hwf _ hS (max l (sched.weights.length + 1))
    (le_max_right _ _) (max f (sched.num_slots.toNat + 1)) σ a cb d hp hg hcb (by omega)
    (le_trans (Nat.le_succ _) (le_trans (le_max_right _ _) (Nat.le_add_left _ _)))
    (le_trans (Nat.le_add_left 1 _) (le_max_right _ _))
  rw [h'] at hspec
  rcases hspec with ⟨herr, _⟩ | ⟨τ', hτ', hpost⟩
  · cases herr
  · cases hτ'
    exact hpost

/-- The state that `create_branch` returns on a pristine node. -/
theorem create_branch_inv (sched : schedule_t) (hwf : WellFormed sched) (σ τ : State)
    (a cb d : Nat) (hp : Pristine sched σ a d) (hcb : (σ.heap a).children = some cb)
    (hd : (d : Int) < sched.num_slots) (h : create_branch sched σ a d = .ok τ) :
    BranchInv sched σ a cb d sched.weights.length τ := by
  have hS : sched.num_slots = (sched.num_slots.toNat : Int) := by omega
  obtain ⟨hblk, hout, _⟩ := pristine_block sched σ a cb d hp hcb
  obtain ⟨τ', hτ', hbi⟩ := create_branch_spec sched hwf _ hS σ a cb d (by omega)
    (by rw [hp.locked.list_len]; omega) hp.locked.ids_range hp.locked.map_len hcb hp.addr
    hblk hout
  rw [h] at hτ'
  cases hτ'
  exact hbi

/-- The structs set up before `create_branch` keep everything but their flags. -/
theorem branch_stable (sched : schedule_t) (hwf : WellFormed sched) (σ0 σ1 : State)
    (a cb d : Nat) (hp0 : Pristine sched σ0 a d) (hcb0 : (σ0.heap a).children = some cb)
    (hbi : BranchInv sched σ0 a cb d sched.weights.length σ1) : Stable σ0 σ1 := by
  intro x hx hc
  obtain ⟨bx, hbx⟩ := Option.ne_none_iff_exists'.mp hc
  obtain ⟨_, hr2, _⟩ := branch_root sched hwf σ0 σ1 a cb d hp0 hcb0 hbi
  obtain ⟨_, hout, hz⟩ := pristine_block sched σ0 a cb d hp0 hcb0
  by_cases hxa : x = a
  · subst hxa; exact hr2
  · by_cases hxb : x < cb ∨ cb + sched.weights.length ≤ x
    · rw [hbi.frame x hx hxa hxb]
      exact eqExceptFlags_refl _
    · exfalso
      have hj : x - cb < sched.weights.length := by omega
      have := hz (x - cb) hj
      have hxe : cb + (x - cb) = x := by omega
      rw [hxe] at this
      rw [this] at hc
      exact hc rfl

/-- The structs set up before `create_branch` keep their `active` flag. -/
theorem branch_calm (sched : schedule_t) (hwf : WellFormed sched) (σ0 σ1 : State)
    (a cb d : Nat) (hp0 : Pristine sched σ0 a d) (hcb0 : (σ0.heap a).children = some cb)
    (hbi : BranchInv sched σ0 a cb d sched.weights.length σ1) (x : Nat) (hx : x < σ0.brk)
    (hc : (σ0.heap x).children ≠ none) : (σ1.heap x).active = (σ0.heap x).active := by
  obtain ⟨_, _, hr3, _⟩ := branch_root sched hwf σ0 σ1 a cb d hp0 hcb0 hbi
  obtain ⟨_, hout, hz⟩ := pristine_block sched σ0 a cb d hp0 hcb0
  by_cases hxa : x = a
  · subst hxa; exact hr3
  · by_cases hxb : x < cb ∨ cb + sched.weights.length ≤ x
    · rw [hbi.frame x hx hxa hxb]
    · exfalso
      have hj : x - cb < sched.weights.length := by omega
      have := hz (x - cb) hj
      have hxe : cb + (x - cb) = x := by omega
      rw [hxe] at this
      rw [this] at hc
      exact hc rfl

/-- In the state that `create_root` builds the root carries the sum of its
slots. -/
theorem allSummed_root (sched : schedule_t) (σ : State) (h : IsRootState sched σ) :
    AllSummed sched σ := by
  intro x _ hc
  by_cases hx : x = 0
  · subst hx
    exact h.root.weight
  · rw [h.rest x hx] at hc
    exact absurd rfl hc

/-- The state that `create_root` builds is settled: the root is its only
struct, and it is active. -/
theorem treeSettled_root (sched : schedule_t) (σ : State) (h : IsRootState sched σ) :
    TreeSettled sched σ := by
  have hone : ∀ x bx, (σ.heap x).children = some bx → x = 0 ∧ bx = 1 := by
    intro x bx hc
    by_cases hx : x = 0
    · subst hx
      rw [h.root.children] at hc
      cases hc
      exact ⟨rfl, rfl⟩
    · rw [h.rest x hx] at hc
      cases hc
  constructor
  · intro x bx _ hc
    obtain ⟨_, h2⟩ := hone x bx hc
    rw [h2, h.brk]
  · intro x y bx yb _ _ hxy hcx hcy
    exact absurd ((hone x bx hcx).1.trans (hone y yb hcy).1.symm) hxy
  · intro x bx _ hc h0
    obtain ⟨h1, _⟩ := hone x bx hc
    subst h1
    rw [h.root.active] at h0
    cases h0

/-- The state that `create_root` builds is shallow. -/
theorem shallow_root (sched : schedule_t) (σ : State) (h : IsRootState sched σ) :
    Shallow sched σ := by
  intro x _ hc
  by_cases hx : x = 0
  · subst hx
    refine ⟨by rw [h.root.depth]; decide, isRoot_honest sched _ h.root, ?_⟩
    intro h1
    rw [h.root.depth] at h1
    cases h1
  · rw [h.rest x hx] at hc
    exact absurd rfl hc

end Branchy

/-- The sum of a function over `List.range n` is its sum over `Finset.range n`. -/
theorem list_range_map_sum (f : Nat → ℚ) (n : Nat) :
    ((List.range n).map f).sum = ∑ j in Finset.range n, f j := by
  induction n with
  | zero => simp
  | succ n ih => rw [List.range_succ, List.map_append, List.sum_append, ih, Finset.sum_range_succ]; simp

namespace Branchy

/-- The weight stored in an honest node is the true weight of its ids. -/
theorem weight_sum_honest (sched : schedule_t) (s : solution_t) (S : Nat)
    (hS : sched.num_slots.toNat = S) (hlen : s.node_list.length = S) (hh : Honest sched s)
    (hpos : ∀ p ∈ slot_ids s.node_list S, 0 ≤ p) :
    weight_sum s.node_list S = assignment_weight sched (slot_ids s.node_list S) := by
  unfold assignment_weight weight_sum
  rw [list_range_map_sum, slot_ids_length _ _ (by omega)]
  apply Finset.sum_congr rfl
  intro j hj
  rw [Finset.mem_range] at hj
  have hjl : j < s.node_list.length := by omega
  have hget : s.node_list[j]? = some (s.node_list[j]) := List.getElem?_eq_getElem hjl
  rw [weight_at_of_get hget]
  have hid : (slot_ids s.node_list S).getD j 0 = (s.node_list[j]).person_id := by
    unfold slot_ids
    rw [List.getD_eq_getElem?_getD, List.getElem?_map, List.getElem?_take_of_lt hj, hget]
    rfl
  rw [hid]
  apply hh j _ (by omega) hget
  exact hpos _ (mem_slot_ids.mpr ⟨j, hj, _, hget, rfl⟩)

end Branchy

/-- C21: on a schedule with `num_people` rows of `num_slots >= 0` weights,
over the rationals, (1) `create_root` builds a root of `num_slots` entries whose
`total_weight` is the sum of the weights stored in its entries; (2) every child
that `create_branch` builds has `num_slots` entries and their sum as
`total_weight`; (3) no step of the search (a returning call of
`update_incumbent_and_branch`, `prune_branch`, `select_branch`, or of
`create_branch` or `expand_branch` on a node not branched on yet) changes the
`total_weight` or the entries of a node that has been set up; (4) when the
search returns, every node that has been set up carries the sum of its entries
as `total_weight`. -/
theorem total_weight_is_entry_sum (sched : Branchy.schedule_t)
    (hwf : Branchy.WellFormed sched) (hslots : 0 ≤ sched.num_slots) :
    (∃ σr, Branchy.create_root sched Branchy.initial_state = .ok (0, σr) ∧
      (σr.heap 0).node_list.length = sched.num_slots.toNat ∧
      (σr.heap 0).total_weight = weight_sum (σr.heap 0).node_list sched.num_slots.toNat) ∧
    (∀ (σ τ : State) (a cb d : Nat), (d : Int) < sched.num_slots →
      d ≤ (σ.heap a).node_list.length →
      (∀ p ∈ slot_ids (σ.heap a).node_list d, 0 ≤ p ∧ p < (sched.weights.length : Int)) →
      (σ.heap a).used_person_id_map.length = sched.weights.length →
      (σ.heap a).children = some cb → a < σ.brk → cb + sched.weights.length ≤ σ.brk →
      (a < cb ∨ cb + sched.weights.length ≤ a) →
      Branchy.create_branch sched σ a d = .ok τ →
      ∀ e, e < sched.weights.length → (σ.heap a).used_person_id_map[e]? ≠ some 1 →
        (τ.heap (cb + e)).node_list.length = sched.num_slots.toNat ∧
        (τ.heap (cb + e)).total_weight =
          weight_sum (τ.heap (cb + e)).node_list sched.num_slots.toNat) ∧
    (∀ σ τ, Branchy.SearchStep sched σ τ → ∀ x, x < σ.brk → (σ.heap x).children ≠ none →
      (τ.heap x).total_weight = (σ.heap x).total_weight ∧
      (τ.heap x).node_list = (σ.heap x).node_list) ∧
    (∀ d l τ, Branchy.run_search sched d l = .ok τ →
      ∀ x, x < τ.brk → (τ.heap x).children ≠ none →
        (τ.heap x).node_list.length = sched.num_slots.toNat ∧
        (τ.heap x).total_weight = weight_sum (τ.heap x).node_list sched.num_slots.toNat) := by
  have hS : sched.num_slots = (sched.num_slots.toNat : Int) := by omega
  refine ⟨?_, ?_, ?_, ?_⟩
  · obtain ⟨σr, hσr, hrs⟩ := Branchy.create_root_spec sched hwf _ hS
    exact ⟨σr, hσr, hrs.root.list_len, hrs.root.weight⟩
  · intro σ τ a cb d hd hrlen hr hmap hcb ha hblk hout hτ e he hu
    obtain ⟨τ', hτ', hbi⟩ := Branchy.create_branch_spec sched hwf _ hS σ a cb d (by omega) hrlen
      hr hmap hcb ha hblk hout
    rw [hτ] at hτ'
    cases hτ'
    obtain ⟨cbi, hch, _, _, _⟩ := hbi.made e he hu
    exact ⟨hch.list_len, hch.weight⟩
  · intro σ τ hstep x hx hc
    have key : EqExceptFlags (σ.heap x) (τ.heap x) := by
      cases hstep
      case update s hs => exact (Branchy.update_incumbent_flags sched σ τ s hs).2.1 x
      case prune b hb => exact (Branchy.prune_branch_flags sched σ τ b hb).2.1 x
      case select b r hr => exact eqExceptFlags_refl _
      case create a cb d hp hcb hd hcr =>
        exact Branchy.branch_stable sched hwf σ τ a cb d hp hcb
          (Branchy.create_branch_inv sched hwf σ τ a cb d hp hcb hd hcr) x hx hc
      case expand a cb d f l hp hg hcb hd hex =>
        exact (Branchy.expand_branch_post sched hwf σ τ a cb d f l hp hg hcb hd hex).stable x hx hc
    exact ⟨key.1, key.2.2.2.1⟩
  · intro d l τ h x hx hc
    have hne : (Except.ok τ : Except Err State) ≠ .error .outOfFuel := by
      intro e
      cases e
    have h' := Branchy.run_search_stable sched d l _ h hne
      (max d (sched.num_slots.toNat + 1)) (max l (sched.weights.length + 1))
      (le_max_left _ _) (le_max_left _ _)
    obtain ⟨σr, _, hrs, hspec⟩ := Branchy.run_search_spec sched hwf _ hS
      (max d (sched.num_slots.toNat + 1)) (max l (sched.weights.length + 1))
      (le_trans (Nat.le_succ _) (le_max_right _ _))
      (le_trans (Nat.le_add_left 1 _) (le_max_right _ _)) (le_max_right _ _)
    rw [h'] at hspec
    rcases hspec with ⟨herr, _⟩ | ⟨τ', hτ', hpost⟩
    · cases herr
    · cases hτ'
      exact ⟨(hpost.locked_all (Branchy.allLocked_root sched hwf _ hS σr hrs) x hx hc).list_len,
        hpost.summed_all (Branchy.allSummed_root sched σr hrs) x hx hc⟩

/-- The hypotheses of `total_weight_is_entry_sum` on the rows `[5,1]`, `[1,5]`,
`[3,3]`: when the search returns, the child of entity `2` (address `3`) carries
the sum of its two entries. -/
theorem total_weight_is_entry_sum_witness :
    ((okOr (Branchy.run_search Branchy.specialists 2 4) Branchy.initial_state).heap 3).total_weight
      = weight_sum
          ((okOr (Branchy.run_search Branchy.specialists 2 4) Branchy.initial_state).heap 3).node_list
          Branchy.specialists.num_slots.toNat :=
  ((total_weight_is_entry_sum Branchy.specialists (by unfold Branchy.WellFormed; decide)
      (by decide)).2.2.2 2 4
      (okOr (Branchy.run_search Branchy.specialists 2 4) Branchy.initial_state)
      (okOr_eq_ok _ _ (by decide!)) 3 (by decide!) (by decide!)).2

/-- C22: a step of the search (a returning call of
`update_incumbent_and_branch`, `prune_branch`, `select_branch`, or of
`create_branch` or `expand_branch` on a node not branched on yet, as
`expand_branch` makes them) started in a state where the node at `x` has been
set up and has `active == 0` ends in a state where the node at `x` has
`active == 0`. -/
theorem active_flag_stays_down (sched : Branchy.schedule_t) (hwf : Branchy.WellFormed sched)
    (σ τ : State) (hstep : Branchy.SearchStep sched σ τ) (x : Nat) (hx : x < σ.brk)
    (hc : (σ.heap x).children ≠ none) (h0 : (σ.heap x).active = 0) :
    (τ.heap x).active = 0 := by
  cases hstep
  case update s hs => exact (Branchy.update_incumbent_flags sched σ τ s hs).2.2.2 x h0
  case prune b hb => exact (Branchy.prune_branch_flags sched σ τ b hb).2.2.2 x h0
  case select b r hr => exact h0
  case create a cb d hp hcb hd hcr =>
    rw [Branchy.branch_calm sched hwf σ τ a cb d hp hcb
      (Branchy.create_branch_inv sched hwf σ τ a cb d hp hcb hd hcr) x hx hc]
    exact h0
  case expand a cb d f l hp hg hcb hd hex =>
    exact (Branchy.expand_branch_post sched hwf σ τ a cb d f l hp hg hcb hd hex).calm x hx hc h0

/-- The hypotheses of `active_flag_stays_down` on the rows `[5,1]`, `[1,5]`,
`[3,3]`: in the state the search returns the child of entity `0` (address `1`)
is inactive, and it is inactive after `update_incumbent_and_branch` on its
sibling at address `3`. -/
theorem active_flag_stays_down_witness :
    ((okOr (Branchy.update_incumbent_and_branch Branchy.specialists
      (okOr (Branchy.run_search Branchy.specialists 2 4) Branchy.initial_state) 3)
        Branchy.initial_state).heap 1).active = 0 :=
  active_flag_stays_down Branchy.specialists (by unfold Branchy.WellFormed; decide)
    (okOr (Branchy.run_search Branchy.specialists 2 4) Branchy.initial_state)
    (okOr (Branchy.update_incumbent_and_branch Branchy.specialists
      (okOr (Branchy.run_search Branchy.specialists 2 4) Branchy.initial_state) 3)
        Branchy.initial_state)
    (Branchy.SearchStep.update _ _ 3 (okOr_eq_ok _ _ (by decide!))) 1 (by decide!) (by decide!)
    (by decide!)

namespace Branchy

/-- The child loop of `prune_branch(b)`: it writes `active` flags only, and
after `n` passes the first `n` structs of the `children` array of `b` are
inactive. -/
theorem prune_fold (sched : schedule_t) (σ : State) (b cb : Nat)
    (hcb : (σ.heap b).children = some cb) :
    ∀ n σ1, (List.range n).foldlM (prune_step sched b) σ = .ok σ1 →
      FlagsDown σ σ1 ∧ ∀ i, i < n → (σ1.heap (cb + i)).active = 0 := by
  intro n
  induction n with
  | zero =>
    intro σ1 h
    simp only [List.range_zero, List.foldlM_nil, except_pure] at h
    cases h
    exact ⟨flagsDown_refl σ, by intro i hi; omega⟩
  | succ n ih =>
    intro σ1 h
    rw [List.range_succ, List.foldlM_append] at h
    obtain ⟨υ, hυ, hstep⟩ := except_bind_eq_ok h
    obtain ⟨hfd, hin⟩ := ih υ hυ
    simp only [List.foldlM_cons, List.foldlM_nil] at hstep
    obtain ⟨σ2, h2, h3⟩ := except_bind_eq_ok hstep
    simp only [except_pure] at h3
    cases h3
    unfold prune_step at h2
    obtain ⟨c, hc, hw⟩ := except_bind_eq_ok h2
    simp only [except_pure] at hw
    cases hw
    have hcbυ : (υ.heap b).children = some cb := by
      rw [(hfd.2.1 b).2.2.2.2.2]
      exact hcb
    unfold childAddr at hc
    rw [hcbυ] at hc
    simp only at hc
    by_cases hlt : (n : Int) < sched.num_people
    · rw [if_pos hlt] at hc
      cases hc
      refine ⟨flagsDown_trans hfd (flagsDown_write _ _), ?_⟩
      intro i hi
      rcases Nat.lt_succ_iff_lt_or_eq.mp hi with hi' | hi'
      · exact (flagsDown_write υ (cb + n)).2.2.2 _ (hin i hi')
      · subst hi'
        rw [write_heap_same]
    · rw [if_neg hlt] at hc
      cases hc

/-- The scan of `solution_validates_constraints` for a constraint set never
ends when the first slot holds `-1` or an entity that does not match: the
variable `slot_id` stays `0`. -/
theorem validates_scan_stuck (sched : schedule_t) (lfind : Int → context_t → Bool)
    (c : context_t) (nl : List Int) (e : Int) (h0 : 0 < sched.num_slots)
    (hread : readInt nl 0 = .ok e)
    (hcase : e = -1 ∨ ∃ a, readContext sched.attribs e = .ok a ∧
      compare_contexts lfind c a = .ok 0) :
    ∀ n, validates_scan sched lfind c nl 0 n 0 = .error .outOfFuel := by
  intro n
  induction n with
  | zero => rfl
  | succ n ih =>
    rw [validates_scan]
    have hcond : ((0 : Nat) : Int) < sched.num_slots ∧ (0 : Int) = 0 := ⟨by simpa using h0, rfl⟩
    rw [if_pos hcond]
    have hread' : readInt nl ((0 : Nat) : Int) = .ok e := by simpa using hread
    rw [hread']
    simp only [except_ok_bind]
    by_cases he : e = -1
    · rw [if_pos he]
      exact ih
    · rw [if_neg he]
      rcases hcase with h | ⟨a, ha, hcmp⟩
      · exact absurd h he
      · rw [ha]
        simp only [except_ok_bind]
        rw [hcmp]
        simp only [except_ok_bind]
        exact ih

/-- The ids that `solution_validates_constraints` copies from a node of two
slots. -/
theorem validates_two_slots (sched : schedule_t) (lfind : Int → context_t → Bool)
    (s : solution_t) (fuel : Nat) (e e' : Int) (hS : sched.num_slots = 2)
    (hids : s.node_list.map node_t.person_id = [e, e']) :
    solution_validates_constraints sched lfind s fuel =
      validates_loop sched lfind fuel (List.range sched.num_constraints.toNat) [e, e'] 0 := by
  rcases hnl : s.node_list with _ | ⟨a, _ | ⟨b, _ | ⟨c, r⟩⟩⟩
  · rw [hnl] at hids; simp at hids
  · rw [hnl] at hids; simp at hids
  · rw [hnl] at hids
    simp only [List.map_cons, List.map_nil, List.cons.injEq, and_true] at hids
    unfold solution_validates_constraints
    rw [hS, hnl]
    have h2 : (2 : Int).toNat = 2 := rfl
    rw [h2]
    have hr : List.range 2 = [0, 1] := rfl
    rw [hr]
    simp only [List.foldlM_cons, List.foldlM_nil, readNode, List.getElem?_cons_zero,
      List.getElem?_cons_succ, except_ok_bind, except_pure, List.nil_append, List.cons_append,
      hids.1, hids.2]
  · rw [hnl] at hids; simp at hids

end Branchy

/-- What the loops of the search do reach, on a schedule with `num_people` rows
of `num_slots >= 0` weights: (1) when `prune_branch(b)` returns, `b` and the
first `total_children` structs of its `children` array are inactive; (2) when
the search returns, below every node that has been set up and is inactive,
each of the first `total_children` structs of its `children` array is inactive
or has a `total_weight` that does not exceed `incumbent_value`.  The children
stored behind the first `total_children` structs are not covered. -/
theorem scanned_children_settled (sched : Branchy.schedule_t)
    (hwf : Branchy.WellFormed sched) (hslots : 0 ≤ sched.num_slots) :
    (∀ (σ τ : State) (b cb : Nat), (σ.heap b).children = some cb →
      Branchy.prune_branch sched σ (some b) = .ok τ →
      (τ.heap b).active = 0 ∧
      ∀ i : Nat, (i : Int) < (σ.heap b).total_children → (τ.heap (cb + i)).active = 0) ∧
    (∀ d l τ, Branchy.run_search sched d l = .ok τ →
      ∀ x bx, x < τ.brk → (τ.heap x).children = some bx → (τ.heap x).active = 0 →
        ∀ i : Nat, (i : Int) < (τ.heap x).total_children → i < sched.weights.length →
          (τ.heap (bx + i)).active = 0 ∨
            (τ.heap (bx + i)).total_weight ≤ τ.incumbent_value) := by
  have hS : sched.num_slots = (sched.num_slots.toNat : Int) := by omega
  refine ⟨?_, ?_⟩
  · intro σ τ b cb hcb h
    unfold Branchy.prune_branch at h
    simp only at h
    obtain ⟨σ1, h1, h2⟩ := except_bind_eq_ok h
    simp only [except_pure] at h2
    cases h2
    obtain ⟨_, hin⟩ := Branchy.prune_fold sched σ b cb hcb _ σ1 h1
    refine ⟨by rw [write_heap_same], ?_⟩
    intro i hi
    exact (flagsDown_write σ1 b).2.2.2 _ (hin i (by omega))
  · intro d l τ h
    have hne : (Except.ok τ : Except Err State) ≠ .error .outOfFuel := by
      intro e
      cases e
    have h' := Branchy.run_search_stable sched d l _ h hne
      (max d (sched.num_slots.toNat + 1)) (max l (sched.weights.length + 1))
      (le_max_left _ _) (le_max_left _ _)
    obtain ⟨σr, _, hrs, hspec⟩ := Branchy.run_search_spec sched hwf _ hS
      (max d (sched.num_slots.toNat + 1)) (max l (sched.weights.length + 1))
      (le_trans (Nat.le_succ _) (le_max_right _ _))
      (le_trans (Nat.le_add_left 1 _) (le_max_right _ _)) (le_max_right _ _)
    rw [h'] at hspec
    rcases hspec with ⟨herr, _⟩ | ⟨τ', hτ', hpost⟩
    · cases herr
    · cases hτ'
      exact (hpost.settled_all (Branchy.treeSettled_root sched σr hrs)).settled

/-- C23: on the weight rows `[10,0,0]`, `[0,0,0]`, `[9,0,0]` over three slots,
when the search returns (whatever the fuel) the child of entity `0` (address
`1`) is inactive and has `total_children == 2`, and its child for entity `2`,
which `create_branch(1, 1)` built in `children[2]` (address `6`), still has
`active == 1`, with a `total_weight` of `19` above the incumbent value `10`:
the loops of `select_branch` and `solution_is_active` only look at
`children[0]` and `children[1]`.  On the weight rows `[5,1]`, `[1,5]`, `[3,3]`
over two slots the root ends inactive with all three children inside the
scanned part of its array, and the children of the entities `1` and `2` still
have `active == 1`: they do not beat the incumbent of weight `10`, and
`expand_branch` deactivates the root without touching them. -/
theorem inactive_node_keeps_active_child :
    (Branchy.schedule_of 3 [([10, 0, 0], []), ([0, 0, 0], []), ([9, 0, 0], [])]
      = some Branchy.sparse ∧
    ∀ d l, 3 ≤ d → 4 ≤ l →
      (Branchy.run_search Branchy.sparse d l).map
          (fun τ => ((τ.heap 1).active, (τ.heap 1).children, (τ.heap 1).total_children,
            (τ.heap 1).parent, τ.incumbent_value)) = .ok (0, some 4, 2, some 0, 10) ∧
      (Branchy.run_search Branchy.sparse d l).map
          (fun τ => ((τ.heap 6).parent, (τ.heap 6).active, (τ.heap 6).total_weight,
            slot_ids (τ.heap 6).node_list 3)) = .ok (some 1, 1, 19, [0, 2, 1])) ∧
    (Branchy.schedule_of 2 [([5, 1], []), ([1, 5], []), ([3, 3], [])]
      = some Branchy.specialists ∧
    ∀ d l, 2 ≤ d → 4 ≤ l →
      (Branchy.run_search Branchy.specialists d l).map
          (fun τ => ((τ.heap 0).active, (τ.heap 0).children, (τ.heap 0).total_children,
            τ.incumbent_value)) = .ok (0, some 1, 3, 10) ∧
      (Branchy.run_search Branchy.specialists d l).map
          (fun τ => ((τ.heap 2).parent, (τ.heap 2).active, (τ.heap 2).total_weight))
        = .ok (some 0, 1, 4) ∧
      (Branchy.run_search Branchy.specialists d l).map
          (fun τ => ((τ.heap 3).parent, (τ.heap 3).active, (τ.heap 3).total_weight))
        = .ok (some 0, 1, 8)) :=
  ⟨⟨by decide!, fun d l hd hl =>
    ⟨Branchy.run_search_map_stable _ 3 4 _ _ (by decide!) d l hd hl,
      Branchy.run_search_map_stable _ 3 4 _ _ (by decide!) d l hd hl⟩⟩,
   ⟨by decide!, fun d l hd hl =>
    ⟨Branchy.run_search_map_stable _ 2 4 _ _ (by decide!) d l hd hl,
      Branchy.run_search_map_stable _ 2 4 _ _ (by decide!) d l hd hl,
      Branchy.run_search_map_stable _ 2 4 _ _ (by decide!) d l hd hl⟩⟩⟩

/-- C24: on the weight rows `[0,0,0]`, `[0,0,0]`, `[2,2,1]` over three slots,
after `create_root`, `create_branch(root, 0)` and `create_branch(1, 1)` the
node at address `1` (entity `0`) is active and has two children built by
`create_branch`, for the entities `1` and `2`, at the addresses `5` and `6` of
its array at `4`; both are active, with the weights `1` and `2`, above the
incumbent value `-1`.  `select_branch(1)` returns the child at `5`, of weight
`1`, not the child at `6`.  After the child at `5` has become the incumbent
(value `1`) and `create_branch(2, 1)` has run, the node at address `2` is
active and its child for entity `2` (address `9`) is active with the weight
`2 > 1`, and `select_branch(2)` returns no child. -/
theorem select_branch_misses_child :
    Branchy.schedule_of 3 [([0, 0, 0], []), ([0, 0, 0], []), ([2, 2, 1], [])]
      = some Branchy.hidden ∧
    Branchy.hidden_branched.map
        (fun σ => ((σ.heap 1).active, (σ.heap 1).children, (σ.heap 1).total_children,
          σ.incumbent_value)) = .ok (1, some 4, 2, -1) ∧
    Branchy.hidden_branched.map
        (fun σ => ((σ.heap 5).parent, (σ.heap 5).active, (σ.heap 5).total_weight,
          slot_ids (σ.heap 5).node_list 3)) = .ok (some 1, 1, 1, [0, 1, 2]) ∧
    Branchy.hidden_branched.map
        (fun σ => ((σ.heap 6).parent, (σ.heap 6).active, (σ.heap 6).total_weight,
          slot_ids (σ.heap 6).node_list 3)) = .ok (some 1, 1, 2, [0, 2, 1]) ∧
    (Branchy.hidden_branched >>= fun σ => Branchy.select_branch Branchy.hidden σ 1)
      = .ok (some 5) ∧
    Branchy.hidden_second.map
        (fun σ => ((σ.heap 2).active, (σ.heap 2).children, (σ.heap 2).total_children,
          σ.incumbent_value)) = .ok (1, some 7, 2, 1) ∧
    Branchy.hidden_second.map
        (fun σ => ((σ.heap 9).parent, (σ.heap 9).active, (σ.heap 9).total_weight,
          slot_ids (σ.heap 9).node_list 3)) = .ok (some 2, 1, 2, [1, 2, 0]) ∧
    (Branchy.hidden_second >>= fun σ => Branchy.select_branch Branchy.hidden σ 2)
      = .ok none :=
  ⟨by decide!, by decide!, by decide!, by decide!, by decide!, by decide!, by decide!,
    by decide!⟩

/-- C25: the schedule with one entity of attribute `7`, two slots and one
constraint set without tags is what `method_schedule_set_constraints` with an
empty tag list builds; on it `solution_validates_constraints` does not return
for any node whose first slot holds the entity `0` or `-1`, whatever `lfind`
answers and whatever the fuel: the scan of the first constraint set stays at
slot `0`.  With a constraint set of one tag the same happens whenever `lfind`
finds no match for the entity in slot `0`: the scan does not move on to slot
`1`. -/
theorem validates_constraints_never_returns :
    Branchy.method_schedule_set_constraints (some Branchy.tagged) []
      = .ok (some Branchy.constrained, true) ∧
    (∀ (lfind : Int → Branchy.context_t → Bool) (s : solution_t) (fuel : Nat) (e e' : Int),
      (e = 0 ∨ e = -1) → s.node_list.map node_t.person_id = [e, e'] →
      Branchy.solution_validates_constraints Branchy.constrained lfind s fuel
        = .error .outOfFuel) ∧
    (∀ (lfind : Int → Branchy.context_t → Bool) (s : solution_t) (fuel : Nat) (e' : Int),
      lfind 0 ⟨1, [7]⟩ = false → s.node_list.map node_t.person_id = [0, e'] →
      Branchy.solution_validates_constraints
          { Branchy.constrained with constraints := [⟨1, [0]⟩] } lfind s fuel
        = .error .outOfFuel) := by
  refine ⟨by decide!, ?_, ?_⟩
  · intro lfind s fuel e e' he hids
    rw [Branchy.validates_two_slots Branchy.constrained lfind s fuel e e' rfl hids]
    have hr : List.range Branchy.constrained.num_constraints.toNat = [0] := rfl
    rw [hr, Branchy.validates_loop]
    have hc : Branchy.readContext Branchy.constrained.constraints ((0 : Nat) : Int)
        = .ok ⟨0, []⟩ := rfl
    rw [hc]
    simp only [except_ok_bind]
    rw [Branchy.validates_scan_stuck Branchy.constrained lfind ⟨0, []⟩ [e, e'] e (by decide) rfl
      (by
        rcases he with h | h
        · right
          subst h
          exact ⟨⟨1, [7]⟩, rfl, rfl⟩
        · exact Or.inl h) fuel]
    rfl
  · intro lfind s fuel e' hl hids
    rw [Branchy.validates_two_slots _ lfind s fuel 0 e' rfl hids]
    have hr : List.range
        ({ Branchy.constrained with constraints := [⟨1, [0]⟩] } :
          Branchy.schedule_t).num_constraints.toNat = [0] := rfl
    rw [hr, Branchy.validates_loop]
    have hc : Branchy.readContext
        ({ Branchy.constrained with constraints := [⟨1, [0]⟩] } :
          Branchy.schedule_t).constraints ((0 : Nat) : Int) = .ok ⟨1, [0]⟩ := rfl
    rw [hc]
    simp only [except_ok_bind]
    rw [Branchy.validates_scan_stuck
      ({ Branchy.constrained with constraints := [⟨1, [0]⟩] } : Branchy.schedule_t)
      lfind ⟨1, [0]⟩ [0, e'] 0 (by decide) rfl
      (Or.inr ⟨⟨1, [7]⟩, rfl, by
        unfold Branchy.compare_contexts
        have hr1 : List.range (⟨1, [0]⟩ : Branchy.context_t).num_values = [0] := rfl
        rw [hr1, Branchy.compare_contexts_loop]
        have hk : readInt (⟨1, [0]⟩ : Branchy.context_t).values ((0 : Nat) : Int) = .ok 0 := rfl
        rw [hk]
        simp only [except_ok_bind, hl]
        rfl⟩) fuel]
    rfl

namespace Branchy

/-- The weight of the child of the root for the entity `i` bounds the true
weight of every assignment of distinct entities to one or two slots that puts
`i` into slot `0`. -/
theorem child_bounds_assignment (sched : schedule_t) (hnice : Nice sched) (S : Nat)
    (hS : sched.num_slots.toNat = S) (hS2 : S ≤ 2) (rl : List node_t) (root i cb : Nat)
    (iv : ℚ) (ch : solution_t) (hch : IsChild sched rl root 0 i cb iv ch)
    (l : List Int) (hlen : l.length = S) (hnd : l.Nodup)
    (hr : ∀ q ∈ l, 0 ≤ q ∧ q < (sched.weights.length : Int))
    (h0 : (l.getD 0 0).toNat = i) :
    assignment_weight sched l ≤ ch.total_weight := by
  rw [hch.weight, hS]
  have hlock : weight_at ch.node_list 0 = wt sched i 0 := weight_at_of_get hch.locked
  rcases l with _ | ⟨a, _ | ⟨b, _ | ⟨c, r⟩⟩⟩
  · simp only [List.length_nil] at hlen
    subst hlen
    simp [assignment_weight, weight_sum]
  · simp only [List.length_cons, List.length_nil] at hlen
    subst hlen
    simp only [List.getD_cons_zero] at h0
    simp only [assignment_weight, weight_sum, List.length_cons, List.length_nil,
      Finset.sum_range_succ, Finset.sum_range_zero, zero_add, hlock]
    have hr1 : List.range (0 + 1) = [0] := rfl
    rw [hr1]
    simp only [List.map_cons, List.map_nil, List.sum_cons, List.sum_nil, List.getD_cons_zero,
      add_zero, h0]
    exact le_refl _
  · simp only [List.length_cons, List.length_nil] at hlen
    subst hlen
    simp only [List.getD_cons_zero] at h0
    have ha := hr a (by simp)
    have hb := hr b (by simp)
    have hab : a ≠ b := by
      intro h
      rw [h] at hnd
      simp at hnd
    obtain ⟨res, hres, hget⟩ := hch.filled 1 (by omega) (by omega)
    have hw1 : weight_at ch.node_list 1 = res.1 := weight_at_of_get hget
    have hbP : b.toNat < sched.weights.length := by omega
    have hbmap : ch.used_person_id_map[b.toNat]? = some 0 := by
      rw [hch.map_get b.toNat hbP]
      have : ((b.toNat : Nat) : Int) ∉ slot_ids rl 0 ++ [(i : Int)] := by
        simp only [slot_ids, List.take_zero, List.map_nil, List.nil_append, List.mem_singleton]
        omega
      rw [if_neg this]
    have hbound : wt sched b.toNat 1 ≤ res.1 := by
      rcases hres with ⟨_, _, h3⟩ | ⟨k, _, _, _, _, _, h6, _⟩
      · have h1 := h3 b.toNat hbP hbmap
        have h2 := wt_nonneg sched hnice.1 b.toNat 1
        unfold SLOT_WEIGHT_INITIAL_VAL at h1
        linarith
      · exact h6 b.toNat hbP hbmap
    simp only [assignment_weight, weight_sum, List.length_cons, List.length_nil,
      Finset.sum_range_succ, Finset.sum_range_zero, zero_add, hlock, hw1]
    have hr2 : List.range (0 + 1 + 1) = [0, 1] := rfl
    rw [hr2]
    simp only [List.map_cons, List.map_nil, List.sum_cons, List.sum_nil, List.getD_cons_zero,
      List.getD_cons_succ, add_zero, h0]
    linarith
  · simp only [List.length_cons] at hlen
    omega

/-- A node that satisfies the incumbent invariant passes `solution_is_feasible`. -/
theorem ginv_feasible (sched : schedule_t) (hwf : WellFormed sched)
    (hslots : 0 ≤ sched.num_slots) (τ : State) (hg : GInv sched τ) (p : Nat)
    (hp : τ.incumbent_solution = some p) :
    solution_is_feasible sched (τ.heap p) = .ok 1 ∧
      (slot_ids (τ.heap p).node_list sched.num_slots.toNat).Nodup := by
  have hS : sched.num_slots = (sched.num_slots.toNat : Int) := by omega
  obtain ⟨_, _, hlen, hrange, hnd, _⟩ := hg.some_spec p hp
  refine ⟨?_, hnd⟩
  rw [solution_is_feasible_eq sched (τ.heap p) _ _ hwf.1 hS (by omega) hrange, if_pos hnd]

/-- The search over exact rationals on a schedule of one or two slots with
non-negative weights and at least as many entities as slots: it returns with
an incumbent whose ids are pairwise distinct, of greatest true weight, and
whose `total_weight` is that true weight. -/
theorem two_slot_exact (sched : Branchy.schedule_t) (hwf : Branchy.WellFormed sched)
    (hnice : Branchy.Nice sched) (h12 : sched.num_slots = 1 ∨ sched.num_slots = 2)
    (d l : Nat) (hd : 2 ≤ d) (hl : sched.num_people.toNat + 1 ≤ l) :
    ∃ ids τ p, Branchy.result_array sched τ = .ok ids ∧
      Branchy.run_search sched d l = .ok τ ∧ τ.incumbent_solution = some p ∧
      (ids.length : Int) = sched.num_slots ∧ ids.Nodup ∧
      (∀ q ∈ ids, 0 ≤ q ∧ q < sched.num_people) ∧
      (∀ other : List Int, (other.length : Int) = sched.num_slots → other.Nodup →
        (∀ q ∈ other, 0 ≤ q ∧ q < sched.num_people) →
        Branchy.assignment_weight sched other ≤ Branchy.assignment_weight sched ids) ∧
      (τ.heap p).total_weight = Branchy.assignment_weight sched ids ∧
      τ.incumbent_value = Branchy.assignment_weight sched ids := by
  have hS : sched.num_slots = (sched.num_slots.toNat : Int) := by omega
  have hS1 : 1 ≤ sched.num_slots.toNat := by omega
  have hS2 : sched.num_slots.toNat ≤ 2 := by omega
  rw [Branchy.toNat_people sched hwf] at hl
  obtain ⟨σr, _, hrs, hspec⟩ := Branchy.run_search_spec sched hwf _ hS d l (by omega) (by omega) hl
  obtain ⟨hp0, _, _, htop, hact⟩ := Branchy.rootState_pristine sched hwf _ hS σr hrs
  rcases hspec with ⟨_, hnn⟩ | ⟨τ, hτ, hpost⟩
  · exact absurd hnice hnn
  · have hfound := hpost.found hnice htop hact (by simp only [Nat.cast_zero]; omega)
    cases hinc : τ.incumbent_solution with
    | none => exact absurd hinc hfound
    | some p =>
      obtain ⟨hpb, hpc, hlen, hrange, hnd, hval⟩ := hpost.ginv.some_spec p hinc
      have hshal := hpost.shallow_all rfl hnice (by omega) (Branchy.shallow_root sched σr hrs)
      have hsum := hpost.summed_all (Branchy.allSummed_root sched σr hrs) p hpb hpc
      have htrue : (τ.heap p).total_weight = Branchy.assignment_weight sched
          (slot_ids (τ.heap p).node_list sched.num_slots.toNat) := by
        rw [hsum]
        exact Branchy.weight_sum_honest sched (τ.heap p) _ rfl hlen (hshal p hpb hpc).2.1
          (fun q hq => (hrange q hq).1)
      refine ⟨slot_ids (τ.heap p).node_list sched.num_slots.toNat, τ, p, ?_, hτ, hinc, ?_, hnd,
        ?_, ?_, htrue, ?_⟩
      · exact Branchy.result_array_some sched _ hS τ p hinc (by omega)
      · rw [slot_ids_length _ _ (by omega)]
        omega
      · intro q hq
        rw [hwf.1]
        exact hrange q hq
      · intro other holen hond hor
        rw [hwf.1] at hor
        have hlen' : other.length = sched.num_slots.toNat := by omega
        have hmem : other.getD 0 0 ∈ other := by
          rcases other with _ | ⟨a, r⟩
          · simp only [List.length_nil] at hlen'
            omega
          · simp
        have hi : (other.getD 0 0).toNat < sched.weights.length := by
          have := hor _ hmem
          omega
        have hu : (σr.heap 0).used_person_id_map[(other.getD 0 0).toNat]? ≠ some 1 := by
          rw [hrs.root.map, List.getElem?_replicate, if_pos hi]
          intro h
          cases h
        obtain ⟨ch, cbi, hch, _, hbound⟩ := hpost.kids hact (by simp only [Nat.cast_zero]; omega)
          _ hi hu
        have hw : 0 ≤ ch.total_weight := by
          rw [hch.weight]
          exact Branchy.weight_sum_nonneg _ _
            (Branchy.isChild_nice sched hwf _ hS _ 0 0 _ cbi _ _ hch (by omega)
              hp0.locked.ids_range hi hnice (hp0.entries_nonneg hnice)).2
        have hnot := (Branchy.unused_iff_not_mem sched _ 0 _ hp0.locked hi).mp hu
        have hle := hbound
          (by rw [Branchy.total_children_top sched _ 0 hp0.locked htop]; omega)
          (by
            rw [hch.active, hrs.value, if_neg]
            unfold SLOT_WEIGHT_INITIAL_VAL
            linarith)
          (Branchy.isChild_feasible_last sched hwf _ hS _ 0 0 _ cbi _ _ hch (by omega) (by omega)
            hp0.locked.ids_range hp0.locked.ids_nodup hi hnot hnice (hp0.entries_nonneg hnice))
        have hch' := Branchy.child_bounds_assignment sched hnice _ rfl hS2 _ 0 _ cbi _ _ hch
          other hlen' hond hor rfl
        rw [← htrue, hval]
        exact le_trans hch' hle
      · rw [← hval, htrue]

end Branchy

/-- C27: on a schedule with `num_people` rows of `num_slots >= 0` weights,
(1) a call of `expand_branch` on a node not branched on yet, started in a state
whose incumbent is absent or a node with `num_slots` pairwise distinct ids of
existing entities, returns a state whose incumbent, if there is one, passes
`solution_is_feasible` and has pairwise distinct ids; (2) so does the incumbent
when the search returns; (3) every id sequence that
`method_schedule_compute_solution` returns has `num_slots` ids and no
repeats. -/
theorem incumbent_passed_feasibility (sched : Branchy.schedule_t)
    (hwf : Branchy.WellFormed sched) (hslots : 0 ≤ sched.num_slots) :
    (∀ (σ τ : State) (a cb d f l : Nat), Branchy.Pristine sched σ a d → Branchy.GInv sched σ →
      (σ.heap a).children = some cb → (d : Int) ≤ sched.num_slots →
      Branchy.expand_branch sched f l σ a d = .ok τ →
      ∀ p, τ.incumbent_solution = some p →
        Branchy.solution_is_feasible sched (τ.heap p) = .ok 1 ∧
        (slot_ids (τ.heap p).node_list sched.num_slots.toNat).Nodup) ∧
    (∀ d l τ, Branchy.run_search sched d l = .ok τ →
      ∀ p, τ.incumbent_solution = some p →
        Branchy.solution_is_feasible sched (τ.heap p) = .ok 1 ∧
        (slot_ids (τ.heap p).node_list sched.num_slots.toNat).Nodup) ∧
    (∀ d l ids, Branchy.method_schedule_compute_solution (some sched) d l = .ok ids →
      (ids.length : Int) = sched.num_slots ∧ ids.Nodup) := by
  have hS : sched.num_slots = (sched.num_slots.toNat : Int) := by omega
  have hrun : ∀ d l τ, Branchy.run_search sched d l = .ok τ → Branchy.GInv sched τ := by
    intro d l τ h
    have hne : (Except.ok τ : Except Err State) ≠ .error .outOfFuel := by
      intro e
      cases e
    have h' := Branchy.run_search_stable sched d l _ h hne
      (max d (sched.num_slots.toNat + 1)) (max l (sched.weights.length + 1))
      (le_max_left _ _) (le_max_left _ _)
    obtain ⟨σr, _, hrs, hspec⟩ := Branchy.run_search_spec sched hwf _ hS
      (max d (sched.num_slots.toNat + 1)) (max l (sched.weights.length + 1))
      (le_trans (Nat.le_succ _) (le_max_right _ _))
      (le_trans (Nat.le_add_left 1 _) (le_max_right _ _)) (le_max_right _ _)
    rw [h'] at hspec
    rcases hspec with ⟨herr, _⟩ | ⟨τ', hτ', hpost⟩
    · cases herr
    · cases hτ'
      exact hpost.ginv
  refine ⟨?_, ?_, ?_⟩
  · intro σ τ a cb d f l hp hg hcb hd hex p hinc
    exact Branchy.ginv_feasible sched hwf hslots τ
      (Branchy.expand_branch_post sched hwf σ τ a cb d f l hp hg hcb hd hex).ginv p hinc
  · intro d l τ h p hinc
    exact Branchy.ginv_feasible sched hwf hslots τ (hrun d l τ h) p hinc
  · intro d l ids h
    unfold Branchy.method_schedule_compute_solution at h
    simp only at h
    obtain ⟨_, _, h⟩ := except_bind_eq_ok h
    obtain ⟨τ, hτ, hres⟩ := except_bind_eq_ok h
    have hg := hrun d l τ hτ
    cases hinc : τ.incumbent_solution with
    | none =>
      by_cases h0 : sched.num_slots.toNat = 0
      · unfold Branchy.result_array at hres
        rw [h0] at hres
        simp only [List.range_zero, List.foldlM_nil, except_pure] at hres
        cases hres
        refine ⟨?_, List.nodup_nil⟩
        simp only [List.length_nil, Nat.cast_zero]
        omega
      · rw [Branchy.result_array_none sched _ hS (by omega) τ hinc] at hres
        cases hres
    | some p =>
      obtain ⟨_, _, hlen, _, hnd, _⟩ := hg.some_spec p hinc
      rw [Branchy.result_array_some sched _ hS τ p hinc (by omega)] at hres
      cases hres
      refine ⟨?_, hnd⟩
      rw [slot_ids_length _ _ (by omega)]
      omega

/-- The hypotheses of `incumbent_passed_feasibility` on the weight rows
`[5,1]`, `[1,5]`, `[3,3]`: the incumbent when the search returns, the node at
address `1`, passes `solution_is_feasible`. -/
theorem incumbent_passed_feasibility_witness :
    Branchy.solution_is_feasible Branchy.specialists
        ((okOr (Branchy.run_search Branchy.specialists 2 4) Branchy.initial_state).heap 1)
      = .ok 1 :=
  ((incumbent_passed_feasibility Branchy.specialists (by unfold Branchy.WellFormed; decide)
      (by decide)).2.1 2 4
    (okOr (Branchy.run_search Branchy.specialists 2 4) Branchy.initial_state)
    (okOr_eq_ok _ _ (by decide!)) 1 (by decide!)).1

/-- A computation that either stops with the error `e` or agrees with a second
one keeps doing so when both are continued alike. -/
theorem bind_stop {α β : Type} (e : Err) (x x' : Except Err α) (f f' : α → Except Err β)
    (hx : x = .error e ∨ x = x') (hf : ∀ a, f a = .error e ∨ f a = f' a) :
    (x >>= f) = .error e ∨ (x >>= f) = (x' >>= f') := by
  rcases hx with hx | hx
  · left
    rw [hx]
    rfl
  · subst hx
    cases x with
    | error e => right; rfl
    | ok a => exact hf a

/-- Two step functions that agree on the elements of a list fold alike. -/
theorem foldlM_congr_mem {α β : Type} (f g : β → α → Except Err β) :
    ∀ (l : List α) (b : β), (∀ b, ∀ a ∈ l, f b a = g b a) → l.foldlM f b = l.foldlM g b := by
  intro l
  induction l with
  | nil => intro b _; rfl
  | cons a l ih =>
    intro b h
    rw [List.foldlM_cons, List.foldlM_cons, h b a (List.mem_cons_self _ _)]
    cases g b a with
    | error e => rfl
    | ok b1 =>
      simp only [except_ok_bind]
      exact ih b1 (fun b a ha => h b a (List.mem_cons_of_mem _ ha))

namespace Branchy

/-- The `while` loop of `expand_branch` run with a recursive call that always
stops with a null dereference: either it stops so, or the loop never makes the
recursive call and computes what it computes with any other one. -/
theorem expand_loop_stub (sched : schedule_t) (rec : State → Nat → Nat → Except Err State)
    (a d : Nat) :
    ∀ n σ, (expand_loop sched (fun _ _ _ => .error .nullDeref) a d n σ = .error .nullDeref ∨
      expand_loop sched (fun _ _ _ => .error .nullDeref) a d n σ = expand_loop sched rec a d n σ) := by
  intro n
  induction n with
  | zero => intro σ; right; rfl
  | succ n ih =>
    intro σ
    rw [expand_loop, expand_loop]
    by_cases hact : (σ.heap a).active = 0
    · rw [if_pos hact, if_pos hact]
      right; rfl
    · rw [if_neg hact, if_neg hact]
      apply bind_stop _ _ _ _ _ (Or.inr rfl)
      intro nr
      cases nr with
      | none => right; rfl
      | some c =>
        simp only
        apply bind_stop _ _ _ _ _ (Or.inr rfl)
        intro v
        beta_reduce
        by_cases hv0 : v ≠ 0
        · rw [if_pos hv0, if_pos hv0]
          apply bind_stop _ _ _ _ _ (Or.inr rfl)
          intro σ1
          beta_reduce
          by_cases hau : (σ1.heap c).active ≠ 0
          · rw [if_pos hau, if_pos hau]
            apply bind_stop _ _ _ _ _ (Or.inl rfl)
            intro σ2
            apply bind_stop _ _ _ _ _ (Or.inr rfl)
            intro ra
            exact ih _
          · rw [if_neg hau, if_neg hau]
            apply bind_stop _ _ _ _ _ (Or.inr rfl)
            intro σ2
            apply bind_stop _ _ _ _ _ (Or.inr rfl)
            intro ra
            exact ih _
        · rw [if_neg hv0, if_neg hv0]
          apply bind_stop _ _ _ _ _ (Or.inr rfl)
          intro σ1
          beta_reduce
          by_cases hau : (σ1.heap c).active ≠ 0
          · rw [if_pos hau, if_pos hau]
            apply bind_stop _ _ _ _ _ (Or.inl rfl)
            intro σ2
            apply bind_stop _ _ _ _ _ (Or.inr rfl)
            intro ra
            exact ih _
          · rw [if_neg hau, if_neg hau]
            apply bind_stop _ _ _ _ _ (Or.inr rfl)
            intro σ2
            apply bind_stop _ _ _ _ _ (Or.inr rfl)
            intro ra
            exact ih _

/-- On a schedule with non-negative weights, at a node with at most one slot
behind the locked ones below it, the `while` loop of `expand_branch` never
makes the recursive call: every child it selects is feasible, becomes the
incumbent and is pruned.  So the loop computes the same with any two
recursive calls. -/
theorem expand_loop_any_rec (sched : schedule_t) (hwf : WellFormed sched) (S : Nat)
    (hS : sched.num_slots = S) (hnice : Nice sched) (d : Nat) (hd : d < S) (hSd : S ≤ d + 2)
    (l : Nat) (hl : sched.weights.length + 1 ≤ l) (σ σ1 : State) (a cb : Nat)
    (hp0 : Pristine sched σ a d) (hg0 : GInv sched σ) (hcb : (σ.heap a).children = some cb)
    (hact : (σ.heap a).active ≠ 0) (hσ1 : create_branch sched σ a d = .ok σ1)
    (rec1 rec2 : State → Nat → Nat → Except Err State) :
    expand_loop sched rec1 a d l σ1 = expand_loop sched rec2 a d l σ1 := by
  have hbi := create_branch_inv sched hwf σ σ1 a cb d hp0 hcb (by rw [hS]; exact_mod_cast hd) hσ1
  have hli := loopInv_init sched hwf S hS σ σ1 a cb d hd hp0 hcb hg0 hact hbi
  obtain ⟨_, _, _, htcU, _, _, htcN⟩ := branch_root sched hwf σ σ1 a cb d hp0 hcb hbi
  have hcount := activeCount_le σ1 cb (σ1.heap a).total_children.toNat
  rcases expand_loop_spec sched hwf S hS (fun _ _ _ => .error .nullDeref) d hd
      (fun _ hN => absurd ⟨hnice, hSd⟩ hN) σ σ1 a cb hp0 hcb hbi l σ1 hli (by omega)
    with ⟨_, hnn⟩ | ⟨τ, hτ, _⟩
  · exact absurd hnice hnn
  · have h1 : expand_loop sched rec1 a d l σ1 = .ok τ := by
      rcases expand_loop_stub sched rec1 a d l σ1 with e | e
      · rw [hτ] at e
        cases e
      · rw [← e, hτ]
    have h2 : expand_loop sched rec2 a d l σ1 = .ok τ := by
      rcases expand_loop_stub sched rec2 a d l σ1 with e | e
      · rw [hτ] at e
        cases e
      · rw [← e, hτ]
    rw [h1, h2]

/-- With non-negative weights and an unused entity `max_cost_for_slot` returns
the weight of an entity. -/
theorem maxCost_entity (sched : schedule_t) (hnn : NonNeg sched) (j : Nat) (cmap : List Int)
    (res : ℚ × Int) (h : MaxCostResult sched j cmap sched.weights.length res)
    (hfree : ∃ k, k < sched.weights.length ∧ cmap[k]? = some 0) :
    ∃ k, k < sched.weights.length ∧ res.1 = wt sched k j := by
  rcases h with ⟨_, _, h3⟩ | ⟨k, hk, _, _, h4, _⟩
  · obtain ⟨k, hk, hm⟩ := hfree
    have h1 := h3 k hk hm
    have h2 := wt_nonneg sched hnn k j
    unfold SLOT_WEIGHT_INITIAL_VAL at h1
    linarith
  · exact ⟨k, hk, h4⟩

/-- One pass of the slot-filling loop computes the same with the `float`
addition when the sum of the weight so far and any weight of the slot is a
single-precision value. -/
theorem fill_step_f32_eq (sched : schedule_t) (hwf : WellFormed sched) (S : Nat)
    (hS : sched.num_slots = S) (hnn : NonNeg sched) (s : solution_t)
    (hmap : s.used_person_id_map.length = sched.weights.length)
    (hlen : s.node_list.length = S) (j : Nat) (hj : j < S)
    (hfree : ∃ k, k < sched.weights.length ∧ s.used_person_id_map[k]? = some 0)
    (hex : ∀ k, k < sched.weights.length →
      float_of (s.total_weight + wt sched k j) = s.total_weight + wt sched k j) :
    fill_step_f32 sched s j = fill_step sched s j ∧
      ∃ k t, k < sched.weights.length ∧ fill_step sched s j = .ok t ∧
        t.used_person_id_map = s.used_person_id_map ∧ t.node_list.length = S ∧
        t.total_weight = s.total_weight + wt sched k j := by
  obtain ⟨res, hres, hmax⟩ := max_cost_for_slot_spec sched hwf S hS j hj _ hmap
  obtain ⟨k, hk, hw⟩ := maxCost_entity sched hnn j _ res hmax hfree
  constructor
  · unfold fill_step_f32 fill_step
    rw [hres]
    simp only [except_ok_bind]
    rw [hw, hex k hk]
  · refine ⟨k, { s with node_list := s.node_list.set j { person_id := res.2, weight := res.1 },
                        total_weight := s.total_weight + res.1 }, hk, ?_, rfl, ?_, ?_⟩
    · unfold fill_step
      rw [hres]
      simp only [except_ok_bind]
      rw [writeNode_ok _ _ _ (by omega)]
      rfl
    · simp [hlen]
    · simp only
      rw [hw]

/-- The slot-filling loop over at most two slots computes the same with the
`float` additions when the sums it forms are single-precision values. -/
theorem fill_range_f32_eq (sched : schedule_t) (hwf : WellFormed sched) (S : Nat)
    (hS : sched.num_slots = S) (hnn : NonNeg sched) (s : solution_t)
    (hmap : s.used_person_id_map.length = sched.weights.length)
    (hlen : s.node_list.length = S)
    (a n : Nat) (han : a + n ≤ S) (hn : n ≤ 2)
    (hfree : 0 < n → ∃ k, k < sched.weights.length ∧ s.used_person_id_map[k]? = some 0)
    (h1 : 0 < n → ∀ k, k < sched.weights.length →
      float_of (s.total_weight + wt sched k a) = s.total_weight + wt sched k a)
    (h2 : n = 2 → ∀ k k', k < sched.weights.length → k' < sched.weights.length →
      float_of (s.total_weight + wt sched k a + wt sched k' (a + 1))
        = s.total_weight + wt sched k a + wt sched k' (a + 1)) :
    (List.range' a n).foldlM (fill_step_f32 sched) s
      = (List.range' a n).foldlM (fill_step sched) s := by
  rcases n with _ | _ | _ | n
  · rfl
  · obtain ⟨he, _⟩ := fill_step_f32_eq sched hwf S hS hnn s hmap hlen a (by omega)
      (hfree (by omega)) (h1 (by omega))
    simp only [List.range', List.foldlM_cons, List.foldlM_nil, he]
  · obtain ⟨he, k, t, hk, ht, htm, htl, htw⟩ :=
      fill_step_f32_eq sched hwf S hS hnn s hmap hlen a (by omega) (hfree (by omega))
        (h1 (by omega))
    obtain ⟨he2, _⟩ := fill_step_f32_eq sched hwf S hS hnn t (by rw [htm]; exact hmap) htl
      (a + 1) (by omega) (by rw [htm]; exact hfree (by omega))
      (fun k' hk' => by rw [htw]; exact h2 rfl k k' hk hk')
    simp only [List.range', List.foldlM_cons, List.foldlM_nil, he, ht, except_ok_bind, he2]
  · omega

end Branchy

namespace Branchy

/-- On a schedule of one or two slots whose sums are single-precision values
`create_root` computes the same with the `float` additions. -/
theorem create_root_f32_eq (sched : schedule_t) (hwf : WellFormed sched) (S : Nat)
    (hS : sched.num_slots = S) (hnice : Nice sched) (hS1 : 1 ≤ S) (hS2 : S ≤ 2)
    (hex : ExactSums sched) (σ : State) : create_root_f32 sched σ = create_root sched σ := by
  have hP := toNat_people sched hwf
  have hS' := toNat_slots sched S hS
  have hSP : S ≤ sched.weights.length := by
    have := hnice.2
    rw [hwf.1, hS] at this
    exact_mod_cast this
  have hpos : 0 < sched.weights.length := by omega
  have hfree : (List.replicate sched.weights.length (0 : Int))[0]? = some 0 := by
    rw [List.getElem?_replicate, if_pos hpos]
  unfold create_root_f32 create_root
  simp only [hP, hS']
  rw [List.range_eq_range',
    fill_range_f32_eq sched hwf S hS hnice.1 _ (by simp) (by simp) 0 S (by omega) hS2
      (fun _ => ⟨0, hpos, hfree⟩)
      (fun _ k hk => by simp only [zero_add]; exact (hex k hk k hk).1.1)
      (fun _ k k' hk hk' => by simp only [zero_add]; exact (hex k hk k' hk').2.2.1)]

/-- On a schedule of one or two slots whose sums are single-precision values
the child of the root for the entity `i` is the same with the `float`
additions. -/
theorem branch_child_f32_eq (sched : schedule_t) (hwf : WellFormed sched) (S : Nat)
    (hS : sched.num_slots = S) (hnice : Nice sched) (hS1 : 1 ≤ S) (hS2 : S ≤ 2)
    (hex : ExactSums sched) (i : Nat) (hi : i < sched.weights.length) (r : solution_t)
    (root cb : Nat) (iv : ℚ) :
    branch_child_f32 sched r root 0 i cb iv = branch_child sched r root 0 i cb iv := by
  have hP := toNat_people sched hwf
  have hS' := toNat_slots sched S hS
  have hSP : S ≤ sched.weights.length := by
    have := hnice.2
    rw [hwf.1, hS] at this
    exact_mod_cast this
  unfold branch_child_f32 branch_child
  rw [hP, hS']
  simp only [List.range_zero, List.foldlM_nil, except_pure, except_ok_bind]
  rw [readWeight_wt sched hwf S hS i 0 hi (by omega)]
  simp only [except_ok_bind]
  rw [writeNode_ok _ _ _ (by simp; omega), writeInt_natCast _ _ _ (by simp; omega)]
  simp only [except_ok_bind, zero_add]
  rw [(hex i hi i hi).1.1]
  rw [fill_range_f32_eq sched hwf S hS hnice.1 _ (by simp) (by simp) 1 (S - 1) (by omega)
      (by omega) ?_ ?_ (fun h => by omega)]
  · intro hn
    by_cases hi0 : i = 0
    · refine ⟨1, by omega, ?_⟩
      show ((List.replicate sched.weights.length (0 : Int)).set i 1)[1]? = some 0
      rw [List.getElem?_set_ne (by omega), List.getElem?_replicate, if_pos (by omega)]
    · refine ⟨0, by omega, ?_⟩
      show ((List.replicate sched.weights.length (0 : Int)).set i 1)[0]? = some 0
      rw [List.getElem?_set_ne (by omega), List.getElem?_replicate, if_pos (by omega)]
  · intro _ k hk
    exact (hex i hi k hk).2.2.1

/-- On a schedule of one or two slots whose sums are single-precision values
`create_branch(root, 0)` computes the same with the `float` additions. -/
theorem create_branch_f32_eq (sched : schedule_t) (hwf : WellFormed sched) (S : Nat)
    (hS : sched.num_slots = S) (hnice : Nice sched) (hS1 : 1 ≤ S) (hS2 : S ≤ 2)
    (hex : ExactSums sched) (σ : State) (root : Nat) :
    create_branch_f32 sched σ root 0 = create_branch sched σ root 0 := by
  unfold create_branch_f32 create_branch
  apply foldlM_congr_mem
  intro υ i hi
  rw [List.mem_range, toNat_people sched hwf] at hi
  have key := branch_child_f32_eq sched hwf S hS hnice hS1 hS2 hex i hi
  unfold create_branch_step_f32 create_branch_step
  simp only [key]

/-- On a schedule of one or two slots with non-negative weights, at least as
many entities as slots, and sums that are single-precision values, the search
with the `float` additions of the C code computes what the search over exact
rationals computes. -/
theorem run_search_f32_eq (sched : schedule_t) (hwf : WellFormed sched) (S : Nat)
    (hS : sched.num_slots = S) (hnice : Nice sched) (hS1 : 1 ≤ S) (hS2 : S ≤ 2)
    (hex : ExactSums sched) (d l : Nat) (hl : sched.weights.length + 1 ≤ l) :
    run_search_f32 sched d l = run_search sched d l := by
  unfold run_search_f32 run_search
  rw [create_root_f32_eq sched hwf S hS hnice hS1 hS2 hex]
  obtain ⟨σr, hσr, hrs⟩ := create_root_spec sched hwf S hS
  obtain ⟨hp, hg, hc, _, _⟩ := rootState_pristine sched hwf S hS σr hrs
  rw [hσr]
  simp only [except_ok_bind]
  cases d with
  | zero => rw [expand_branch_f32, expand_branch]
  | succ e =>
    rw [expand_branch_f32, expand_branch]
    simp only
    by_cases hdeq : ((0 : Nat) : Int) = sched.num_slots
    · rw [if_pos hdeq, if_pos hdeq]
    · rw [if_neg hdeq, if_neg hdeq]
      by_cases hact : (σr.heap 0).active = 0
      · rw [if_pos hact, if_pos hact]
      · rw [if_neg hact, if_neg hact, create_branch_f32_eq sched hwf S hS hnice hS1 hS2 hex]
        cases hcr : create_branch sched
            { σr with num_expanded_solutions := σr.num_expanded_solutions + 1 } 0 0 with
        | error e => simp only [except_error_bind]
        | ok σ1 =>
          simp only [except_ok_bind]
          exact expand_loop_any_rec sched hwf S hS hnice 0 (by omega) (by omega) l hl
            { σr with num_expanded_solutions := σr.num_expanded_solutions + 1 } σ1 0 1
            ⟨hp.locked, hp.no_children, hp.active01, hp.addr, hp.block, hp.all_in,
              hp.entries_nonneg, hp.weight⟩
            ⟨hg.none_value, hg.some_spec, hg.value_ge⟩ hc hact hcr _ _

/-- More fuel does not change what `expand_branch` with the `float` additions
computes, once it computes anything. -/
theorem expand_branch_f32_fuel (sched : schedule_t) :
    ∀ d d' l l' σ a k, d ≤ d' → l ≤ l' →
      (expand_branch_f32 sched d l σ a k = .error .outOfFuel ∨
        expand_branch_f32 sched d l σ a k = expand_branch_f32 sched d' l' σ a k) := by
  intro d
  induction d with
  | zero => intro d' l l' σ a k _ _; left; rfl
  | succ d ih =>
    intro d' l l' σ a k hd hl
    obtain ⟨e, rfl⟩ : ∃ e, d' = e + 1 := ⟨d' - 1, by omega⟩
    rw [expand_branch_f32, expand_branch_f32]
    simp only
    by_cases hk : (k : Int) = sched.num_slots
    · rw [if_pos hk, if_pos hk]
      right; rfl
    · rw [if_neg hk, if_neg hk]
      by_cases hact : (σ.heap a).active = 0
      · rw [if_pos hact, if_pos hact]
        right; rfl
      · rw [if_neg hact, if_neg hact]
        apply bind_fuel _ _ _ _ (Or.inr rfl)
        intro σ1
        exact expand_loop_fuel sched (expand_branch_f32 sched d l) (expand_branch_f32 sched e l')
          (fun σ a k => ih e l l' σ a k (by omega) hl) a k l l' σ1 hl

/-- A result of `method_schedule_compute_solution` with the `float` additions
that is not a lack of fuel is its result for every larger fuel, and so is what
the search shows of its final state. -/
theorem compute_solution_f32_stable (s : schedule_t) (d l : Nat) {β : Type} (f : State → β)
    (d' l' : Nat) (hd : d ≤ d') (hl : l ≤ l') :
    (∀ r, method_schedule_compute_solution_f32 (some s) d l = r → r ≠ .error .outOfFuel →
      method_schedule_compute_solution_f32 (some s) d' l' = r) ∧
    (∀ y, (run_search_f32 s d l).map f = .ok y → (run_search_f32 s d' l').map f = .ok y) := by
  have hrun : run_search_f32 s d l = .error .outOfFuel ∨
      run_search_f32 s d l = run_search_f32 s d' l' := by
    unfold run_search_f32
    apply bind_fuel _ _ _ _ (Or.inr rfl)
    intro r
    exact expand_branch_f32_fuel s d d' l l' r.2 r.1 0 hd hl
  constructor
  · intro r h hr
    have hb : method_schedule_compute_solution_f32 (some s) d l = .error .outOfFuel ∨
        method_schedule_compute_solution_f32 (some s) d l =
          method_schedule_compute_solution_f32 (some s) d' l' := by
      unfold method_schedule_compute_solution_f32
      simp only
      exact bind_fuel _ _ _ _ (Or.inr rfl)
        (fun _ => bind_fuel _ _ _ _ hrun (fun _ => Or.inr rfl))
    rcases hb with h1 | h1
    · rw [h] at h1
      exact absurd h1 hr
    · rw [← h1, h]
  · intro y h
    rcases hrun with h1 | h1
    · rw [h1] at h
      cases h
    · rw [← h1]
      exact h

end Branchy

/-- C26 (counterexample): on the weight rows `[16777216,1]`, `[16777216,0]`
over two slots (non-negative weights, as many entities as slots, every weight a
single-precision value) the search with the `float` additions of the C code
gives both children of the root the `total_weight` `16777216`, because
`16777216 + 1` is rounded to `16777216`; the child of entity `0` is taken and
never beaten, and `method_schedule_compute_solution` returns `[0, 1]`, of true
weight `16777216`, although `[1, 0]` has the true weight `16777217`, whatever
the fuel. -/
theorem two_slot_search_rounds :
    Branchy.schedule_of 2 [([16777216, 1], []), ([16777216, 0], [])] = some Branchy.large ∧
    Branchy.large.num_people ≥ Branchy.large.num_slots ∧
    (∀ row ∈ Branchy.large.weights, ∀ w ∈ row, (0 : ℚ) ≤ w) ∧
    float_of (16777216 + 1) = 16777216 ∧
    (∀ d l, 2 ≤ d → 3 ≤ l →
      Branchy.method_schedule_compute_solution_f32 (some Branchy.large) d l = .ok [0, 1] ∧
      (Branchy.run_search_f32 Branchy.large d l).map
          (fun τ => (τ.incumbent_solution, τ.incumbent_value, (τ.heap 1).total_weight,
            (τ.heap 2).total_weight)) = .ok (some 1, 16777216, 16777216, 16777216)) ∧
    Branchy.assignment_weight Branchy.large [0, 1] = 16777216 ∧
    Branchy.assignment_weight Branchy.large [1, 0] = 16777217 :=
  ⟨by decide!, by decide, by decide!, by decide!,
    fun d l hd hl =>
      ⟨(Branchy.compute_solution_f32_stable Branchy.large 2 3 (fun τ => τ) d l hd hl).1 _
          (by decide!) (by decide),
        (Branchy.compute_solution_f32_stable Branchy.large 2 3 _ d l hd hl).2 _ (by decide!)⟩,
    by decide!, by decide!⟩

/-- C26 (amended): on every schedule with `num_people` rows of `num_slots`
non-negative weights, `num_slots` being `1` or `2`, `num_people >= num_slots`
and `num_people - num_slots <= 33`, on which every weight of slot `0`, every
weight of slot `1` and every sum of a weight of slot `0` and a weight of slot
`1` is a single-precision value below `2 ^ 128` in magnitude (`ExactSums`),
`method_schedule_compute_solution`, with the `float` additions
of the C code (and fuel for two levels of recursion and `num_people + 1` loop
evaluations), returns `num_slots` pairwise distinct ids of existing entities
whose true weight, the sum over the slots `s` of `weights[id_s][s]`, is at
least the true weight of every assignment of pairwise distinct existing
entities to the slots; the `total_weight` of the incumbent and
`incumbent_value` equal that true weight. -/
theorem two_slot_search_optimal (sched : Branchy.schedule_t) (hwf : Branchy.WellFormed sched)
    (hnice : Branchy.Nice sched) (h12 : sched.num_slots = 1 ∨ sched.num_slots = 2)
    (hex : Branchy.ExactSums sched) (hfact : sched.num_people - sched.num_slots < 34)
    (d l : Nat) (hd : 2 ≤ d) (hl : sched.num_people.toNat + 1 ≤ l) :
    ∃ ids τ p, Branchy.method_schedule_compute_solution_f32 (some sched) d l = .ok ids ∧
      Branchy.run_search_f32 sched d l = .ok τ ∧ τ.incumbent_solution = some p ∧
      (ids.length : Int) = sched.num_slots ∧ ids.Nodup ∧
      (∀ q ∈ ids, 0 ≤ q ∧ q < sched.num_people) ∧
      (∀ other : List Int, (other.length : Int) = sched.num_slots → other.Nodup →
        (∀ q ∈ other, 0 ≤ q ∧ q < sched.num_people) →
        Branchy.assignment_weight sched other ≤ Branchy.assignment_weight sched ids) ∧
      (τ.heap p).total_weight = Branchy.assignment_weight sched ids ∧
      τ.incumbent_value = Branchy.assignment_weight sched ids := by
  have hS : sched.num_slots = (sched.num_slots.toNat : Int) := by omega
  obtain ⟨ids, τ, p, hres, hτ, hrest⟩ := Branchy.two_slot_exact sched hwf hnice h12 d l hd hl
  have hl' := hl
  rw [Branchy.toNat_people sched hwf] at hl'
  have heq := Branchy.run_search_f32_eq sched hwf _ hS hnice (by omega) (by omega) hex d l hl'
  obtain ⟨q, hq⟩ := int_div_fact_ok sched.num_people sched.num_slots hfact
  refine ⟨ids, τ, p, ?_, by rw [heq]; exact hτ, hrest⟩
  unfold Branchy.method_schedule_compute_solution_f32
  simp only [hq, heq, hτ, except_ok_bind]
  exact hres

/-- The hypotheses of `two_slot_search_optimal` on the weight rows `[5,1]`,
`[1,5]`, `[3,3]` over two slots. -/
theorem two_slot_search_optimal_witness :
    ∃ ids τ p, Branchy.method_schedule_compute_solution_f32 (some Branchy.specialists) 2 4
        = .ok ids ∧
      Branchy.run_search_f32 Branchy.specialists 2 4 = .ok τ ∧ τ.incumbent_solution = some p ∧
      (ids.length : Int) = Branchy.specialists.num_slots ∧ ids.Nodup ∧
      (∀ q ∈ ids, 0 ≤ q ∧ q < Branchy.specialists.num_people) ∧
      (∀ other : List Int, (other.length : Int) = Branchy.specialists.num_slots → other.Nodup →
        (∀ q ∈ other, 0 ≤ q ∧ q < Branchy.specialists.num_people) →
        Branchy.assignment_weight Branchy.specialists other
          ≤ Branchy.assignment_weight Branchy.specialists ids) ∧
      (τ.heap p).total_weight = Branchy.assignment_weight Branchy.specialists ids ∧
      τ.incumbent_value = Branchy.assignment_weight Branchy.specialists ids :=
  two_slot_search_optimal Branchy.specialists (by unfold Branchy.WellFormed; decide)
    (by unfold Branchy.Nice Branchy.NonNeg; decide!) (Or.inr rfl)
    (by unfold Branchy.ExactSums; decide!) (by decide) 2 4 (by decide) (by decide)

